import Mathlib

/-!
Verification development for the igraph `st-cuts.c` module: Even–Tarjan
reduction, residual / reverse-residual graphs, the Lengauer–Tarjan dominator
tree, and the Provan–Shier enumeration of (s,t) cuts.

The definitions below are a shallow embedding of `src/src/flow/st-cuts.c`.
Vertices are natural numbers in `[0, n)`; an `IGraph` stores the vertex count
and the edge list in edge-id order, exactly the information the C code reads
through `igraph_vcount`, `igraph_ecount`, `IGRAPH_FROM` and `IGRAPH_TO`.
`igraph_real_t` values (capacities, flows) are modelled by `ℚ`; the module
only compares them, so rational arithmetic is faithful.  C while-loops become
fuel-based structural recursion; all fuels used by the top-level functions are
proved (or chosen generously enough) to never run out on well-formed input.
Out-of-scope igraph core facilities (DFS, BFS, induced subgraphs, SCCs,
the marked queue and the element stack) are modelled from their documented
contracts, as noted on each definition.
-/

namespace StCuts

/-- Error codes surfaced by the module: `einval` (`IGRAPH_EINVAL`),
`unimplemented` (`IGRAPH_UNIMPLEMENTED`), `overflow` (`IGRAPH_EOVERFLOW`),
`dup` (failed `igraph_estack_push` of an element already present) and
`noFuel`, the marker used by the embedding when a recursion fuel is
exhausted (proved unreachable where needed). -/
inductive IError where
  | einval : IError
  | unimplemented : IError
  | overflow : IError
  | dup : IError
  | noFuel : IError
deriving DecidableEq, Repr

/-- Neighborhood mode, as `igraph_neimode_t`: `out` = `IGRAPH_OUT`,
`inn` = `IGRAPH_IN`, `all` = `IGRAPH_ALL`. -/
inductive NeiMode where
  | out : NeiMode
  | inn : NeiMode
  | all : NeiMode
deriving DecidableEq, Repr

/-- `IGRAPH_REVERSE_MODE`. -/
def NeiMode.reverse : NeiMode → NeiMode
  | .out => .inn
  | .inn => .out
  | .all => .all

/-- A directed multigraph in the `igraph_t` style: a vertex count and the
edge list in edge-id order.  `IGRAPH_FROM g i = (g.edges.get i).1`,
`IGRAPH_TO g i = (g.edges.get i).2`. -/
structure IGraph where
  n : ℕ
  edges : List (ℕ × ℕ)
  directed : Bool
deriving DecidableEq, Repr

/-- Well-formedness invariant of `igraph_t`: every endpoint is a vertex. -/
def IGraph.WF (g : IGraph) : Prop :=
  ∀ e ∈ g.edges, e.1 < g.n ∧ e.2 < g.n

instance (g : IGraph) : Decidable g.WF := by
  unfold IGraph.WF; infer_instance

/-- `igraph_create`: build a graph from an edge list.  (The real function
also checks that endpoints are below `n`; the module always calls it with
in-range endpoints, so the check is omitted here.) -/
def igraphCreate (edges : List (ℕ × ℕ)) (n : ℕ) (directed : Bool) : IGraph :=
  ⟨n, edges, directed⟩

/-- Pointwise update of a function-modelled integer array. -/
def upd {α : Type} (f : ℕ → α) (i : ℕ) (x : α) : ℕ → α :=
  fun j => if j = i then x else f j

/-! ### Even–Tarjan reduction (`igraph_even_tarjan_reduction`) -/

/-- Result of a checked arithmetic step: `IGRAPH_SAFE_MULT` /
`IGRAPH_SAFE_ADD` fail with the overflow error when the exact result
exceeds the largest `igraph_integer_t`, modelled by the parameter
`intMax`. -/
def safeOp (intMax : ℕ) (v : ℕ) : Except IError ℕ :=
  if v ≤ intMax then .ok v else .error .overflow

/-- `igraph_even_tarjan_reduction`, parametric in the platform limits
`intMax` (largest `igraph_integer_t`) and `eCountMax`
(`IGRAPH_ECOUNT_MAX`).  Mirrors the C function: compute
`new_no_of_nodes = 2n` and `new_no_of_edges = 2m + n` with checked
arithmetic, reject edge counts above `eCountMax`, then emit one inner edge
`(i, i+n)` per vertex (capacity 1) and the pair `(from+n, to)`,
`(to+n, from)` per original edge (capacity `n`, the infinity sentinel).
The capacity vector is produced only when `wantCapacity` is set. -/
def evenTarjanReduction (intMax eCountMax : ℕ) (g : IGraph)
    (wantCapacity : Bool) : Except IError (IGraph × Option (List ℚ)) :=
  match safeOp intMax (g.n * 2) with
  | .error e => .error e
  | .ok _ =>
    match safeOp intMax (g.edges.length * 2 + g.n) with
    | .error e => .error e
    | .ok newEdges =>
      if newEdges > eCountMax then
        .error .overflow
      else
        .ok (igraphCreate
          ((List.range g.n).map (fun i => (i, i + g.n)) ++
            g.edges.flatMap (fun e => [(e.1 + g.n, e.2), (e.2 + g.n, e.1)]))
          (g.n * 2) true,
          if wantCapacity then
            some (List.replicate g.n (1 : ℚ) ++
              List.replicate (2 * g.edges.length) (g.n : ℚ))
          else none)

/-! ### Residual graphs -/

/-- The capacity of edge `i` as read by `igraph_i_reverse_residual_graph`:
the vector entry, or 1 when no capacity vector was given. -/
def capAt (capacity : Option (List ℚ)) (i : ℕ) : ℚ :=
  match capacity with
  | some c => c.getD i 0
  | none => 1

/-- `igraph_i_reverse_residual_graph` edge construction: for each original
edge, first the pair `(from, to)` when its flow is positive, then the pair
`(to, from)` when its flow is below capacity (a missing capacity vector is
treated as all ones). -/
def reverseResidualEdges (g : IGraph) (capacity : Option (List ℚ))
    (flow : List ℚ) : List (ℕ × ℕ) :=
  (List.range g.edges.length).flatMap (fun i =>
    (if flow.getD i 0 > 0
      then [((g.edges.getD i (0, 0)).1, (g.edges.getD i (0, 0)).2)] else []) ++
    (if flow.getD i 0 < capAt capacity i
      then [((g.edges.getD i (0, 0)).2, (g.edges.getD i (0, 0)).1)] else []))

/-- `igraph_reverse_residual_graph`: size checks (`IGRAPH_EINVAL`) then the
edge construction above on the same vertex set. -/
def reverseResidualGraph (g : IGraph) (capacity : Option (List ℚ))
    (flow : List ℚ) : Except IError IGraph :=
  if capacity.any (fun c => c.length ≠ g.edges.length) then
    .error .einval
  else if flow.length ≠ g.edges.length then
    .error .einval
  else
    .ok (igraphCreate (reverseResidualEdges g capacity flow) g.n true)

/-- `igraph_i_residual_graph` edge construction (forward residual): one edge
`(from, to)` per original edge with positive residual capacity. -/
def residualEdges (g : IGraph) (capacity : List ℚ) (flow : List ℚ) :
    List (ℕ × ℕ) :=
  (List.range g.edges.length).flatMap (fun i =>
    let e := g.edges.getD i (0, 0)
    if capacity.getD i 0 - flow.getD i 0 > 0 then [(e.1, e.2)] else [])

/-- Check that an `Except` result is a success. -/
def exceptIsOk {ε α : Type} (r : Except ε α) : Bool :=
  match r with
  | .ok _ => true
  | .error _ => false

/-- Project the graph out of a `reverseResidualGraph` result (the empty graph
on error; only used on success paths). -/
def exceptGraph (r : Except IError IGraph) : IGraph :=
  match r with
  | .ok x => x
  | .error _ => ⟨0, [], true⟩

/-- The property asserted by claim C5 at a given input: the reverse residual
graph contains the forward pair `(from, to)` iff `f < c` and the reverse pair
`(to, from)` iff `f > 0`.  (The code does the opposite: forward iff `f > 0`,
reverse iff `f < c`.) -/
def ClaimC5At (g : IGraph) (capacity : Option (List ℚ)) (flow : List ℚ) : Prop :=
  exceptIsOk (reverseResidualGraph g capacity flow) = true ∧
  ∀ i ∈ List.range g.edges.length,
    (((g.edges.getD i (0, 0)).1, (g.edges.getD i (0, 0)).2) ∈
        (exceptGraph (reverseResidualGraph g capacity flow)).edges ↔
      flow.getD i 0 < capAt capacity i) ∧
    (((g.edges.getD i (0, 0)).2, (g.edges.getD i (0, 0)).1) ∈
        (exceptGraph (reverseResidualGraph g capacity flow)).edges ↔
      flow.getD i 0 > 0)

instance (g : IGraph) (c : Option (List ℚ)) (f : List ℚ) :
    Decidable (ClaimC5At g c f) := by
  unfold ClaimC5At; infer_instance

/-! ### Containers: `igraph_marked_queue_int_t` and `igraph_estack_t`

Both live in `core/marked_queue.c` and `core/estack.c`, outside this
module; they are modelled from the spec (sections 4.2 and 4.3): an
insertion-ordered vertex list with a stack of batch boundaries, and a
stack with at-most-one occurrence per element. -/

/-- Modelled from the spec: `igraph_marked_queue_int_t`, an insertion-ordered
list of vertices with a stack of batch boundaries (`batches` holds the list
length recorded by each `start_batch`, most recent first). -/
structure MarkedQueue where
  els : List ℕ
  batches : List ℕ
deriving DecidableEq, Repr

/-- `igraph_marked_queue_int_iselement`. -/
def MarkedQueue.iselement (S : MarkedQueue) (v : ℕ) : Bool :=
  S.els.contains v

/-- `igraph_marked_queue_int_size`. -/
def MarkedQueue.size (S : MarkedQueue) : ℕ := S.els.length

/-- `igraph_marked_queue_int_start_batch`. -/
def MarkedQueue.startBatch (S : MarkedQueue) : MarkedQueue :=
  ⟨S.els, S.els.length :: S.batches⟩

/-- `igraph_marked_queue_int_push` (callers guard with `iselement`, so the
"must not already be present" precondition is enforced at call sites). -/
def MarkedQueue.push (S : MarkedQueue) (v : ℕ) : MarkedQueue :=
  ⟨S.els ++ [v], S.batches⟩

/-- `igraph_marked_queue_int_as_vector`: the elements in insertion order. -/
def MarkedQueue.asVector (S : MarkedQueue) : List ℕ := S.els

/-- `igraph_marked_queue_int_pop_back_batch`: remove exactly the vertices
pushed since the last `start_batch`. -/
def MarkedQueue.popBackBatch (S : MarkedQueue) : MarkedQueue :=
  match S.batches with
  | k :: bs => ⟨S.els.take k, bs⟩
  | [] => ⟨S.els, []⟩

/-- Modelled from the spec: `igraph_estack_t`, a stack (top first) with an
O(1) membership test and at most one occurrence per element. -/
structure EStack where
  els : List ℕ
deriving DecidableEq, Repr

/-- `igraph_estack_iselement`. -/
def EStack.iselement (T : EStack) (v : ℕ) : Bool := T.els.contains v

/-- `igraph_estack_push`, which fails when the element is already present. -/
def EStack.push (T : EStack) (v : ℕ) : Except IError EStack :=
  if T.els.contains v then .error .dup else .ok ⟨v :: T.els⟩

/-- `igraph_estack_pop` (the popped value is not used by this module). -/
def EStack.pop (T : EStack) : EStack := ⟨T.els.tail⟩

/-! ### Graph traversal: `igraph_dfs` and `igraph_bfs`

Both are igraph core services used by this module; they are modelled from
their documented contracts.  Neighbors are visited in edge-id order. -/

/-- Adjacency of a vertex in the given mode, in edge-id order (loops once,
multiple edges kept), as used by `igraph_adjlist_init` /
`igraph_neighbors`. -/
def adjFn (g : IGraph) (mode : NeiMode) : ℕ → List ℕ :=
  fun v =>
    match mode with
    | .out => (g.edges.filter (fun e => e.1 = v)).map (fun e => e.2)
    | .inn => (g.edges.filter (fun e => e.2 = v)).map (fun e => e.1)
    | .all => (g.edges.filter (fun e => e.1 = v)).map (fun e => e.2) ++
              (g.edges.filter (fun e => e.2 = v)).map (fun e => e.1)

/-- State of the iterative depth-first search: a stack of frames
`(vertex, remaining neighbors)`, the visited bitmap, the preorder,
the DFS tree father (`-1` for the root, `-2` for unvisited vertices) and the
in/out callback event sequence (`true` = enter, `false` = leave). -/
structure DfsState where
  stack : List (ℕ × List ℕ)
  visited : ℕ → Bool
  order : List ℕ
  father : ℕ → ℤ
  events : List (ℕ × Bool)

/-- Modelled from the spec: initial DFS state, with the root visited. -/
def dfsInit (A : ℕ → List ℕ) (root : ℕ) : DfsState :=
  { stack := [(root, A root)]
    visited := upd (fun _ => false) root true
    order := [root]
    father := upd (fun _ => (-2 : ℤ)) root (-1)
    events := [(root, true)] }

/-- One step of the DFS: finish the top frame (emitting the leave event), or
skip a visited neighbor, or descend into an unvisited neighbor. -/
def dfsStep (A : ℕ → List ℕ) (st : DfsState) : DfsState :=
  match st.stack with
  | [] => st
  | (v, []) :: rest =>
    { st with stack := rest, events := st.events ++ [(v, false)] }
  | (v, w :: ws) :: rest =>
    if st.visited w then { st with stack := (v, ws) :: rest }
    else
      { stack := (w, A w) :: (v, ws) :: rest
        visited := upd st.visited w true
        order := st.order ++ [w]
        father := upd st.father w (v : ℤ)
        events := st.events ++ [(w, true)] }

/-- Run the DFS for the given number of steps (the fuel used below is a safe
upper bound on the number of steps any run can take). -/
def dfsRun (A : ℕ → List ℕ) : ℕ → DfsState → DfsState
  | 0, st => st
  | fuel + 1, st =>
    match st.stack with
    | [] => st
    | _ :: _ => dfsRun A fuel (dfsStep A st)

/-- Fuel bound for a DFS on `g`: every vertex is pushed and popped at most
once and every adjacency entry is consumed at most once. -/
def dfsFuel (g : IGraph) : ℕ := 2 + 2 * g.n + 2 * g.edges.length

/-- Modelled from the spec: `igraph_dfs` with `unreachable = 0` (only the
root component is traversed), returning the preorder, the DFS fathers and
the callback event sequence. -/
def igraphDfs (g : IGraph) (root : ℕ) (mode : NeiMode) : DfsState :=
  dfsRun (adjFn g mode) (dfsFuel g) (dfsInit (adjFn g mode) root)

/-- State of the breadth-first search: the not-yet-processed root list, the
FIFO queue, the visited bitmap and the dequeue order. -/
structure BfsState where
  roots : List ℕ
  queue : List ℕ
  visited : ℕ → Bool
  order : List ℕ

/-- One BFS step: dequeue a vertex and enqueue its admissible unvisited
neighbors, or (with an empty queue) take up the next root. -/
def bfsStep (A : ℕ → List ℕ) (ok : ℕ → Bool) (st : BfsState) : BfsState :=
  match st.queue with
  | v :: q =>
    let p := (A v).foldl
      (fun (p : List ℕ × (ℕ → Bool)) w =>
        if ok w && !(p.2 w) then (p.1 ++ [w], upd p.2 w true) else p)
      (q, st.visited)
    { st with queue := p.1, visited := p.2, order := st.order ++ [v] }
  | [] =>
    match st.roots with
    | r :: rs =>
      if ok r && !(st.visited r) then
        { st with roots := rs, queue := [r], visited := upd st.visited r true }
      else { st with roots := rs }
    | [] => st

/-- A BFS state is final when there is nothing left to process. -/
def BfsState.Done (st : BfsState) : Prop := st.roots = [] ∧ st.queue = []

instance (st : BfsState) : Decidable st.Done := by
  unfold BfsState.Done; infer_instance

/-- Run the BFS for at most the given number of steps. -/
def bfsRun (A : ℕ → List ℕ) (ok : ℕ → Bool) : ℕ → BfsState → BfsState
  | 0, st => st
  | fuel + 1, st =>
    if st.Done then st else bfsRun A ok fuel (bfsStep A ok st)

/-- Fuel bound for a BFS: every root is examined once and every vertex is
enqueued and dequeued at most once. -/
def bfsFuel (g : IGraph) (roots : List ℕ) : ℕ := roots.length + 2 * g.n + 1

/-- Admissibility of a vertex for the BFS: it is a vertex of `g` and lies in
the restricted set when one is given. -/
def bfsOk (g : IGraph) (restricted : Option (List ℕ)) : ℕ → Bool :=
  fun w =>
    decide (w < g.n) && (match restricted with
      | none => true
      | some l => l.contains w)

/-- Termination measure of the BFS: pending roots, queued vertices, and two
units per unvisited vertex. -/
def bfsMeasure (n : ℕ) (st : BfsState) : ℕ :=
  st.roots.length + st.queue.length +
    2 * ((Finset.range n).filter (fun v => st.visited v = false)).card

/-- Modelled from the spec: `igraph_bfs` with a root sequence, an optional
restricted vertex set and `unreachable = 0`; returns the visit order. -/
def igraphBfs (g : IGraph) (roots : List ℕ) (restricted : Option (List ℕ))
    (mode : NeiMode) : List ℕ :=
  (bfsRun (adjFn g mode) (bfsOk g restricted) (bfsFuel g roots)
    ⟨roots, [], fun _ => false, []⟩).order

/-! ### Induced subgraph with maps (`igraph_induced_subgraph_map`) -/

/-- Modelled from the spec: `igraph_induced_subgraph_map` on the vertex list
`keep` (kept vertices in order become `0, 1, ...`).  Returns the induced
subgraph, the forward map (`keep`-index + 1, or 0 for dropped vertices) and
the inverse map (the `keep` list itself, read through `List.getD`). -/
def inducedSubgraphMap (g : IGraph) (keep : List ℕ) :
    IGraph × (ℕ → ℕ) × List ℕ :=
  let mp : ℕ → ℕ :=
    keep.enum.foldl (fun f p => upd f p.2 (p.1 + 1)) (fun _ => 0)
  let edges := g.edges.filterMap (fun e =>
    if 0 < mp e.1 ∧ 0 < mp e.2 then some (mp e.1 - 1, mp e.2 - 1) else none)
  (⟨keep.length, edges, g.directed⟩, mp, keep)

/-! ### Dominator tree (`igraph_dominator_tree`) -/

/-- Scratch state of the Lengauer–Tarjan main loop: `semi` (1-based preorder
numbers), `label` and `ancestor` of the LINK/EVAL forest (`ancestor = 0`
means root, otherwise vertex + 1), the immediate-dominator output `dom`
(`-2` unreachable, `-1` root) and the semi-bucket (`bhead bid = elem + 1` or
0 when empty; `bnext` the chained next pointers). -/
structure LTState where
  semi : ℕ → ℕ
  label : ℕ → ℕ
  ancestor : ℕ → ℕ
  dom : ℕ → ℤ
  bhead : ℕ → ℕ
  bnext : ℕ → ℕ

/-- The ancestor path collected by `igraph_i_dominator_COMPRESS`: walk up
while the ancestor pointer is set, pushing each vertex. -/
def compressPath (ancestor : ℕ → ℕ) : ℕ → ℕ → List ℕ
  | 0, _ => []
  | fuel + 1, w =>
    if ancestor w = 0 then [] else w :: compressPath ancestor fuel (ancestor w - 1)

/-- `igraph_i_dominator_COMPRESS`: re-process the collected path from the
highest non-root element down, propagating the minimum-`semi` label and
splicing ancestor pointers. -/
def ltCompress (n : ℕ) (st : LTState) (v : ℕ) : LTState :=
  let path := compressPath st.ancestor (n + 1) v
  match path.reverse with
  | [] => st
  | top :: rest =>
    (rest.foldl (fun (p : ℕ × LTState) pretop =>
      let st := p.2
      let st :=
        if st.semi (st.label p.1) < st.semi (st.label pretop) then
          { st with label := upd st.label pretop (st.label p.1) }
        else st
      (pretop, { st with ancestor := upd st.ancestor pretop (st.ancestor p.1) }))
      (top, st)).2

/-- `igraph_i_dominator_EVAL`. -/
def ltEval (n : ℕ) (st : LTState) (v : ℕ) : ℕ × LTState :=
  if st.ancestor v = 0 then (v, st)
  else
    let st := ltCompress n st v
    (st.label v, st)

/-- `igraph_i_dbucket_insert`. -/
def ltBucketInsert (st : LTState) (bid elem : ℕ) : LTState :=
  { st with bnext := upd st.bnext elem (st.bhead bid)
            bhead := upd st.bhead bid (elem + 1) }

/-- Drain `bucket[pw]` as in the main loop of `igraph_dominator_tree`:
repeatedly delete an element `v`, evaluate it and set
`dom[v] = semi[u] < semi[v] ? u : parentW`. -/
def ltDrain (n : ℕ) (parentW : ℤ) (pw : ℕ) : ℕ → LTState → LTState
  | 0, st => st
  | fuel + 1, st =>
    if st.bhead pw = 0 then st
    else
      let v := st.bhead pw - 1
      let st1 := { st with bhead := upd st.bhead pw (st.bnext v) }
      let p := ltEval n st1 v
      let st2 := { p.2 with
        dom := upd p.2.dom v
          (if p.2.semi p.1 < p.2.semi v then (p.1 : ℤ) else parentW) }
      ltDrain n parentW pw fuel st2

/-- The unordered swap-with-last removal loop used to prune unreachable
predecessors from an adjacency list (`j` scans the list; an element whose
`parent` is below `-1` is replaced by the last element, which is dropped). -/
def pruneGo (parent : ℕ → ℤ) : ℕ → ℕ → List ℕ → List ℕ
  | 0, _, l => l
  | fuel + 1, j, l =>
    if j < l.length then
      if parent (l.getD j 0) ≥ -1 then pruneGo parent fuel (j + 1) l
      else pruneGo parent fuel j ((l.set j (l.getLast?.getD 0)).dropLast)
    else l

/-- Pruned predecessor list of a vertex (the `pred` adjacency list after the
swap-with-last filtering of unreachable entries). -/
def prunedPred (g : IGraph) (invmode : NeiMode) (parent : ℕ → ℤ) (v : ℕ) :
    List ℕ :=
  pruneGo parent (2 * (adjFn g invmode v).length + 1) 0 (adjFn g invmode v)

/-- One iteration of the Lengauer–Tarjan main loop (steps 2 and 3) for
preorder index `i`: update `semi[w]` over the pruned predecessors, insert
`w` into the bucket of its semidominator, LINK it to its DFS parent and
drain the parent bucket. -/
def ltMainStep (g : IGraph) (invmode : NeiMode) (n : ℕ) (parent : ℕ → ℤ)
    (vertexArr : ℕ → ℕ) (st : LTState) (i : ℕ) : LTState :=
  let w := vertexArr i - 1
  let st := (prunedPred g invmode parent w).foldl (fun st v =>
    let p := ltEval n st v
    if p.2.semi p.1 < p.2.semi w then
      { p.2 with semi := upd p.2.semi w (p.2.semi p.1) }
    else p.2) st
  let st := ltBucketInsert st (vertexArr (st.semi w - 1) - 1) w
  let st := { st with ancestor := upd st.ancestor w ((parent w).toNat + 1) }
  ltDrain n (parent w) (parent w).toNat (n + 1) st

/-- `igraph_dominator_tree` after its argument checks: DFS from the root,
preorder numbering, the main Lengauer–Tarjan loop in reverse preorder, the
final fix-up pass, and the dominator tree / leftout outputs.  Returns
`(dom, domtree, leftout)`. -/
def dominatorTreeRun (g : IGraph) (root : ℕ) (mode : NeiMode) :
    List ℤ × IGraph × List ℕ :=
  let n := g.n
  let invmode := mode.reverse
  let dfs := igraphDfs g root mode
  let order := dfs.order
  let parent := dfs.father
  let compSize := order.length
  let semi0 : ℕ → ℕ :=
    order.enum.foldl (fun f p => upd f p.2 (p.1 + 1)) (fun _ => 0)
  let vertexArr : ℕ → ℕ :=
    order.enum.foldl (fun f p => upd f p.1 (p.2 + 1)) (fun _ => 0)
  let leftout := (List.range n).filter (fun j => parent j < -1)
  let st0 : LTState :=
    { semi := semi0, label := fun v => v, ancestor := fun _ => 0
      dom := fun _ => -2, bhead := fun _ => 0, bnext := fun _ => 0 }
  let st := (((List.range compSize).drop 1).reverse).foldl
    (ltMainStep g invmode n parent vertexArr) st0
  let dom1 := (((List.range compSize).drop 1)).foldl (fun dom i =>
    let w := vertexArr i - 1
    if dom w ≠ (vertexArr (st.semi w - 1) : ℤ) - 1 then
      upd dom w (dom ((dom w).toNat))
    else dom) st.dom
  let domF := upd dom1 root (-1)
  let treeEdges := (List.range n).filterMap (fun i =>
    if i ≠ root ∧ 0 ≤ domF i then
      some (if mode = .out then ((domF i).toNat, i) else (i, (domF i).toNat))
    else none)
  ((List.range n).map domF, igraphCreate treeEdges n true, leftout)

/-- `igraph_dominator_tree`: the three argument checks (in source order:
root range, directedness, mode), then the computation.  The root is an
`igraph_integer_t`, so it is modelled as `ℤ`. -/
def dominatorTree (g : IGraph) (root : ℤ) (mode : NeiMode) :
    Except IError (List ℤ × IGraph × List ℕ) :=
  if root < 0 ∨ (g.n : ℤ) ≤ root then .error .einval
  else if ¬ g.directed then .error .einval
  else if mode = .all then .error .einval
  else .ok (dominatorTreeRun g root.toNat mode)

/-! ### The all-cuts pivot (`igraph_i_all_st_cuts_pivot`) -/

/-- `igraph_i_all_st_cuts_minimal`: fold the reverse-DFS callback events of
the dominator tree.  The in-callback marks the current stack top as
non-minimal when a further `GammaX` vertex is found below it and pushes the
vertex; the out-callback pops it.  `minimal` collects the unmarked
vertices. -/
def minimalElems (n : ℕ) (domtree : IGraph) (root : ℕ) (γ : ℕ → Bool)
    (invmap : List ℕ) : List ℕ :=
  let events := (igraphDfs domtree root .inn).events
  let final := events.foldl (fun (p : List ℕ × (ℕ → Bool)) ev =>
    let realvid := invmap.getD ev.1 0
    if ev.2 then
      if γ realvid then
        (realvid :: p.1,
         match p.1 with
         | top :: _ => upd p.2 top true
         | [] => p.2)
      else p
    else
      (match p.1 with
       | top :: rest => if top = realvid then rest else p.1
       | [] => p.1, p.2)) ([], fun i => !(γ i))
  (List.range n).filter (fun i => !(final.2 i))

/-- The `Gamma(S)` bitmap built by `igraph_i_all_st_cuts_pivot`: for an empty
`S` only the source (in `Sbar` coordinates, which coincide with the original
ones there); otherwise every out-neighbor of an `S` vertex outside `S`. -/
def gammaS (g : IGraph) (S : MarkedQueue) (mp : ℕ → ℕ) (source : ℕ) :
    ℕ → Bool :=
  if S.size = 0 then upd (fun _ => false) (mp source - 1) true
  else
    (List.range g.n).foldl (fun γ i =>
      if S.iselement i then
        (adjFn g .out i).foldl (fun γ nei =>
          if S.iselement nei then γ else upd γ nei true) γ
      else γ) (fun _ => false)

/-- The per-candidate loop of `igraph_i_all_st_cuts_pivot`: for each minimal
element in order, compute `Nu(v)` (the dominator-tree subtree, translated
back), the restricted BFS `I(S,v) - K` from `Gamma(S)`, and accept the first
candidate whose reachable set avoids `T` and the target; the real `I(S,v)`
is then a BFS from `v` restricted to `Nu(v) ++ leftout`. -/
def pivotAllLoop (g : IGraph) (T : EStack) (target : ℕ) (mp : ℕ → ℕ)
    (invmap : List ℕ) (domtree : IGraph) (leftout : List ℕ)
    (gammaVec : List ℕ) : List ℕ → ℕ × List ℕ
  | [] => (0, [])
  | mi :: rest =>
    let minV := mp mi - 1
    let nuv := (igraphDfs domtree minV .inn).order.map (fun t => invmap.getD t 0)
    let isvMin := igraphBfs g gammaVec (some nuv) .out
    if isvMin.all (fun u => !(T.iselement u) && u ≠ target) then
      (mi, igraphBfs g [mi] (some (nuv ++ leftout)) .out)
    else
      pivotAllLoop g T target mp invmap domtree leftout gammaVec rest

/-- `igraph_i_all_st_cuts_pivot`: build the induced subgraph on `V - S`, its
reverse dominator tree rooted at the target, `Gamma(S)`, the minimal
elements `M`, and run the candidate loop.  When no candidate is accepted the
returned `Isv` is empty (and the returned `v` is the untouched caller value,
0). -/
def pivotAllCuts (g : IGraph) (S : MarkedQueue) (T : EStack)
    (source target : ℕ) : Except IError (ℕ × List ℕ) :=
  let n := g.n
  let keep := (List.range n).filter (fun i => !(S.iselement i))
  let im := inducedSubgraphMap g keep
  let root : ℤ := (im.2.1 target : ℤ) - 1
  match dominatorTree im.1 root .inn with
  | .error e => .error e
  | .ok (_dom, domtree, leftout0) =>
    let γ0 := gammaS g S im.2.1 source
    let leftout := leftout0.map (fun x => im.2.2.getD x 0)
    let γ := leftout.foldl (fun γ x => upd γ x false) γ0
    let M := if 0 < domtree.edges.length then
        minimalElems n domtree root.toNat γ im.2.2
      else []
    let gammaVec := (List.range n).filter (fun i => γ i)
    .ok (pivotAllLoop g T target im.2.1 im.2.2 domtree leftout gammaVec M)

/-! ### The Provan–Shier enumeration (`igraph_provan_shier_list`) -/

/-- The type of pivot functions passed to `igraph_provan_shier_list`. -/
def PivotFn : Type :=
  IGraph → MarkedQueue → EStack → ℕ → ℕ → Except IError (ℕ × List ℕ)

/-- `igraph_provan_shier_list`: ask the pivot for `(v, Isv)`; when `Isv` is
empty emit `S` (if proper and non-empty); otherwise push `v` on `T`, recurse
(left), pop, push the fresh elements of `Isv` into `S` as one batch, recurse
(right) and pop the batch.  The fuel counts recursion depth; `noFuel` is
proved unreachable for the fuels used by the callers.  Returns the emitted
partitions together with the final `S` and `T`. -/
def psList (g : IGraph) (pivot : PivotFn) (source target : ℕ) :
    ℕ → MarkedQueue → EStack →
    Except IError (List (List ℕ) × MarkedQueue × EStack)
  | 0, _, _ => .error .noFuel
  | fuel + 1, S, T =>
    match pivot g S T source target with
    | .error e => .error e
    | .ok (v, Isv) =>
      if Isv.isEmpty then
        if S.size ≠ 0 ∧ S.size ≠ g.n then .ok ([S.asVector], S, T)
        else .ok ([], S, T)
      else
        match T.push v with
        | .error e => .error e
        | .ok T1 =>
          match psList g pivot source target fuel S T1 with
          | .error e => .error e
          | .ok (parts1, S1, T2) =>
            match psList g pivot source target fuel
                (Isv.foldl (fun S u => if S.iselement u then S else S.push u)
                  S1.startBatch) T2.pop with
            | .error e => .error e
            | .ok (parts2, S3, T4) =>
              .ok (parts1 ++ parts2, S3.popBackBatch, T4)

/-- The edge-cut extraction loop of `igraph_all_st_cuts`: for partition `i`,
mark its members with the token `i+1` in the reused `inS` array and collect
the edges from a marked vertex to an unmarked one. -/
def cutsFromPartitions (g : IGraph) (parts : List (List ℕ)) :
    List (List ℕ) :=
  (parts.enum.foldl (fun (p : (ℕ → ℕ) × List (List ℕ)) ip =>
    let inS := ip.2.foldl (fun f v => upd f v (ip.1 + 1)) p.1
    let cut := (List.range g.edges.length).filter (fun j =>
      inS (g.edges.getD j (0, 0)).1 = ip.1 + 1 ∧
      inS (g.edges.getD j (0, 0)).2 ≠ ip.1 + 1)
    (inS, p.2 ++ [cut])) ((fun _ => 0), [])).2

/-- `igraph_all_st_cuts`: reject undirected graphs (`IGRAPH_UNIMPLEMENTED`),
run the Provan–Shier enumeration from `S = T = ∅` with the all-cuts pivot,
and derive the edge cuts from the emitted partitions.  Returns
`(cuts, partition1s)`.  Note: the C function performs no validation of
`source` and `target`. -/
def allStCuts (g : IGraph) (source target : ℕ) :
    Except IError (List (List ℕ) × List (List ℕ)) :=
  if ¬ g.directed then .error .unimplemented
  else
    match psList g pivotAllCuts source target (g.n + 1) ⟨[], []⟩ ⟨[]⟩ with
    | .error e => .error e
    | .ok (partitions, _, _) =>
      .ok (cutsFromPartitions g partitions, partitions)

/-! ### All minimum cuts (`igraph_all_st_mincuts`) -/

/-- `igraph_vector_min` (the module calls it only on non-empty vectors;
the empty case returns 1 here, outside the C function's defined domain). -/
def vecMin (l : List ℚ) : ℚ :=
  match l with
  | [] => 1
  | x :: xs => xs.foldl min x

/-- Modelled from the spec: strongly-connected-component membership
(`igraph_connected_components` with `IGRAPH_STRONG`).  Components are
numbered by their smallest vertex in order of first appearance; only the
partition itself matters to the callers. -/
def sccMembership (g : IGraph) : (ℕ → ℕ) × ℕ :=
  let rep : ℕ → ℕ := fun v =>
    ((List.range g.n).filter (fun u =>
      (igraphBfs g [u] none .out).contains v &&
      (igraphBfs g [v] none .out).contains u)).headD v
  let reps := ((List.range g.n).map rep).dedup
  (fun v => reps.indexOf (rep v), reps.length)

/-- Modelled from the spec: `igraph_contract_vertices` — replace every
endpoint by its component id. -/
def contractVertices (g : IGraph) (memb : ℕ → ℕ) (nc : ℕ) : IGraph :=
  ⟨nc, g.edges.map (fun e => (memb e.1, memb e.2)), g.directed⟩

/-- Modelled from the spec: `igraph_simplify` with `multiple = loops = true`
— drop self-loops and keep the first occurrence of every remaining edge. -/
def simplifyGraph (g : IGraph) : IGraph :=
  ⟨g.n,
   (g.edges.filter (fun e => e.1 ≠ e.2)).foldl
     (fun acc e => if acc.contains e then acc else acc ++ [e]) [],
   g.directed⟩

/-- `igraph_i_all_st_mincuts_minimal`: in-degrees in `Sbar` (loops counted),
minus, for every non-active vertex, its out-edges; the minimal active
elements are the active vertices left with in-degree 0. -/
def minimalActive (sbar : IGraph) (active : ℕ → Bool) (invmap : List ℕ) :
    List ℕ :=
  let indeg0 : ℕ → ℕ := fun v => sbar.edges.countP (fun e => e.2 = v)
  let indeg := (List.range sbar.n).foldl (fun ind i =>
    if active (invmap.getD i 0) then ind
    else (adjFn sbar .out i).foldl (fun ind nei => upd ind nei (ind nei - 1)) ind)
    indeg0
  (List.range sbar.n).filter (fun i =>
    active (invmap.getD i 0) && indeg i = 0)

/-- `igraph_i_all_st_mincuts_pivot`: with `S` saturated return an empty
`Isv`; otherwise take the first minimal active element of the induced graph
on `V - S` that is neither the target nor in `T`, and let `Isv` be the
vertices that reach it (reverse BFS restricted to `V - S`) and are not in
`T`. -/
def pivotMinCuts (active : ℕ → Bool) : PivotFn := fun g S T _source target =>
  if S.size = g.n then .ok (0, [])
  else
    let keep := (List.range g.n).filter (fun i => !(S.iselement i))
    let im := inducedSubgraphMap g keep
    let M := minimalActive im.1 active im.2.2
    match M.find? (fun mi =>
      im.2.2.getD mi 0 ≠ target && !(T.iselement (im.2.2.getD mi 0))) with
    | none => .ok (0, [])
    | some mi =>
      let v := im.2.2.getD mi 0
      let order := igraphBfs g [v] (some keep) .inn
      .ok (v, order.filter (fun u => !(T.iselement u)))

/-- The `revmap` expansion of `igraph_all_st_mincuts`: a bucketed inverse of
the component map as two linked arrays (`ptr cid` = last original vertex of
component `cid` plus one, `nxt v` = previous vertex of the same component
plus one). -/
def revWalk (nxt : ℕ → ℕ) : ℕ → ℕ → List ℕ
  | 0, _ => []
  | _ + 1, 0 => []
  | fuel + 1, ov + 1 => ov :: revWalk nxt fuel (nxt ov)

/-- Expand contracted-graph partitions back to original vertex sets through
the `revmap` linked lists. -/
def expandPartitions (g : IGraph) (memb : ℕ → ℕ) (closedsets : List (List ℕ)) :
    List (List ℕ) :=
  let pr := (List.range g.n).foldl
    (fun (p : (ℕ → ℕ) × (ℕ → ℕ)) i =>
      (upd p.1 (memb i) (i + 1), upd p.2 i (p.1 (memb i))))
    ((fun _ => 0), (fun _ => 0))
  closedsets.map (fun sc =>
    sc.flatMap (fun vtx => revWalk pr.2 (g.n + 1) (pr.1 vtx)))

/-- The cut extraction of `igraph_all_st_mincuts`: for each expanded
partition, the positive-flow edges from a member to a non-member (same
token scheme as `igraph_all_st_cuts`). -/
def mincutCuts (g : IGraph) (flow : List ℚ) (parts : List (List ℕ)) :
    List (List ℕ) :=
  (parts.enum.foldl (fun (p : (ℕ → ℕ) × List (List ℕ)) ip =>
    let memb := ip.2.foldl (fun f v => upd f v (ip.1 + 1)) p.1
    let cut := (List.range g.edges.length).filter (fun j =>
      flow.getD j 0 > 0 ∧
      memb (g.edges.getD j (0, 0)).1 = ip.1 + 1 ∧
      memb (g.edges.getD j (0, 0)).2 ≠ ip.1 + 1)
    (memb, p.2 ++ [cut])) ((fun _ => 0), [])).2

/-- `igraph_all_st_mincuts`.  The external `igraph_maxflow` call is modelled
from the spec by the extra inputs `flow` (per-edge flow values) and `value`
(the maxflow value); everything else mirrors the C function: the four
argument checks, the reverse residual graph of the flow, its strong
contraction and simplification, the active bitmap (endpoints of
positive-flow edges, in contracted coordinates), the Provan–Shier
enumeration with the mincut pivot, and the expansion of the enumerated
closed sets back to original vertices and positive-flow edge cuts. -/
def allStMincuts (g : IGraph) (source target : ℕ) (capacity : Option (List ℚ))
    (flow : List ℚ) (value : ℚ) :
    Except IError (ℚ × List (List ℕ) × List (List ℕ)) :=
  if ¬ g.directed then .error .unimplemented
  else if g.n ≤ source then .error .einval
  else if g.n ≤ target then .error .einval
  else if source = target then .error .einval
  else if capacity.any (fun c => vecMin c ≤ 0) then .error .einval
  else
    match reverseResidualGraph g capacity flow with
    | .error e => .error e
    | .ok residual =>
      let scc := sccMembership residual
      let contracted := simplifyGraph (contractVertices residual scc.1 scc.2)
      let active : ℕ → Bool := (List.range g.edges.length).foldl (fun a i =>
        if flow.getD i 0 > 0 then
          upd (upd a (scc.1 (g.edges.getD i (0, 0)).1) true)
            (scc.1 (g.edges.getD i (0, 0)).2) true
        else a) (fun _ => false)
      match psList contracted (pivotMinCuts active) (scc.1 source)
          (scc.1 target) (contracted.n + 1) ⟨[], []⟩ ⟨[]⟩ with
      | .error e => .error e
      | .ok (closedsets, _, _) =>
        let partitions := expandPartitions g scc.1 closedsets
        .ok (value, mincutCuts g flow partitions, partitions)

/-! ### Claim-level decidable properties -/

/-- Decidable equality of `Except` results, for concrete evaluation. -/
instance {ε α : Type} [DecidableEq ε] [DecidableEq α] : DecidableEq (Except ε α)
  | .error e1, .error e2 =>
    decidable_of_iff (e1 = e2) ⟨fun h => by rw [h], fun h => by cases h; rfl⟩
  | .ok x, .ok y =>
    decidable_of_iff (x = y) ⟨fun h => by rw [h], fun h => by cases h; rfl⟩
  | .error _, .ok _ => isFalse fun h => by cases h
  | .ok _, .error _ => isFalse fun h => by cases h

/-- The cut list of a successful `igraph_all_st_cuts` result. -/
def cutsOf (r : Except IError (List (List ℕ) × List (List ℕ))) :
    List (List ℕ) :=
  match r with
  | .ok x => x.1
  | .error _ => []

/-- The partition list of a successful `igraph_all_st_cuts` result. -/
def partsOf (r : Except IError (List (List ℕ) × List (List ℕ))) :
    List (List ℕ) :=
  match r with
  | .ok x => x.2
  | .error _ => []

/-- The property asserted by claim C2 at a given input: `igraph_all_st_cuts`
succeeds, the emitted source-side partitions are exactly the vertex sets `P`
with `s ∈ P` and `t ∉ P` (every such set appears, and no set appears twice),
and every cut entry is the list of edge ids leaving its partition. -/
def ClaimC2At (g : IGraph) (s t : ℕ) : Prop :=
  exceptIsOk (allStCuts g s t) = true ∧
  (∀ p ∈ partsOf (allStCuts g s t), s ∈ p ∧ t ∉ p) ∧
  (∀ X ∈ (List.range g.n).sublists, s ∈ X → t ∉ X →
    ∃ p ∈ partsOf (allStCuts g s t), p.toFinset = X.toFinset) ∧
  ((partsOf (allStCuts g s t)).map List.toFinset).Nodup ∧
  (cutsOf (allStCuts g s t)).length = (partsOf (allStCuts g s t)).length ∧
  (∀ i < (partsOf (allStCuts g s t)).length,
    (cutsOf (allStCuts g s t)).getD i [] =
      (List.range g.edges.length).filter (fun j =>
        decide ((g.edges.getD j (0, 0)).1 ∈
          (partsOf (allStCuts g s t)).getD i []) &&
        !decide ((g.edges.getD j (0, 0)).2 ∈
          (partsOf (allStCuts g s t)).getD i [])))

instance (g : IGraph) (s t : ℕ) : Decidable (ClaimC2At g s t) := by
  unfold ClaimC2At; infer_instance

/-- The property asserted by claim C6 for `igraph_all_st_cuts` at a given
input: an undirected graph is rejected with the unimplemented error, and an
out-of-range or equal source/target pair is rejected with the
invalid-argument error. -/
def ClaimC6At (g : IGraph) (s t : ℕ) : Prop :=
  (¬ g.directed → allStCuts g s t = .error .unimplemented) ∧
  (g.directed → (g.n ≤ s ∨ g.n ≤ t ∨ s = t) →
    allStCuts g s t = .error .einval)

instance (g : IGraph) (s t : ℕ) : Decidable (ClaimC6At g s t) := by
  unfold ClaimC6At
  refine @And.decidable _ _ ?_ ?_ <;> infer_instance

/-! ### Reachability and the dominator characterization -/

/-- One admissible traversal step in `g`: `b` is a `mode`-neighbor of `a`
and is admissible for `ok`.  The restricted BFS of the module only ever
moves along such steps. -/
abbrev bstep (g : IGraph) (mode : NeiMode) (ok : ℕ → Bool) (a b : ℕ) :
    Prop :=
  b ∈ adjFn g mode a ∧ ok b = true

/-- Reachability along admissible steps.  The start vertex is not required
to be admissible here; the BFS checks admissibility of the roots
separately. -/
abbrev ReachVia (g : IGraph) (mode : NeiMode) (ok : ℕ → Bool) (a b : ℕ) :
    Prop :=
  Relation.ReflTransGen (bstep g mode ok) a b

/-- The kept vertex list of `igraph_i_all_st_cuts_pivot`: the complement of
`S` in vertex order. -/
def keepOf (g : IGraph) (S : MarkedQueue) : List ℕ :=
  (List.range g.n).filter (fun i => !(S.iselement i))

/-- The dominator computation performed by the pivot on the subgraph
induced by the kept list `K`, rooted at the translated target. -/
def domResK (g : IGraph) (K : List ℕ) (t : ℕ) : List ℤ × IGraph × List ℕ :=
  dominatorTreeRun (inducedSubgraphMap g K).1
    (((inducedSubgraphMap g K).2.1 t : ℤ) - 1).toNat .inn

/-- The `leftout` list of the pivot (vertices of the induced subgraph that
the reverse dominator pass never reaches), translated back to original
vertex ids. -/
def leftoutK (g : IGraph) (K : List ℕ) (t : ℕ) : List ℕ :=
  (domResK g K t).2.2.map (fun x => (inducedSubgraphMap g K).2.2.getD x 0)

/-- The dominator subtree `Nu(x)` of the pivot: the DFS preorder of the
reverse dominator tree from the translated `x`, mapped back to original
vertex ids. -/
def nuvK (g : IGraph) (K : List ℕ) (t x : ℕ) : List ℕ :=
  (igraphDfs (domResK g K t).2.1 ((inducedSubgraphMap g K).2.1 x - 1)
    .inn).order.map (fun w => (inducedSubgraphMap g K).2.2.getD w 0)

/-- Reachability from `x` to `t` within the vertex list `K`, decided by the
module's own restricted BFS. -/
def reachB (g : IGraph) (K : List ℕ) (x t : ℕ) : Prop :=
  t ∈ igraphBfs g [x] (some K) .out

instance (g : IGraph) (K : List ℕ) (x t : ℕ) :
    Decidable (reachB g K x t) := by
  unfold reachB
  infer_instance

/-- The `Gamma(S)` bitmap of the pivot after the `leftout` vertices are
cleared. -/
def gammaFn (g : IGraph) (S : MarkedQueue) (source t : ℕ) : ℕ → Bool :=
  (leftoutK g (keepOf g S) t).foldl (fun γ x => upd γ x false)
    (gammaS g S (inducedSubgraphMap g (keepOf g S)).2.1 source)

/-- The `Gamma(S)` vertex list handed to the restricted BFS calls of the
pivot. -/
def gammaVecOf (g : IGraph) (S : MarkedQueue) (source t : ℕ) : List ℕ :=
  (List.range g.n).filter (fun i => gammaFn g S source t i)

/-- Invariant of the duplicate-freeness argument for a vertex `u` held on
the exclusion stack `T`: `u` is a vertex of `g` outside `S`, it is not left
out (it still reaches the target inside the kept set), and it is reachable
from `Gamma(S)` inside its own dominator subtree `Nu(u)` — which is exactly
what makes the acceptance check of the pivot reject every candidate whose
subtree contains `u`. -/
def Ginv (g : IGraph) (S : MarkedQueue) (source t u : ℕ) : Prop :=
  u < g.n ∧ S.iselement u = false ∧ u ∉ leftoutK g (keepOf g S) t ∧
  u ∈ igraphBfs g (gammaVecOf g S source t)
    (some (nuvK g (keepOf g S) t u)) .out

/-- Semantic correctness of the dominator pass at target `t`, stated for
every kept vertex set: `leftout` is exactly the set of kept vertices that
cannot reach `t` within the kept set, and the dominator subtree `Nu(x)` of
a kept vertex that reaches `t` consists exactly of the kept vertices all of
whose paths to `t` inside the kept set pass through `x`.  This is the
correctness property of the Lengauer–Tarjan pass; the duplicate-freeness of
the enumeration is proved below modulo this decidable property. -/
def DomSound (g : IGraph) (t : ℕ) : Prop :=
  ∀ K ∈ (List.range g.n).sublists, t ∈ K →
    (∀ x ∈ List.range g.n,
      (x ∈ leftoutK g K t ↔ (x ∈ K ∧ ¬ reachB g K x t))) ∧
    (∀ x ∈ K, reachB g K x t → ∀ w ∈ List.range g.n,
      (w ∈ nuvK g K t x ↔
        (w ∈ K ∧ reachB g K w t ∧ ¬ reachB g (K.erase x) w t)))

instance (g : IGraph) (t : ℕ) : Decidable (DomSound g t) := by
  unfold DomSound
  infer_instance

end StCuts

/-! ## Theorems -/

namespace StCuts

/-! ### Container lemmas -/

theorem mq_pushLoop_shape (Isv : List ℕ) (S : MarkedQueue) :
    ∃ extra,
      (Isv.foldl (fun S u => if S.iselement u then S else S.push u) S).els =
        S.els ++ extra ∧
      (Isv.foldl (fun S u => if S.iselement u then S else S.push u) S).batches =
        S.batches := by
  induction Isv generalizing S with
  | nil => exact ⟨[], by simp⟩
  | cons u rest ih =>
    simp only [List.foldl_cons]
    by_cases hmem : S.iselement u = true
    · simpa [hmem] using ih S
    · simp only [Bool.not_eq_true] at hmem
      obtain ⟨extra, h1, h2⟩ := ih (S.push u)
      rw [if_neg (by simp [hmem])]
      refine ⟨u :: extra, ?_, ?_⟩
      · rw [h1]; simp [MarkedQueue.push]
      · rw [h2]; rfl

theorem mq_popBackBatch_pushLoop (Isv : List ℕ) (S : MarkedQueue) :
    (Isv.foldl (fun S u => if S.iselement u then S else S.push u)
      S.startBatch).popBackBatch = S := by
  obtain ⟨extra, h1, h2⟩ := mq_pushLoop_shape Isv S.startBatch
  have hb : (Isv.foldl (fun S u => if S.iselement u then S else S.push u)
      S.startBatch).batches = S.els.length :: S.batches := by
    rw [h2]; rfl
  have he : (Isv.foldl (fun S u => if S.iselement u then S else S.push u)
      S.startBatch).els = S.els ++ extra := by
    rw [h1]; rfl
  simp only [MarkedQueue.popBackBatch, hb, he]
  cases S with
  | mk els batches => simp [List.take_left]

theorem estack_push_ok (T T1 : EStack) (v : ℕ) (h : T.push v = .ok T1) :
    T1 = ⟨v :: T.els⟩ ∧ T.els.contains v = false := by
  unfold EStack.push at h
  by_cases hc : T.els.contains v = true
  · rw [if_pos hc] at h; cases h
  · rw [if_neg hc] at h
    cases h
    exact ⟨rfl, by simpa using hc⟩

theorem estack_pop_push (T : EStack) (v : ℕ) :
    (⟨v :: T.els⟩ : EStack).pop = T := by
  cases T with
  | mk els => simp [EStack.pop]

/-- Any successful return of `igraph_provan_shier_list` leaves `S` and
`T` exactly as they were at entry: the pivot vertex pushed on `T` for the
left branch is popped again, and the `Isv` batch pushed into `S` for the
right branch is removed by `pop_back_batch` — for any graph, any pivot
function and any fuel (helper form, quantifiers inside). -/
theorem psList_restores_state (g : IGraph) (pivot : PivotFn)
    (source target : ℕ) :
    ∀ (fuel : ℕ) (S : MarkedQueue) (T : EStack) parts S' T',
      psList g pivot source target fuel S T = .ok (parts, S', T') →
      S' = S ∧ T' = T := by
  intro fuel
  induction fuel with
  | zero =>
    intro S T parts S' T' h
    exact absurd h (by simp [psList])
  | succ fuel ih =>
    intro S T parts S' T' h
    rw [psList] at h
    split at h
    next e hpiv => cases h
    next v Isv hpiv =>
      split at h
      · split at h
        · cases h; exact ⟨rfl, rfl⟩
        · cases h; exact ⟨rfl, rfl⟩
      · split at h
        next e hpush => cases h
        next T1 hpush =>
          split at h
          next e hleft => cases h
          next parts1 S1 T2 hleft =>
            rcases hright : psList g pivot source target fuel
                (Isv.foldl (fun S u => if S.iselement u then S else S.push u)
                  S1.startBatch) T2.pop with e | ⟨parts2, S3, T4⟩
            · rw [hright] at h; cases h
            · rw [hright] at h
              cases h
              obtain ⟨hS1, hT2⟩ := ih S T1 parts1 S1 T2 hleft
              obtain ⟨hS3, hT4⟩ := ih _ _ parts2 S3 T' hright
              constructor
              · rw [hS3, hS1, mq_popBackBatch_pushLoop]
              · obtain ⟨hT1, _⟩ := estack_push_ok T T1 v hpush
                rw [hT4, hT2, hT1, estack_pop_push]

/-- C10: every call to `igraph_provan_shier_list` that returns successfully
leaves `S` and `T` exactly as they were at entry: the vertex pushed onto `T`
before the left branch is popped afterwards, and the batch of `Isv` vertices
pushed into `S` before the right branch is removed by `pop_back_batch`, so
the caller's `S` contents, batch structure and `T` stack are restored on
every successful return (for any graph, pivot function and fuel). -/
theorem psList_frame (g : IGraph) (pivot : PivotFn) (source target fuel : ℕ)
    (S : MarkedQueue) (T : EStack) (parts : List (List ℕ))
    (S' : MarkedQueue) (T' : EStack)
    (h : psList g pivot source target fuel S T = .ok (parts, S', T')) :
    S' = S ∧ T' = T :=
  psList_restores_state g pivot source target fuel S T parts S' T' h

set_option maxRecDepth 40000 in
/-- Witness for C10: a concrete successful run on the one-vertex graph. -/
theorem psList_frame_witness :
    (psList ⟨1, [], true⟩ pivotAllCuts 0 0 2 ⟨[], []⟩ ⟨[]⟩ =
      .ok ([], ⟨[], []⟩, ⟨[]⟩)) ∧
    ((⟨[], []⟩ : MarkedQueue) = ⟨[], []⟩ ∧ (⟨[]⟩ : EStack) = ⟨[]⟩) :=
  ⟨rfl, psList_frame ⟨1, [], true⟩ pivotAllCuts 0 0 2 ⟨[], []⟩ ⟨[]⟩ []
    ⟨[], []⟩ ⟨[]⟩ rfl⟩

theorem upd_same {α : Type} (f : ℕ → α) (i : ℕ) (x : α) : upd f i x i = x := by
  simp [upd]

theorem upd_other {α : Type} (f : ℕ → α) (i j : ℕ) (x : α) (h : j ≠ i) :
    upd f i x j = f j := by
  simp [upd, h]

/-! ### BFS lemmas -/

theorem unvCard_upd (n w : ℕ) (vis : ℕ → Bool) (hw : w < n)
    (hv : vis w = false) :
    ((Finset.range n).filter (fun v => upd vis w true v = false)).card + 1 =
      ((Finset.range n).filter (fun v => vis v = false)).card := by
  have hset : (Finset.range n).filter (fun v => upd vis w true v = false) =
      ((Finset.range n).filter (fun v => vis v = false)).erase w := by
    ext x
    simp only [Finset.mem_filter, Finset.mem_erase, Finset.mem_range]
    by_cases hx : x = w
    · subst hx
      simp [upd_same]
    · rw [upd_other _ _ _ _ hx]
      constructor
      · rintro ⟨h1, h2⟩; exact ⟨hx, h1, h2⟩
      · rintro ⟨_, h1, h2⟩; exact ⟨h1, h2⟩
  rw [hset]
  have hmem : w ∈ (Finset.range n).filter (fun v => vis v = false) := by
    simp [Finset.mem_filter, Finset.mem_range, hw, hv]
  exact Finset.card_erase_add_one hmem

theorem bfs_enqueue_bound (n : ℕ) (ok : ℕ → Bool)
    (hok : ∀ w, ok w = true → w < n) (l : List ℕ) :
    ∀ (q : List ℕ) (vis : ℕ → Bool),
      ((l.foldl (fun (p : List ℕ × (ℕ → Bool)) w =>
          if ok w && !(p.2 w) then (p.1 ++ [w], upd p.2 w true) else p)
        (q, vis)).1.length +
       2 * ((Finset.range n).filter (fun v =>
          (l.foldl (fun (p : List ℕ × (ℕ → Bool)) w =>
            if ok w && !(p.2 w) then (p.1 ++ [w], upd p.2 w true) else p)
          (q, vis)).2 v = false)).card ≤
       q.length +
       2 * ((Finset.range n).filter (fun v => vis v = false)).card) ∧
      (∀ x, vis x = true →
        (l.foldl (fun (p : List ℕ × (ℕ → Bool)) w =>
          if ok w && !(p.2 w) then (p.1 ++ [w], upd p.2 w true) else p)
        (q, vis)).2 x = true) := by
  induction l with
  | nil => intro q vis; exact ⟨le_refl _, fun x hx => hx⟩
  | cons w rest ih =>
    intro q vis
    simp only [List.foldl_cons]
    by_cases hc : (ok w && !(vis w)) = true
    · rw [if_pos hc]
      obtain ⟨hcard, hmono⟩ := ih (q ++ [w]) (upd vis w true)
      have hc2 := hc
      rw [Bool.and_eq_true] at hc2
      have hwn : w < n := hok w hc2.1
      have hvw : vis w = false := by simpa using hc2.2
      constructor
      · refine le_trans hcard ?_
        rw [List.length_append]
        have := unvCard_upd n w vis hwn hvw
        simp only [List.length_singleton]
        omega
      · intro x hx
        refine hmono x ?_
        by_cases hxw : x = w
        · subst hxw; exact upd_same _ _ _
        · rw [upd_other _ _ _ _ hxw]; exact hx
    · rw [if_neg hc]
      exact ih q vis

theorem bfsStep_measure (g : IGraph) (restricted : Option (List ℕ))
    (mode : NeiMode) (st : BfsState) (hnd : ¬ st.Done) :
    bfsMeasure g.n (bfsStep (adjFn g mode) (bfsOk g restricted) st) <
      bfsMeasure g.n st := by
  have hok : ∀ w, bfsOk g restricted w = true → w < g.n := by
    intro w hw
    unfold bfsOk at hw
    rw [Bool.and_eq_true] at hw
    exact of_decide_eq_true hw.1
  unfold bfsStep bfsMeasure
  rcases hq : st.queue with _ | ⟨v, q⟩
  · rcases hr : st.roots with _ | ⟨r, rs⟩
    · exact absurd ⟨hr, hq⟩ hnd
    · dsimp only
      by_cases hc : (bfsOk g restricted r && !(st.visited r)) = true
      · rw [if_pos hc]
        have hc2 := hc
        rw [Bool.and_eq_true] at hc2
        have hrn : r < g.n := hok r hc2.1
        have hvr : st.visited r = false := by simpa using hc2.2
        have := unvCard_upd g.n r st.visited hrn hvr
        simp only [hq, hr]
        simp only [List.length_cons, List.length_nil]
        omega
      · rw [if_neg hc]
        simp only [hq, hr, List.length_cons]
        omega
  · dsimp only
    obtain ⟨hcard, _⟩ := bfs_enqueue_bound g.n (bfsOk g restricted) hok
      (adjFn g mode v) q st.visited
    simp only [hq, List.length_cons, List.length_append]
    omega

theorem bfsRun_done (g : IGraph) (restricted : Option (List ℕ))
    (mode : NeiMode) :
    ∀ (fuel : ℕ) (st : BfsState), bfsMeasure g.n st ≤ fuel →
      (bfsRun (adjFn g mode) (bfsOk g restricted) fuel st).Done := by
  intro fuel
  induction fuel with
  | zero =>
    intro st h
    unfold bfsMeasure at h
    rw [bfsRun]
    constructor
    · have : st.roots.length = 0 := by omega
      exact List.length_eq_zero.1 this
    · have : st.queue.length = 0 := by omega
      exact List.length_eq_zero.1 this
  | succ fuel ih =>
    intro st h
    rw [bfsRun]
    by_cases hd : st.Done
    · rw [if_pos hd]; exact hd
    · rw [if_neg hd]
      refine ih _ ?_
      have := bfsStep_measure g restricted mode st hd
      omega

theorem bfsRun_preserves {A : ℕ → List ℕ} {ok : ℕ → Bool}
    (P : BfsState → Prop)
    (hstep : ∀ st, P st → P (bfsStep A ok st)) :
    ∀ fuel st, P st → P (bfsRun A ok fuel st) := by
  intro fuel
  induction fuel with
  | zero => intro st h; exact h
  | succ fuel ih =>
    intro st h
    rw [bfsRun]
    by_cases hd : st.Done
    · rw [if_pos hd]; exact h
    · rw [if_neg hd]; exact ih _ (hstep st h)

theorem bfs_fold_visited_mono (ok : ℕ → Bool) (l : List ℕ) :
    ∀ (q : List ℕ) (vis : ℕ → Bool) (x : ℕ), vis x = true →
      (l.foldl (fun (p : List ℕ × (ℕ → Bool)) w =>
        if ok w && !(p.2 w) then (p.1 ++ [w], upd p.2 w true) else p)
      (q, vis)).2 x = true := by
  induction l with
  | nil => intro q vis x hx; exact hx
  | cons w rest ih =>
    intro q vis x hx
    simp only [List.foldl_cons]
    by_cases hc : (ok w && !(vis w)) = true
    · rw [if_pos hc]
      refine ih (q ++ [w]) (upd vis w true) x ?_
      by_cases hxw : x = w
      · subst hxw; exact upd_same _ _ _
      · rw [upd_other _ _ _ _ hxw]; exact hx
    · rw [if_neg hc]; exact ih q vis x hx

theorem bfsStep_visited_mono {A : ℕ → List ℕ} {ok : ℕ → Bool}
    (st : BfsState) (x : ℕ) (hx : st.visited x = true) :
    (bfsStep A ok st).visited x = true := by
  unfold bfsStep
  rcases hq : st.queue with _ | ⟨v, q⟩
  · rcases hr : st.roots with _ | ⟨r, rs⟩
    · exact hx
    · dsimp only
      by_cases hc : (ok r && !(st.visited r)) = true
      · rw [if_pos hc]
        dsimp only
        by_cases hxr : x = r
        · subst hxr; exact upd_same _ _ _
        · rw [upd_other _ _ _ _ hxr]; exact hx
      · rw [if_neg hc]; exact hx
  · dsimp only
    exact bfs_fold_visited_mono ok (A v) q st.visited x hx

theorem bfs_fold_queue_inv (ok : ℕ → Bool) (O : List ℕ) (l : List ℕ) :
    ∀ (q : List ℕ) (vis : ℕ → Bool),
      (∀ x, vis x = true ↔ (x ∈ O ∨ x ∈ q)) →
      ∀ x, (l.foldl (fun (p : List ℕ × (ℕ → Bool)) w =>
          if ok w && !(p.2 w) then (p.1 ++ [w], upd p.2 w true) else p)
        (q, vis)).2 x = true ↔
        (x ∈ O ∨ x ∈ (l.foldl (fun (p : List ℕ × (ℕ → Bool)) w =>
          if ok w && !(p.2 w) then (p.1 ++ [w], upd p.2 w true) else p)
        (q, vis)).1) := by
  induction l with
  | nil => intro q vis hinv x; exact hinv x
  | cons w rest ih =>
    intro q vis hinv x
    simp only [List.foldl_cons]
    by_cases hc : (ok w && !(vis w)) = true
    · rw [if_pos hc]
      refine ih (q ++ [w]) (upd vis w true) (fun y => ?_) x
      by_cases hyw : y = w
      · subst hyw
        simp [upd_same]
      · rw [upd_other _ _ _ _ hyw, hinv y]
        constructor
        · rintro (h1 | h2)
          · exact Or.inl h1
          · exact Or.inr (List.mem_append.2 (Or.inl h2))
        · rintro (h1 | h2)
          · exact Or.inl h1
          · rcases List.mem_append.1 h2 with h3 | h3
            · exact Or.inr h3
            · exact absurd (List.mem_singleton.1 h3) hyw
    · rw [if_neg hc]; exact ih q vis hinv x

theorem bfs_fold_queue_ok (ok : ℕ → Bool) (l : List ℕ) :
    ∀ (q : List ℕ) (vis : ℕ → Bool),
      (∀ x ∈ q, ok x = true) →
      ∀ x ∈ (l.foldl (fun (p : List ℕ × (ℕ → Bool)) w =>
          if ok w && !(p.2 w) then (p.1 ++ [w], upd p.2 w true) else p)
        (q, vis)).1, ok x = true := by
  induction l with
  | nil => intro q vis hq x hx; exact hq x hx
  | cons w rest ih =>
    intro q vis hq x hx
    simp only [List.foldl_cons] at hx
    by_cases hc : (ok w && !(vis w)) = true
    · rw [if_pos hc] at hx
      refine ih (q ++ [w]) (upd vis w true) (fun y hy => ?_) x hx
      rcases List.mem_append.1 hy with h1 | h2
      · exact hq y h1
      · rw [List.mem_singleton.1 h2]
        exact (Bool.and_eq_true _ _ ▸ hc).1
    · rw [if_neg hc] at hx
      exact ih q vis hq x hx

/-- Invariant: a vertex is visited exactly when it is in the order or in the
queue. -/
theorem bfs_visited_inv {A : ℕ → List ℕ} {ok : ℕ → Bool} :
    ∀ fuel st, (∀ x, st.visited x = true ↔ (x ∈ st.order ∨ x ∈ st.queue)) →
      ∀ x, (bfsRun A ok fuel st).visited x = true ↔
        (x ∈ (bfsRun A ok fuel st).order ∨ x ∈ (bfsRun A ok fuel st).queue) := by
  intro fuel st h
  refine bfsRun_preserves
    (fun st => ∀ x, st.visited x = true ↔ (x ∈ st.order ∨ x ∈ st.queue))
    (fun st h => ?_) fuel st h
  unfold bfsStep
  rcases hq : st.queue with _ | ⟨v, q⟩
  · rcases hr : st.roots with _ | ⟨r, rs⟩
    · exact h
    · dsimp only
      by_cases hc : (ok r && !(st.visited r)) = true
      · rw [if_pos hc]
        intro x
        dsimp only
        by_cases hxr : x = r
        · subst hxr
          simp [upd_same]
        · rw [upd_other _ _ _ _ hxr, h x, hq]
          simp [hxr]
      · rw [if_neg hc]
        intro x
        rw [h x, hq]
  · dsimp only
    intro x
    have hbase : ∀ y, st.visited y = true ↔
        (y ∈ st.order ++ [v] ∨ y ∈ q) := by
      intro y
      rw [h y, hq]
      constructor
      · rintro (h1 | h2)
        · exact Or.inl (List.mem_append.2 (Or.inl h1))
        · rcases List.mem_cons.1 h2 with h3 | h3
          · exact Or.inl (List.mem_append.2 (Or.inr (by simp [h3])))
          · exact Or.inr h3
      · rintro (h1 | h2)
        · rcases List.mem_append.1 h1 with h3 | h3
          · exact Or.inl h3
          · exact Or.inr (by simp [List.mem_singleton.1 h3])
        · exact Or.inr (List.mem_cons_of_mem _ h2)
    exact bfs_fold_queue_inv ok (st.order ++ [v]) (A v) q st.visited hbase x

/-- Invariant: every vertex in the order or the queue is admissible. -/
theorem bfs_ok_inv {A : ℕ → List ℕ} {ok : ℕ → Bool} :
    ∀ fuel st,
      ((∀ x ∈ st.order, ok x = true) ∧ (∀ x ∈ st.queue, ok x = true)) →
      ((∀ x ∈ (bfsRun A ok fuel st).order, ok x = true) ∧
       (∀ x ∈ (bfsRun A ok fuel st).queue, ok x = true)) := by
  intro fuel st h
  refine bfsRun_preserves
    (fun st => (∀ x ∈ st.order, ok x = true) ∧ (∀ x ∈ st.queue, ok x = true))
    (fun st h => ?_) fuel st h
  obtain ⟨ho, hque⟩ := h
  unfold bfsStep
  rcases hq : st.queue with _ | ⟨v, q⟩
  · rcases hr : st.roots with _ | ⟨r, rs⟩
    · exact ⟨ho, hque⟩
    · dsimp only
      by_cases hc : (ok r && !(st.visited r)) = true
      · rw [if_pos hc]
        refine ⟨ho, fun x hx => ?_⟩
        rw [List.mem_singleton.1 hx]
        exact (Bool.and_eq_true _ _ ▸ hc).1
      · rw [if_neg hc]
        exact ⟨ho, by intro x hx; rw [hq] at hque; exact hque x hx⟩
  · dsimp only
    constructor
    · intro x hx
      rcases List.mem_append.1 hx with h1 | h2
      · exact ho x h1
      · rw [List.mem_singleton.1 h2]
        exact hque v (by rw [hq]; exact List.mem_cons_self _ _)
    · refine bfs_fold_queue_ok ok (A v) q st.visited (fun y hy => ?_)
      exact hque y (by rw [hq]; exact List.mem_cons_of_mem _ hy)

/-- Invariant: an original root is still pending, inadmissible, or visited. -/
theorem bfs_roots_inv {A : ℕ → List ℕ} {ok : ℕ → Bool} (roots0 : List ℕ) :
    ∀ fuel st,
      (∀ r ∈ roots0, r ∈ st.roots ∨ ok r = false ∨ st.visited r = true) →
      (∀ r ∈ roots0, r ∈ (bfsRun A ok fuel st).roots ∨ ok r = false ∨
        (bfsRun A ok fuel st).visited r = true) := by
  intro fuel st h
  refine bfsRun_preserves
    (fun st => ∀ r ∈ roots0,
      r ∈ st.roots ∨ ok r = false ∨ st.visited r = true)
    (fun st h => ?_) fuel st h
  intro r hr
  rcases h r hr with h1 | h2 | h3
  · unfold bfsStep
    rcases hq : st.queue with _ | ⟨v, q⟩
    · rcases hro : st.roots with _ | ⟨a, rs⟩
      · rw [hro] at h1; cases h1
      · dsimp only
        by_cases hc : (ok a && !(st.visited a)) = true
        · rw [if_pos hc]
          rw [hro] at h1
          rcases List.mem_cons.1 h1 with h4 | h4
          · subst h4
            refine Or.inr (Or.inr ?_)
            dsimp only
            exact upd_same _ _ _
          · exact Or.inl h4
        · rw [if_neg hc]
          rw [hro] at h1
          rcases List.mem_cons.1 h1 with h4 | h4
          · subst h4
            rcases hc2 : ok r with _ | _
            · exact Or.inr (Or.inl rfl)
            · refine Or.inr (Or.inr ?_)
              dsimp only
              have : ¬ (st.visited r = false) := by
                intro hf
                exact hc (by rw [hc2, hf]; rfl)
              simpa using this
          · exact Or.inl h4
    · dsimp only
      exact Or.inl h1
  · exact Or.inr (Or.inl h2)
  · exact Or.inr (Or.inr (bfsStep_visited_mono st r h3))

theorem bfsStep_order_extends {A : ℕ → List ℕ} {ok : ℕ → Bool}
    (st : BfsState) :
    ∃ tl, (bfsStep A ok st).order = st.order ++ tl := by
  unfold bfsStep
  rcases st.queue with _ | ⟨v, q⟩
  · rcases st.roots with _ | ⟨r, rs⟩
    · exact ⟨[], by simp⟩
    · dsimp only
      by_cases hc : (ok r && !(st.visited r)) = true
      · rw [if_pos hc]; exact ⟨[], by simp⟩
      · rw [if_neg hc]; exact ⟨[], by simp⟩
  · exact ⟨[v], rfl⟩

theorem bfsRun_order_extends {A : ℕ → List ℕ} {ok : ℕ → Bool} :
    ∀ fuel st, ∃ tl, (bfsRun A ok fuel st).order = st.order ++ tl := by
  intro fuel
  induction fuel with
  | zero => intro st; exact ⟨[], by simp [bfsRun]⟩
  | succ fuel ih =>
    intro st
    rw [bfsRun]
    by_cases hd : st.Done
    · rw [if_pos hd]; exact ⟨[], by simp⟩
    · rw [if_neg hd]
      obtain ⟨t1, h1⟩ := @bfsStep_order_extends A ok st
      obtain ⟨t2, h2⟩ := ih (bfsStep A ok st)
      exact ⟨t1 ++ t2, by rw [h2, h1, List.append_assoc]⟩

/-- Every admissible root appears in the BFS order. -/
theorem igraphBfs_mem_root (g : IGraph) (roots : List ℕ)
    (restricted : Option (List ℕ)) (mode : NeiMode) :
    ∀ r ∈ roots, bfsOk g restricted r = true →
      r ∈ igraphBfs g roots restricted mode := by
  intro r hr hok
  unfold igraphBfs
  have hfuel : bfsMeasure g.n ⟨roots, [], fun _ => false, []⟩ ≤
      bfsFuel g roots := by
    unfold bfsMeasure bfsFuel
    have h2 : ((Finset.range g.n).filter (fun _ => True)).card ≤ g.n :=
      le_trans (Finset.card_filter_le _ _) (le_of_eq (Finset.card_range _))
    simp only [List.length_nil]
    omega
  have hdone := bfsRun_done g restricted mode (bfsFuel g roots)
    ⟨roots, [], fun _ => false, []⟩ hfuel
  have hroots := @bfs_roots_inv (adjFn g mode) (bfsOk g restricted)
    roots (bfsFuel g roots) ⟨roots, [], fun _ => false, []⟩
    (fun r hr => Or.inl hr) r hr
  have hvis := @bfs_visited_inv (adjFn g mode) (bfsOk g restricted)
    (bfsFuel g roots) ⟨roots, [], fun _ => false, []⟩ (by simp) r
  rcases hroots with h1 | h2 | h3
  · rw [hdone.1] at h1; cases h1
  · rw [hok] at h2; cases h2
  · rcases hvis.1 h3 with h4 | h5
    · exact h4
    · rw [hdone.2] at h5; cases h5

/-- Every vertex in the BFS order is admissible. -/
theorem igraphBfs_ok (g : IGraph) (roots : List ℕ)
    (restricted : Option (List ℕ)) (mode : NeiMode) :
    ∀ x ∈ igraphBfs g roots restricted mode,
      bfsOk g restricted x = true := by
  intro x hx
  exact (@bfs_ok_inv (adjFn g mode) (bfsOk g restricted)
    (bfsFuel g roots) ⟨roots, [], fun _ => false, []⟩
    ⟨by simp, by simp⟩).1 x hx

/-- A single-root BFS on an admissible root begins with that root. -/
theorem igraphBfs_head (g : IGraph) (v : ℕ) (restricted : Option (List ℕ))
    (mode : NeiMode) (hok : bfsOk g restricted v = true) :
    ∃ tl, igraphBfs g [v] restricted mode = v :: tl := by
  unfold igraphBfs bfsFuel
  have hlen : ([v] : List ℕ).length + 2 * g.n + 1 = (2 * g.n) + 2 := by
    simp; omega
  rw [hlen]
  rw [bfsRun]
  rw [if_neg (by intro hd; exact absurd hd.1 (by simp))]
  have hstep1 : bfsStep (adjFn g mode) (bfsOk g restricted)
      ⟨[v], [], fun _ => false, []⟩ =
      ⟨[], [v], upd (fun _ => false) v true, []⟩ := by
    unfold bfsStep
    dsimp only
    rw [if_pos (by rw [hok]; rfl)]
  rw [hstep1]
  rw [bfsRun]
  rw [if_neg (by intro hd; exact absurd hd.2 (by simp))]
  have hstep2 : bfsStep (adjFn g mode) (bfsOk g restricted)
      ⟨[], [v], upd (fun _ => false) v true, []⟩ =
      ⟨[], ((adjFn g mode v).foldl
        (fun (p : List ℕ × (ℕ → Bool)) w =>
          if bfsOk g restricted w && !(p.2 w) then (p.1 ++ [w], upd p.2 w true)
          else p) ([], upd (fun _ => false) v true)).1,
        ((adjFn g mode v).foldl
        (fun (p : List ℕ × (ℕ → Bool)) w =>
          if bfsOk g restricted w && !(p.2 w) then (p.1 ++ [w], upd p.2 w true)
          else p) ([], upd (fun _ => false) v true)).2, [v]⟩ := by
    unfold bfsStep
    dsimp only
    rfl
  rw [hstep2]
  obtain ⟨tl, htl⟩ := @bfsRun_order_extends (adjFn g mode)
    (bfsOk g restricted) (2 * g.n)
    ⟨[], ((adjFn g mode v).foldl
        (fun (p : List ℕ × (ℕ → Bool)) w =>
          if bfsOk g restricted w && !(p.2 w) then (p.1 ++ [w], upd p.2 w true)
          else p) ([], upd (fun _ => false) v true)).1,
        ((adjFn g mode v).foldl
        (fun (p : List ℕ × (ℕ → Bool)) w =>
          if bfsOk g restricted w && !(p.2 w) then (p.1 ++ [w], upd p.2 w true)
          else p) ([], upd (fun _ => false) v true)).2, [v]⟩
  exact ⟨tl, by rw [htl]; rfl⟩

/-! ### Induced-subgraph map lemmas -/

theorem buildmap_not_mem (l : List (ℕ × ℕ)) :
    ∀ (f0 : ℕ → ℕ) (v : ℕ), (∀ p ∈ l, p.2 ≠ v) →
      (l.foldl (fun f p => upd f p.2 (p.1 + 1)) f0) v = f0 v := by
  induction l with
  | nil => intro f0 v _; rfl
  | cons q rest ih =>
    intro f0 v hv
    simp only [List.foldl_cons]
    rw [ih _ v (fun p hp => hv p (List.mem_cons_of_mem _ hp))]
    exact upd_other _ _ _ _ (fun he =>
      hv q (List.mem_cons_self _ _) he.symm)

theorem buildmap_mem (l : List (ℕ × ℕ)) :
    ∀ (f0 : ℕ → ℕ), (l.map Prod.snd).Nodup →
      ∀ p ∈ l, (l.foldl (fun f p => upd f p.2 (p.1 + 1)) f0) p.2 = p.1 + 1 := by
  induction l with
  | nil => intro f0 _ p hp; cases hp
  | cons q rest ih =>
    intro f0 hnd p hp
    simp only [List.map_cons, List.nodup_cons] at hnd
    simp only [List.foldl_cons]
    rcases List.mem_cons.1 hp with hpe | hpr
    · subst hpe
      rw [buildmap_not_mem rest _ p.2 (fun r hr he => hnd.1 (by
        rw [← he]; exact List.mem_map_of_mem Prod.snd hr))]
      exact upd_same _ _ _
    · exact ih _ hnd.2 p hpr

theorem buildmap_cases (l : List (ℕ × ℕ)) :
    ∀ (f0 : ℕ → ℕ) (v : ℕ),
      (l.foldl (fun f p => upd f p.2 (p.1 + 1)) f0) v = f0 v ∨
      ∃ p ∈ l, p.2 = v ∧
        (l.foldl (fun f p => upd f p.2 (p.1 + 1)) f0) v = p.1 + 1 := by
  induction l with
  | nil => intro f0 v; exact Or.inl rfl
  | cons q rest ih =>
    intro f0 v
    simp only [List.foldl_cons]
    rcases ih (upd f0 q.2 (q.1 + 1)) v with h | ⟨p, hp, hv, he⟩
    · by_cases hq : q.2 = v
      · refine Or.inr ⟨q, List.mem_cons_self _ _, hq, ?_⟩
        rw [h, ← hq, upd_same]
      · refine Or.inl ?_
        rw [h]
        exact upd_other _ _ _ _ (fun he2 => hq he2.symm)
    · exact Or.inr ⟨p, List.mem_cons_of_mem _ hp, hv, he⟩

/-- The forward map of `inducedSubgraphMap` on a kept vertex: its 1-based
position. -/
theorem ism_map_mem (g : IGraph) (keep : List ℕ) (hnd : keep.Nodup) (v : ℕ)
    (hv : v ∈ keep) :
    ∃ k, k < keep.length ∧ keep.get? k = some v ∧
      (inducedSubgraphMap g keep).2.1 v = k + 1 := by
  obtain ⟨k, hkv⟩ := List.get_of_mem hv
  have hget : keep.get? (k : ℕ) = some v := by
    rw [List.get?_eq_get k.isLt]
    exact congrArg some hkv
  refine ⟨k, k.isLt, hget, ?_⟩
  show (keep.enum.foldl (fun f p => upd f p.2 (p.1 + 1)) (fun _ => 0)) v
    = (k : ℕ) + 1
  have hmem : ((k : ℕ), v) ∈ keep.enum := by
    rw [List.mk_mem_enum_iff_get?]
    exact hget
  exact buildmap_mem keep.enum (fun _ => 0)
    (by rw [List.enum_map_snd]; exact hnd) ((k : ℕ), v) hmem

/-- The forward map is zero outside `keep`. -/
theorem ism_map_not_mem (g : IGraph) (keep : List ℕ) (v : ℕ)
    (hv : v ∉ keep) : (inducedSubgraphMap g keep).2.1 v = 0 := by
  show (keep.enum.foldl (fun f p => upd f p.2 (p.1 + 1)) (fun _ => 0)) v = 0
  refine buildmap_not_mem keep.enum (fun _ => 0) v (fun p hp he => ?_)
  refine hv ?_
  have := List.mem_map_of_mem Prod.snd hp
  rw [List.enum_map_snd] at this
  rw [← he]
  exact this

/-- Positive forward map exactly on kept vertices. -/
theorem ism_map_pos_iff (g : IGraph) (keep : List ℕ) (hnd : keep.Nodup)
    (v : ℕ) : 0 < (inducedSubgraphMap g keep).2.1 v ↔ v ∈ keep := by
  constructor
  · intro h
    by_contra hv
    rw [ism_map_not_mem g keep v hv] at h
    exact Nat.lt_irrefl 0 h
  · intro hv
    obtain ⟨k, _, _, hmap⟩ := ism_map_mem g keep hnd v hv
    rw [hmap]
    exact Nat.succ_pos k

/-- Round trip: `invmap[map[v] - 1] = v` for kept vertices. -/
theorem ism_roundtrip (g : IGraph) (keep : List ℕ) (hnd : keep.Nodup) (v : ℕ)
    (hv : v ∈ keep) :
    keep.getD ((inducedSubgraphMap g keep).2.1 v - 1) 0 = v ∧
    (inducedSubgraphMap g keep).2.1 v - 1 < keep.length := by
  obtain ⟨k, hk, hget, hmap⟩ := ism_map_mem g keep hnd v hv
  rw [hmap]
  simp only [Nat.add_sub_cancel]
  constructor
  · rw [List.getD_eq_getElem?_getD, ← List.get?_eq_getElem?, hget]
    rfl
  · exact hk

/-! ### DFS invariants -/

theorem dfsRun_preserves {A : ℕ → List ℕ} (P : DfsState → Prop)
    (hstep : ∀ st, P st → P (dfsStep A st)) :
    ∀ fuel st, P st → P (dfsRun A fuel st) := by
  intro fuel
  induction fuel with
  | zero => intro st h; exact h
  | succ fuel ih =>
    intro st h
    rw [dfsRun]
    rcases hst : st.stack with _ | ⟨a, rest⟩
    · exact h
    · exact ih _ (hstep st h)

theorem dfsStep_order_extends {A : ℕ → List ℕ} (st : DfsState) :
    (dfsStep A st).order = st.order ∨
      ∃ w, (dfsStep A st).order = st.order ++ [w] := by
  unfold dfsStep
  rcases st.stack with _ | ⟨⟨v, ws⟩, rest⟩
  · exact Or.inl rfl
  · rcases ws with _ | ⟨w, ws⟩
    · exact Or.inl rfl
    · dsimp only
      by_cases hv : st.visited w = true
      · rw [if_pos hv]; exact Or.inl rfl
      · rw [if_neg hv]; exact Or.inr ⟨w, rfl⟩

/-- The DFS preorder starts at the root. -/
theorem dfs_order_head (g : IGraph) (root : ℕ) (mode : NeiMode) :
    ∃ tl, (igraphDfs g root mode).order = root :: tl := by
  unfold igraphDfs
  refine dfsRun_preserves (fun st => ∃ tl, st.order = root :: tl)
    (fun st h => ?_) _ _ ⟨[], rfl⟩
  obtain ⟨tl, htl⟩ := h
  rcases dfsStep_order_extends st with he | ⟨w, he⟩
  · exact ⟨tl, by rw [he, htl]⟩
  · exact ⟨tl ++ [w], by rw [he, htl]; rfl⟩

/-- Every visited vertex is the root or occurs in some adjacency list. -/
theorem dfs_order_supported (g : IGraph) (root : ℕ) (mode : NeiMode) :
    ∀ x ∈ (igraphDfs g root mode).order,
      x = root ∨ ∃ v, x ∈ adjFn g mode v := by
  unfold igraphDfs
  have h := dfsRun_preserves (A := adjFn g mode)
    (fun st =>
      (∀ p ∈ st.stack, ∀ x ∈ p.2, ∃ v, x ∈ adjFn g mode v) ∧
      (∀ x ∈ st.order, x = root ∨ ∃ v, x ∈ adjFn g mode v))
    (fun st h => ?_) (dfsFuel g) (dfsInit (adjFn g mode) root) ?_
  · exact h.2
  · obtain ⟨hstk, hord⟩ := h
    unfold dfsStep
    rcases hst : st.stack with _ | ⟨⟨v, ws⟩, rest⟩
    · exact ⟨by rw [hst] at hstk ⊢; exact hstk, hord⟩
    · rcases ws with _ | ⟨w, ws⟩
      · refine ⟨fun p hp => ?_, hord⟩
        exact hstk p (by rw [hst]; exact List.mem_cons_of_mem _ hp)
      · have hw : ∃ v, w ∈ adjFn g mode v :=
          hstk (v, w :: ws) (by rw [hst]; exact List.mem_cons_self _ _)
            w (List.mem_cons_self _ _)
        have hws : ∀ x ∈ ws, ∃ u, x ∈ adjFn g mode u := fun x hx =>
          hstk (v, w :: ws) (by rw [hst]; exact List.mem_cons_self _ _)
            x (List.mem_cons_of_mem _ hx)
        dsimp only
        by_cases hv : st.visited w = true
        · rw [if_pos hv]
          refine ⟨fun p hp => ?_, hord⟩
          rcases List.mem_cons.1 hp with hpe | hpr
          · cases hpe; exact hws
          · exact hstk p (by rw [hst]; exact List.mem_cons_of_mem _ hpr)
        · rw [if_neg hv]
          refine ⟨fun p hp => ?_, fun x hx => ?_⟩
          · rcases List.mem_cons.1 hp with hpe | hpr
            · cases hpe
              intro x hx
              exact ⟨w, hx⟩
            · rcases List.mem_cons.1 hpr with hpe2 | hpr2
              · cases hpe2; exact hws
              · exact hstk p (by rw [hst]; exact List.mem_cons_of_mem _ hpr2)
          · rcases List.mem_append.1 hx with hx1 | hx2
            · exact hord x hx1
            · rw [List.mem_singleton] at hx2
              exact Or.inr (hx2 ▸ hw)
  · constructor
    · intro p hp x hx
      rcases List.mem_singleton.1 hp with rfl
      exact ⟨root, hx⟩
    · intro x hx
      rcases List.mem_singleton.1 hx with rfl
      exact Or.inl rfl

/-- The root keeps father `-1` and stays visited. -/
theorem dfs_root_state (g : IGraph) (root : ℕ) (mode : NeiMode) :
    (igraphDfs g root mode).father root = -1 ∧
    (igraphDfs g root mode).visited root = true := by
  unfold igraphDfs
  refine dfsRun_preserves
    (fun st => st.father root = -1 ∧ st.visited root = true)
    (fun st h => ?_) _ _ ⟨by simp [dfsInit, upd], by simp [dfsInit, upd]⟩
  obtain ⟨hf, hv⟩ := h
  unfold dfsStep
  rcases st.stack with _ | ⟨⟨v, ws⟩, rest⟩
  · exact ⟨hf, hv⟩
  · rcases ws with _ | ⟨w, ws⟩
    · exact ⟨hf, hv⟩
    · dsimp only
      by_cases hvw : st.visited w = true
      · rw [if_pos hvw]; exact ⟨hf, hv⟩
      · rw [if_neg hvw]
        have hne : root ≠ w := fun he => hvw (he ▸ hv)
        exact ⟨by dsimp only; rw [upd_other _ _ _ _ hne]; exact hf,
               by dsimp only; rw [upd_other _ _ _ _ hne]; exact hv⟩

/-- A vertex has father at least `-1` exactly when it has been visited. -/
theorem dfs_father_visited (g : IGraph) (root : ℕ) (mode : NeiMode) :
    ∀ x, (-1 ≤ (igraphDfs g root mode).father x) ↔
      (igraphDfs g root mode).visited x = true := by
  unfold igraphDfs
  refine dfsRun_preserves
    (fun st => ∀ x, (-1 ≤ st.father x) ↔ st.visited x = true)
    (fun st h => ?_) _ _ (fun x => ?_)
  · unfold dfsStep
    rcases st.stack with _ | ⟨⟨v, ws⟩, rest⟩
    · exact h
    · rcases ws with _ | ⟨w, ws⟩
      · exact h
      · dsimp only
        by_cases hvw : st.visited w = true
        · rw [if_pos hvw]; exact h
        · rw [if_neg hvw]
          intro x
          dsimp only
          by_cases hx : x = w
          · subst hx
            simp only [upd_same]
            constructor
            · intro _; trivial
            · intro _; omega
          · rw [upd_other _ _ _ _ hx, upd_other _ _ _ _ hx]
            exact h x
  · unfold dfsInit
    dsimp only
    by_cases hx : x = root
    · subst hx; simp [upd_same]
    · rw [upd_other _ _ _ _ hx, upd_other _ _ _ _ hx]
      simp

/-- A vertex is visited exactly when it occurs in the preorder. -/
theorem dfs_visited_iff_order (g : IGraph) (root : ℕ) (mode : NeiMode) :
    ∀ x, (igraphDfs g root mode).visited x = true ↔
      x ∈ (igraphDfs g root mode).order := by
  unfold igraphDfs
  refine dfsRun_preserves
    (fun st => ∀ x, st.visited x = true ↔ x ∈ st.order)
    (fun st h => ?_) _ _ (fun x => ?_)
  · unfold dfsStep
    rcases st.stack with _ | ⟨⟨v, ws⟩, rest⟩
    · exact h
    · rcases ws with _ | ⟨w, ws⟩
      · exact h
      · dsimp only
        by_cases hvw : st.visited w = true
        · rw [if_pos hvw]; exact h
        · rw [if_neg hvw]
          intro x
          dsimp only
          by_cases hx : x = w
          · subst hx
            simp [upd_same]
          · rw [upd_other _ _ _ _ hx]
            rw [h x]
            constructor
            · intro hm; exact List.mem_append.2 (Or.inl hm)
            · intro hm
              rcases List.mem_append.1 hm with hm1 | hm2
              · exact hm1
              · exact absurd (List.mem_singleton.1 hm2) hx
  · unfold dfsInit
    dsimp only
    by_cases hx : x = root
    · subst hx; simp [upd_same]
    · rw [upd_other _ _ _ _ hx]
      simp [hx]

theorem length_flatMap_pair {α β : Type} (l : List α) (f g : α → β) :
    (l.flatMap (fun e => [f e, g e])).length = 2 * l.length := by
  induction l with
  | nil => simp
  | cons a t ih => simp [ih]; omega

theorem getD_replicate {α : Type} (n i : ℕ) (x d : α) (h : i < n) :
    (List.replicate n x).getD i d = x := by
  rw [List.getD_eq_getElem?_getD]
  simp [List.getElem?_replicate, h]

theorem mem_pairOpt {α : Type} (p x y : α) (A B : Prop) [Decidable A]
    [Decidable B] :
    (p ∈ (if A then [x] else []) ++ (if B then [y] else [])) ↔
      ((p = x ∧ A) ∨ (p = y ∧ B)) := by
  by_cases hA : A <;> by_cases hB : B <;> simp [hA, hB]

/-- C7: for a graph with `n` vertices and `m` edges (with `2m+n` within the
platform limits), `igraph_even_tarjan_reduction` succeeds and returns a graph
with `2n` vertices and `2m+n` edges containing the inner edge `(v, v+n)` for
every vertex `v` and the edges `(u+n, w)` and `(w+n, u)` for every original
edge `(u, w)`; the requested capacity vector has length `2m+n`, its first `n`
entries are `1` and its remaining `2m` entries are `n` (the infinity
sentinel). -/
theorem evenTarjanReduction_spec (intMax eCountMax : ℕ) (g : IGraph)
    (h1 : g.n * 2 ≤ intMax) (h2 : g.edges.length * 2 + g.n ≤ eCountMax)
    (h3 : eCountMax ≤ intMax) :
    ∃ g' cap, evenTarjanReduction intMax eCountMax g true = .ok (g', some cap) ∧
      g'.n = 2 * g.n ∧
      g'.edges.length = 2 * g.edges.length + g.n ∧
      (∀ v, v < g.n → (v, v + g.n) ∈ g'.edges) ∧
      (∀ e ∈ g.edges, (e.1 + g.n, e.2) ∈ g'.edges ∧ (e.2 + g.n, e.1) ∈ g'.edges) ∧
      cap.length = 2 * g.edges.length + g.n ∧
      (∀ i, i < g.n → cap.getD i 0 = 1) ∧
      (∀ i, g.n ≤ i → i < 2 * g.edges.length + g.n → cap.getD i 0 = (g.n : ℚ)) := by
  have hsafe1 : safeOp intMax (g.n * 2) = .ok (g.n * 2) := by
    simp [safeOp, h1]
  have hsafe2 : safeOp intMax (g.edges.length * 2 + g.n) =
      .ok (g.edges.length * 2 + g.n) := by
    simp [safeOp]; omega
  refine ⟨igraphCreate ((List.range g.n).map (fun i => (i, i + g.n)) ++
      g.edges.flatMap (fun e => [(e.1 + g.n, e.2), (e.2 + g.n, e.1)]))
      (g.n * 2) true,
    List.replicate g.n (1 : ℚ) ++ List.replicate (2 * g.edges.length) (g.n : ℚ),
    ?_, ?_, ?_, ?_, ?_, ?_, ?_, ?_⟩
  · unfold evenTarjanReduction
    simp only [hsafe1, hsafe2]
    rw [if_neg (by omega : ¬ (g.edges.length * 2 + g.n > eCountMax))]
    simp
  · simp [igraphCreate]; omega
  · simp only [igraphCreate, List.length_append, List.length_map,
      List.length_range,
      length_flatMap_pair g.edges (fun e => (e.1 + g.n, e.2))
        (fun e => (e.2 + g.n, e.1))]
    omega
  · intro v hv
    simp only [igraphCreate, List.mem_append]
    exact Or.inl (List.mem_map.2 ⟨v, List.mem_range.2 hv, rfl⟩)
  · intro e he
    constructor
    · simp only [igraphCreate, List.mem_append]
      exact Or.inr (List.mem_flatMap.2 ⟨e, he, by simp⟩)
    · simp only [igraphCreate, List.mem_append]
      exact Or.inr (List.mem_flatMap.2 ⟨e, he, by simp⟩)
  · simp; omega
  · intro i hi
    rw [List.getD_append _ _ _ _ (by simpa using hi)]
    exact getD_replicate _ _ _ _ hi
  · intro i hi1 hi2
    rw [List.getD_append_right _ _ _ _ (by simpa using hi1)]
    refine getD_replicate _ _ _ _ ?_
    simp; omega

/-- Witness for C7 at the S2 scenario: the directed 3-cycle. -/
theorem evenTarjanReduction_spec_witness :
    (⟨3, [(0, 1), (1, 2), (2, 0)], true⟩ : IGraph).n * 2 ≤ 100 ∧
    (∃ g' cap, evenTarjanReduction 100 50 ⟨3, [(0, 1), (1, 2), (2, 0)], true⟩ true
        = .ok (g', some cap) ∧
      g'.n = 2 * 3 ∧ g'.edges.length = 2 * 3 + 3 ∧
      (∀ v, v < 3 → (v, v + 3) ∈ g'.edges) ∧
      (∀ e ∈ [((0 : ℕ), (1 : ℕ)), (1, 2), (2, 0)],
        (e.1 + 3, e.2) ∈ g'.edges ∧ (e.2 + 3, e.1) ∈ g'.edges) ∧
      cap.length = 2 * 3 + 3 ∧
      (∀ i, i < 3 → cap.getD i 0 = 1) ∧
      (∀ i, 3 ≤ i → i < 2 * 3 + 3 → cap.getD i 0 = (3 : ℚ))) :=
  ⟨by decide, evenTarjanReduction_spec 100 50 ⟨3, [(0, 1), (1, 2), (2, 0)], true⟩
    (by decide) (by decide) (by decide)⟩

/-- C8: under the platform-limit assumptions (`2·ECOUNT_MAX ≤ INT_MAX`, the
input graph within limits), `igraph_even_tarjan_reduction` computes `2m+n`
exactly and fails — with the overflow error and producing no output — if and
only if `2m+n` exceeds `IGRAPH_ECOUNT_MAX`. -/
theorem evenTarjanReduction_overflow (intMax eCountMax : ℕ) (g : IGraph)
    (wantCapacity : Bool)
    (hEI : 2 * eCountMax ≤ intMax) (hn : g.n ≤ intMax)
    (hm : g.edges.length ≤ eCountMax) :
    (evenTarjanReduction intMax eCountMax g wantCapacity = .error .overflow) ↔
      2 * g.edges.length + g.n > eCountMax := by
  unfold evenTarjanReduction safeOp
  by_cases hA : g.n * 2 ≤ intMax
  · by_cases hB : g.edges.length * 2 + g.n ≤ intMax
    · simp only [if_pos hA, if_pos hB]
      by_cases hC : g.edges.length * 2 + g.n > eCountMax
      · simp only [if_pos hC]
        simp
        omega
      · simp only [if_neg hC]
        simp
        omega
    · simp only [if_pos hA, if_neg hB]
      simp
      omega
  · simp only [if_neg hA]
    simp
    omega

/-- Witness for C8 on a concrete in-limits graph (no overflow side). -/
theorem evenTarjanReduction_overflow_witness :
    (2 * 50 ≤ 100 ∧ (⟨2, [(0, 1)], true⟩ : IGraph).n ≤ 100) ∧
    ((evenTarjanReduction 100 50 ⟨2, [(0, 1)], true⟩ true = .error .overflow) ↔
      2 * (⟨2, [(0, 1)], true⟩ : IGraph).edges.length +
        (⟨2, [(0, 1)], true⟩ : IGraph).n > 50) :=
  ⟨⟨by decide, by decide⟩,
    evenTarjanReduction_overflow 100 50 ⟨2, [(0, 1)], true⟩ true
      (by decide) (by decide) (by decide)⟩

/-- C5 counterexample: one edge `0 → 1` with capacity 1 and flow 0.  The code
emits only the reverse pair `(1, 0)` (because `f < c`), while the claim
demands the forward pair `(0, 1)`; so the claim is false as stated. -/
theorem claimC5_counterexample :
    ¬ ClaimC5At ⟨2, [(0, 1)], true⟩ (some [1]) [0] := by
  decide

/-- C5 amended: for every graph with well-sized capacity and flow vectors,
`igraph_reverse_residual_graph` succeeds and its edge multiset contains a
pair `p` iff some original edge `i` contributes it: as `(from i, to i)` when
`flow i > 0`, or as `(to i, from i)` when `flow i < cap i` (missing capacity
vector = all ones).  This is the claim with the two conditions swapped. -/
theorem reverseResidualGraph_spec (g : IGraph) (capacity : Option (List ℚ))
    (flow : List ℚ)
    (hc : capacity.all (fun c => c.length = g.edges.length) = true)
    (hf : flow.length = g.edges.length) :
    ∃ R, reverseResidualGraph g capacity flow = .ok R ∧ R.n = g.n ∧
      ∀ p : ℕ × ℕ, p ∈ R.edges ↔
        ∃ i, i < g.edges.length ∧
          ((p = ((g.edges.getD i (0, 0)).1, (g.edges.getD i (0, 0)).2) ∧
              flow.getD i 0 > 0) ∨
           (p = ((g.edges.getD i (0, 0)).2, (g.edges.getD i (0, 0)).1) ∧
              flow.getD i 0 < capAt capacity i)) := by
  have hcap : capacity.any (fun c => c.length ≠ g.edges.length) = false := by
    cases capacity with
    | none => rfl
    | some c => simpa using hc
  refine ⟨igraphCreate (reverseResidualEdges g capacity flow) g.n true,
    ?_, rfl, ?_⟩
  · unfold reverseResidualGraph
    rw [hcap]
    simp [hf]
  · intro p
    show p ∈ reverseResidualEdges g capacity flow ↔ _
    unfold reverseResidualEdges
    rw [List.mem_flatMap]
    constructor
    · rintro ⟨i, hi, hp⟩
      exact ⟨i, List.mem_range.1 hi, (mem_pairOpt _ _ _ _ _).1 hp⟩
    · rintro ⟨i, hi, hc⟩
      exact ⟨i, List.mem_range.2 hi, (mem_pairOpt _ _ _ _ _).2 hc⟩

/-- Witness for the amended C5 at the S6 scenario (`c = 2`, `f = 1`: both
pairs present). -/
theorem reverseResidualGraph_spec_witness :
    ((some [(2 : ℚ)]).all (fun c => c.length =
        (⟨2, [(0, 1)], true⟩ : IGraph).edges.length) = true) ∧
    (∃ R, reverseResidualGraph ⟨2, [(0, 1)], true⟩ (some [2]) [1] = .ok R ∧
      R.n = 2 ∧
      ∀ p : ℕ × ℕ, p ∈ R.edges ↔
        ∃ i, i < (⟨2, [(0, 1)], true⟩ : IGraph).edges.length ∧
          ((p = (((⟨2, [(0, 1)], true⟩ : IGraph).edges.getD i (0, 0)).1,
                  ((⟨2, [(0, 1)], true⟩ : IGraph).edges.getD i (0, 0)).2) ∧
              ([(1 : ℚ)]).getD i 0 > 0) ∨
           (p = (((⟨2, [(0, 1)], true⟩ : IGraph).edges.getD i (0, 0)).2,
                  ((⟨2, [(0, 1)], true⟩ : IGraph).edges.getD i (0, 0)).1) ∧
              ([(1 : ℚ)]).getD i 0 < capAt (some [2]) i))) :=
  ⟨by decide, reverseResidualGraph_spec ⟨2, [(0, 1)], true⟩ (some [2]) [1]
    (by decide) (by decide)⟩

/-! ### Membership helpers for the containers -/

theorem iselement_iff (S : MarkedQueue) (v : ℕ) :
    S.iselement v = true ↔ v ∈ S.els := List.elem_iff

theorem iselement_false_iff (S : MarkedQueue) (v : ℕ) :
    S.iselement v = false ↔ v ∉ S.els := by
  rw [Bool.eq_false_iff]
  exact not_congr (iselement_iff S v)

theorem estack_iselement_iff (T : EStack) (v : ℕ) :
    T.iselement v = true ↔ v ∈ T.els := List.elem_iff

theorem estack_iselement_false_iff (T : EStack) (v : ℕ) :
    T.iselement v = false ↔ v ∉ T.els := by
  rw [Bool.eq_false_iff]
  exact not_congr (estack_iselement_iff T v)

theorem mq_pushLoop_mem (Isv : List ℕ) (S : MarkedQueue) (u : ℕ) :
    u ∈ (Isv.foldl (fun S u => if S.iselement u then S else S.push u) S).els ↔
      u ∈ S.els ∨ u ∈ Isv := by
  induction Isv generalizing S with
  | nil => simp
  | cons a l ih =>
    simp only [List.foldl_cons]
    by_cases ha : S.iselement a = true
    · rw [if_pos ha, ih]
      constructor
      · rintro (h | h)
        · exact Or.inl h
        · exact Or.inr (List.mem_cons_of_mem _ h)
      · rintro (h | h)
        · exact Or.inl h
        · rcases List.mem_cons.1 h with rfl | h2
          · exact Or.inl ((iselement_iff S u).1 ha)
          · exact Or.inr h2
    · rw [if_neg ha, ih]
      simp only [MarkedQueue.push, List.mem_append, List.mem_singleton,
        List.mem_cons, List.not_mem_nil, or_false]
      tauto

/-! ### `Gamma(S)` and the minimal elements -/

theorem gamma_inner_pres (S : MarkedQueue) (l : List ℕ) :
    ∀ (γ : ℕ → Bool), (∀ i, γ i = true → S.iselement i = false) →
      ∀ i, (l.foldl (fun γ nei => if S.iselement nei then γ
          else upd γ nei true) γ) i = true →
        S.iselement i = false := by
  induction l with
  | nil => intro γ h; exact h
  | cons a l ih =>
    intro γ h i
    simp only [List.foldl_cons]
    by_cases ha : S.iselement a = true
    · rw [if_pos ha]
      exact ih γ h i
    · rw [if_neg ha]
      refine ih _ (fun j hj => ?_) i
      by_cases hja : j = a
      · subst hja
        rw [Bool.not_eq_true] at ha
        exact ha
      · rw [upd_other _ _ _ _ hja] at hj
        exact h j hj

theorem gamma_outer_pres (g : IGraph) (S : MarkedQueue) (l : List ℕ) :
    ∀ (γ : ℕ → Bool), (∀ i, γ i = true → S.iselement i = false) →
      ∀ i, (l.foldl (fun γ i =>
          if S.iselement i then
            (adjFn g .out i).foldl (fun γ nei =>
              if S.iselement nei then γ else upd γ nei true) γ
          else γ) γ) i = true → S.iselement i = false := by
  induction l with
  | nil => intro γ h; exact h
  | cons a l ih =>
    intro γ h i
    simp only [List.foldl_cons]
    by_cases ha : S.iselement a = true
    · rw [if_pos ha]
      exact ih _ (fun j hj => gamma_inner_pres S (adjFn g .out a) γ h j hj) i
    · rw [if_neg ha]
      exact ih γ h i

theorem gammaS_not_elem (g : IGraph) (S : MarkedQueue) (mp : ℕ → ℕ)
    (source : ℕ) (hS : S.size ≠ 0) (i : ℕ)
    (h : gammaS g S mp source i = true) : S.iselement i = false := by
  unfold gammaS at h
  rw [if_neg hS] at h
  exact gamma_outer_pres g S (List.range g.n) _ (fun j hj => by simp at hj) i h

theorem gammaS_empty_case (g : IGraph) (S : MarkedQueue) (mp : ℕ → ℕ)
    (source : ℕ) (hS : S.size = 0) (i : ℕ)
    (h : gammaS g S mp source i = true) : i = mp source - 1 := by
  unfold gammaS at h
  rw [if_pos hS] at h
  by_cases hi : i = mp source - 1
  · exact hi
  · rw [upd_other _ _ _ _ hi] at h
    simp at h

theorem zero_fold_true (l : List ℕ) :
    ∀ (γ : ℕ → Bool) (i : ℕ),
      (l.foldl (fun γ x => upd γ x false) γ) i = true → γ i = true := by
  induction l with
  | nil => intro γ i h; exact h
  | cons a l ih =>
    intro γ i h
    simp only [List.foldl_cons] at h
    have h2 := ih _ i h
    by_cases hia : i = a
    · subst hia
      rw [upd_same] at h2
      cases h2
    · rw [upd_other _ _ _ _ hia] at h2
      exact h2

theorem minimal_fold_mono (γ : ℕ → Bool) (invmap : List ℕ)
    (events : List (ℕ × Bool)) :
    ∀ (p : List ℕ × (ℕ → Bool)) (i : ℕ), p.2 i = true →
      (events.foldl (fun (p : List ℕ × (ℕ → Bool)) ev =>
        let realvid := invmap.getD ev.1 0
        if ev.2 then
          if γ realvid then
            (realvid :: p.1,
             match p.1 with
             | top :: _ => upd p.2 top true
             | [] => p.2)
          else p
        else
          (match p.1 with
           | top :: rest => if top = realvid then rest else p.1
           | [] => p.1, p.2)) p).2 i = true := by
  induction events with
  | nil => intro p i h; exact h
  | cons ev l ih =>
    intro p i h
    simp only [List.foldl_cons]
    refine ih _ i ?_
    dsimp only
    by_cases he : ev.2 = true
    · rw [if_pos he]
      by_cases hg : γ (invmap.getD ev.1 0) = true
      · rw [if_pos hg]
        rcases p with ⟨stk, marks⟩
        rcases stk with _ | ⟨top, rest⟩
        · exact h
        · dsimp only
          by_cases hit : i = top
          · subst hit
            exact upd_same _ _ _
          · rw [upd_other _ _ _ _ hit]
            exact h
      · rw [if_neg hg]
        exact h
    · rw [if_neg he]
      exact h

theorem minimalElems_gamma (n : ℕ) (domtree : IGraph) (root : ℕ)
    (γ : ℕ → Bool) (invmap : List ℕ) (i : ℕ)
    (h : i ∈ minimalElems n domtree root γ invmap) : γ i = true ∧ i < n := by
  simp only [minimalElems, List.mem_filter, List.mem_range] at h
  obtain ⟨h1, h2⟩ := h
  refine ⟨?_, h1⟩
  by_contra hg
  rw [Bool.not_eq_true] at hg
  have hinit : (fun j => !(γ j)) i = true := by simp [hg]
  have hmono := minimal_fold_mono γ invmap
    (igraphDfs domtree root .inn).events ([], fun j => !(γ j)) i hinit
  rw [hmono] at h2
  simp at h2

/-! ### Projections of `inducedSubgraphMap` and `dominatorTree` -/

theorem ism_invmap (g : IGraph) (keep : List ℕ) :
    (inducedSubgraphMap g keep).2.2 = keep := rfl

theorem ism_graph_n (g : IGraph) (keep : List ℕ) :
    (inducedSubgraphMap g keep).1.n = keep.length := rfl

theorem ism_graph_directed (g : IGraph) (keep : List ℕ) :
    (inducedSubgraphMap g keep).1.directed = g.directed := rfl

theorem keep_filter_empty (g : IGraph) (S : MarkedQueue) (hS : S.els = []) :
    (List.range g.n).filter (fun i => !(S.iselement i)) = List.range g.n := by
  refine List.filter_eq_self.2 (fun a _ => ?_)
  unfold MarkedQueue.iselement
  rw [hS]
  rfl

theorem getD_inj (keep : List ℕ) (hnd : keep.Nodup) (i j : ℕ)
    (hi : i < keep.length) (hj : j < keep.length)
    (h : keep.getD i 0 = keep.getD j 0) : i = j := by
  refine List.get?_inj hi hnd ?_
  rw [List.get?_eq_get hi, List.get?_eq_get hj]
  rw [List.getD_eq_getElem _ _ hi, List.getD_eq_getElem _ _ hj] at h
  exact congrArg some h

theorem dominatorTree_ok (g : IGraph) (root : ℤ) (mode : NeiMode)
    (res : List ℤ × IGraph × List ℕ)
    (h : dominatorTree g root mode = .ok res) :
    0 ≤ root ∧ root < (g.n : ℤ) ∧ g.directed = true ∧
      res = dominatorTreeRun g root.toNat mode := by
  unfold dominatorTree at h
  split at h
  next hc => cases h
  next hc =>
    split at h
    next hc2 => cases h
    next hc2 =>
      split at h
      next hc3 => cases h
      next hc3 =>
        injection h with h2
        push_neg at hc
        exact ⟨hc.1, hc.2, by simpa using hc2, h2.symm⟩

theorem dominatorTree_err (g : IGraph) (root : ℤ) (mode : NeiMode)
    (e : IError) (h : dominatorTree g root mode = .error e) : e = .einval := by
  unfold dominatorTree at h
  split at h
  next => injection h with h2; exact h2.symm
  next =>
    split at h
    next => injection h with h2; exact h2.symm
    next =>
      split at h
      next => injection h with h2; exact h2.symm
      next => cases h

theorem dominatorTreeRun_edge_src (G : IGraph) (r : ℕ) (e : ℕ × ℕ)
    (he : e ∈ (dominatorTreeRun G r .inn).2.1.edges) :
    e.1 ≠ r ∧ e.1 < G.n := by
  simp only [dominatorTreeRun, igraphCreate] at he
  rw [List.mem_filterMap] at he
  obtain ⟨i, hi, hf⟩ := he
  split at hf
  next hcond =>
    rw [if_neg (by intro hh; cases hh)] at hf
    injection hf with h2
    rw [← h2]
    exact ⟨hcond.1, List.mem_range.1 hi⟩
  next => cases hf

theorem dominatorTreeRun_leftout (G : IGraph) (r : ℕ) (x : ℕ)
    (hx : x ∈ (dominatorTreeRun G r .inn).2.2) :
    x < G.n ∧ (igraphDfs G r .inn).father x < -1 := by
  simp only [dominatorTreeRun] at hx
  rw [List.mem_filter] at hx
  obtain ⟨h1, h2⟩ := hx
  exact ⟨List.mem_range.1 h1, by simpa using h2⟩

/-! ### BFS admissibility helpers -/

theorem bfsOk_some (g : IGraph) (l : List ℕ) (w : ℕ) :
    bfsOk g (some l) w = (decide (w < g.n) && l.contains w) := rfl

theorem bfsOk_some_true (g : IGraph) (l : List ℕ) (w : ℕ)
    (h1 : w < g.n) (h2 : w ∈ l) : bfsOk g (some l) w = true := by
  rw [bfsOk_some, Bool.and_eq_true]
  exact ⟨decide_eq_true h1, List.elem_iff.2 h2⟩

theorem bfsOk_some_dest (g : IGraph) (l : List ℕ) (w : ℕ)
    (h : bfsOk g (some l) w = true) : w < g.n ∧ w ∈ l := by
  rw [bfsOk_some, Bool.and_eq_true] at h
  exact ⟨of_decide_eq_true h.1, List.elem_iff.1 h.2⟩

theorem igraphBfs_single_nonempty (g : IGraph) (v : ℕ)
    (restricted : Option (List ℕ)) (mode : NeiMode)
    (h : igraphBfs g [v] restricted mode ≠ []) :
    bfsOk g restricted v = true := by
  by_contra hok
  rw [Bool.not_eq_true] at hok
  refine h ?_
  unfold igraphBfs bfsFuel
  have hlen : ([v] : List ℕ).length + 2 * g.n + 1 = (2 * g.n + 1) + 1 := by
    simp only [List.length_singleton]
    omega
  rw [hlen, bfsRun]
  rw [if_neg (fun hd => by simpa using hd.1)]
  have hstep : bfsStep (adjFn g mode) (bfsOk g restricted)
      ⟨[v], [], fun _ => false, []⟩ = ⟨[], [], fun _ => false, []⟩ := by
    unfold bfsStep
    dsimp only
    rw [if_neg (by rw [hok]; simp)]
  rw [hstep, bfsRun]
  rw [if_pos ⟨rfl, rfl⟩]

/-! ### The pivot functions -/

theorem pivotAllLoop_spec (g : IGraph) (T : EStack) (target : ℕ) (mp : ℕ → ℕ)
    (invmap : List ℕ) (domtree : IGraph) (leftout : List ℕ)
    (gammaVec : List ℕ) :
    ∀ (M : List ℕ) (v : ℕ) (Isv : List ℕ),
      pivotAllLoop g T target mp invmap domtree leftout gammaVec M =
        (v, Isv) →
      Isv ≠ [] →
      ∃ mi ∈ M, v = mi ∧
        Isv = igraphBfs g [mi]
          (some (((igraphDfs domtree (mp mi - 1) .inn).order.map
            (fun t => invmap.getD t 0)) ++ leftout)) .out ∧
        (igraphBfs g gammaVec
          (some ((igraphDfs domtree (mp mi - 1) .inn).order.map
            (fun t => invmap.getD t 0))) .out).all
          (fun u => !(T.iselement u) && u ≠ target) = true := by
  intro M
  induction M with
  | nil =>
    intro v Isv h hne
    rw [pivotAllLoop] at h
    injection h with h1 h2
    exact absurd h2.symm hne
  | cons mi rest ih =>
    intro v Isv h hne
    simp only [pivotAllLoop] at h
    split at h
    next hacc =>
      injection h with h1 h2
      exact ⟨mi, List.mem_cons_self _ _, h1.symm, h2.symm, hacc⟩
    next hacc =>
      obtain ⟨mj, hmj, hv, hIsv, hchk⟩ := ih v Isv h hne
      exact ⟨mj, List.mem_cons_of_mem _ hmj, hv, hIsv, hchk⟩

theorem pivotMinCuts_never_err (active : ℕ → Bool) (g : IGraph)
    (S : MarkedQueue) (T : EStack) (source target : ℕ) :
    ∃ v Isv, pivotMinCuts active g S T source target = .ok (v, Isv) := by
  unfold pivotMinCuts
  split
  · exact ⟨0, [], rfl⟩
  · dsimp only
    split
    · exact ⟨0, [], rfl⟩
    · exact ⟨_, _, rfl⟩

theorem pivotMinCuts_spec (active : ℕ → Bool) (g : IGraph) (S : MarkedQueue)
    (T : EStack) (source target : ℕ) (v : ℕ) (Isv : List ℕ)
    (h : pivotMinCuts active g S T source target = .ok (v, Isv))
    (hne : Isv ≠ []) :
    v ∈ Isv ∧ (∀ u ∈ Isv, u < g.n) ∧ S.iselement v = false ∧
      T.iselement v = false := by
  simp only [pivotMinCuts] at h
  split at h
  next =>
    injection h with h2
    injection h2 with ha hb
    exact absurd hb.symm hne
  next =>
    split at h
    next =>
      injection h with h2
      injection h2 with ha hb
      exact absurd hb.symm hne
    next mi hfind =>
      injection h with h2
      injection h2 with ha hb
      rw [ism_invmap] at ha hb
      rw [ha] at hb
      have hpred := List.find?_some hfind
      rw [Bool.and_eq_true] at hpred
      have hT : T.iselement v = false := by
        have h3 := hpred.2
        rw [ism_invmap, ha, Bool.not_eq_true'] at h3
        exact h3
      have horder_ne : igraphBfs g [v]
          (some ((List.range g.n).filter (fun i => !(S.iselement i)))) .inn
          ≠ [] := by
        intro h0
        rw [h0] at hb
        simp only [List.filter_nil] at hb
        exact hne hb.symm
      have hok := igraphBfs_single_nonempty g v
        (some ((List.range g.n).filter (fun i => !(S.iselement i)))) .inn
        horder_ne
      obtain ⟨tl, htl⟩ := igraphBfs_head g v
        (some ((List.range g.n).filter (fun i => !(S.iselement i)))) .inn hok
      have hvmem : v ∈ igraphBfs g [v]
          (some ((List.range g.n).filter (fun i => !(S.iselement i)))) .inn := by
        rw [htl]
        exact List.mem_cons_self _ _
      refine ⟨?_, ?_, ?_, hT⟩
      · rw [← hb]
        exact List.mem_filter.2 ⟨hvmem, by rw [Bool.not_eq_true', hT]⟩
      · intro u hu
        rw [← hb] at hu
        have hu2 := (List.mem_filter.1 hu).1
        have h4 := igraphBfs_ok g [v]
          (some ((List.range g.n).filter (fun i => !(S.iselement i)))) .inn
          u hu2
        exact (bfsOk_some_dest g _ u h4).1
      · have h4 := igraphBfs_ok g [v]
          (some ((List.range g.n).filter (fun i => !(S.iselement i)))) .inn
          v hvmem
        have hkeep := (bfsOk_some_dest g _ v h4).2
        have h5 := List.mem_filter.1 hkeep
        have h6 := h5.2
        rw [Bool.not_eq_true'] at h6
        exact h6

theorem pivotAllCuts_spec (g : IGraph) (S : MarkedQueue) (T : EStack)
    (source target : ℕ) (v : ℕ) (Isv : List ℕ)
    (h : pivotAllCuts g S T source target = .ok (v, Isv)) (hne : Isv ≠ []) :
    v ∈ Isv ∧ (∀ u ∈ Isv, u < g.n) ∧ S.iselement v = false ∧
      T.iselement v = false ∧
      (S.els = [] → source < g.n → v = source) ∧
      (target < g.n → S.iselement target = false → target ∉ Isv) := by
  simp only [pivotAllCuts] at h
  split at h
  next e hdt => cases h
  next dom domtree leftout0 hdt =>
    injection h with h2
    set keep : List ℕ := (List.range g.n).filter (fun i => !(S.iselement i))
      with hkeep
    have hndkeep : keep.Nodup := by
      rw [hkeep]
      exact List.Nodup.filter _ (List.nodup_range g.n)
    have hkeep_mem : ∀ u, u ∈ keep ↔ u < g.n ∧ S.iselement u = false := by
      intro u
      simp only [hkeep, List.mem_filter, List.mem_range, Bool.not_eq_true']
    set mp : ℕ → ℕ := (inducedSubgraphMap g keep).2.1 with hmp
    set invmap : List ℕ := (inducedSubgraphMap g keep).2.2 with hinv
    have hinv_keep : invmap = keep := by rw [hinv]; rfl
    set γ0 : ℕ → Bool := gammaS g S mp source with hγ0
    set lo : List ℕ := leftout0.map (fun x => invmap.getD x 0) with hlo
    set γfn : ℕ → Bool := lo.foldl (fun γ x => upd γ x false) γ0 with hγfn
    obtain ⟨mi, hmi, hv, hIsv, hchk⟩ :=
      pivotAllLoop_spec g T target mp invmap domtree lo _ _ v Isv h2 hne
    have hmi2 : γfn mi = true ∧ mi < g.n := by
      split at hmi
      · exact minimalElems_gamma g.n domtree _ γfn invmap mi hmi
      · cases hmi
    have hγ0mi : γ0 mi = true := by
      have h3 := hmi2.1
      rw [hγfn] at h3
      exact zero_fold_true lo γ0 mi h3
    have hSel_mi : S.iselement mi = false := by
      by_cases hsz : S.size = 0
      · have hSe : S.els = [] := by
          unfold MarkedQueue.size at hsz
          exact List.length_eq_zero.1 hsz
        unfold MarkedQueue.iselement
        rw [hSe]
        rfl
      · refine gammaS_not_elem g S mp source hsz mi ?_
        have h3 := hγ0mi
        rw [hγ0] at h3
        exact h3
    have hmi_keep : mi ∈ keep := (hkeep_mem mi).2 ⟨hmi2.2, hSel_mi⟩
    obtain ⟨k, hk, hgetk, hmapk⟩ := ism_map_mem g keep hndkeep mi hmi_keep
    rw [← hmp] at hmapk
    have hround_mi : keep.getD (mp mi - 1) 0 = mi ∧
        mp mi - 1 < keep.length := by
      have hr := ism_roundtrip g keep hndkeep mi hmi_keep
      rw [← hmp] at hr
      exact hr
    obtain ⟨tl0, htl0⟩ := dfs_order_head domtree (mp mi - 1) .inn
    have hminV_order : (mp mi - 1) ∈
        (igraphDfs domtree (mp mi - 1) .inn).order := by
      rw [htl0]
      exact List.mem_cons_self _ _
    have hmi_nuv : mi ∈ (igraphDfs domtree (mp mi - 1) .inn).order.map
        (fun t => invmap.getD t 0) := by
      refine List.mem_map.2 ⟨mp mi - 1, hminV_order, ?_⟩
      rw [hinv_keep]
      exact hround_mi.1
    have hmi_gv : mi ∈ (List.range g.n).filter (fun i => γfn i) :=
      List.mem_filter.2 ⟨List.mem_range.2 hmi2.2, hmi2.1⟩
    have hok_nuv : bfsOk g
        (some ((igraphDfs domtree (mp mi - 1) .inn).order.map
          (fun t => invmap.getD t 0))) mi = true :=
      bfsOk_some_true g _ mi hmi2.2 hmi_nuv
    have hmi_isvMin := igraphBfs_mem_root g ((List.range g.n).filter
        (fun i => γfn i)) (some ((igraphDfs domtree (mp mi - 1) .inn).order.map
        (fun t => invmap.getD t 0))) .out mi hmi_gv hok_nuv
    have hchk_mi : (!(T.iselement mi) && decide (mi ≠ target)) = true :=
      List.all_eq_true.1 hchk mi hmi_isvMin
    rw [Bool.and_eq_true] at hchk_mi
    have hT_mi : T.iselement mi = false := by
      have h3 := hchk_mi.1
      rwa [Bool.not_eq_true'] at h3
    have hne_target : mi ≠ target := of_decide_eq_true hchk_mi.2
    have hok_mi_full : bfsOk g
        (some (((igraphDfs domtree (mp mi - 1) .inn).order.map
          (fun t => invmap.getD t 0)) ++ lo)) mi = true :=
      bfsOk_some_true g _ mi hmi2.2 (List.mem_append.2 (Or.inl hmi_nuv))
    obtain ⟨tl1, htl1⟩ := igraphBfs_head g mi
      (some (((igraphDfs domtree (mp mi - 1) .inn).order.map
        (fun t => invmap.getD t 0)) ++ lo)) .out hok_mi_full
    have hv_Isv : v ∈ Isv := by
      rw [hIsv, htl1, hv]
      exact List.mem_cons_self _ _
    have hIsv_range : ∀ u ∈ Isv, u < g.n := by
      intro u hu
      rw [hIsv] at hu
      have h4 := igraphBfs_ok g [mi]
        (some (((igraphDfs domtree (mp mi - 1) .inn).order.map
          (fun t => invmap.getD t 0)) ++ lo)) .out u hu
      exact (bfsOk_some_dest g _ u h4).1
    have hsource_clause : S.els = [] → source < g.n → v = source := by
      intro hSe hsn
      have hsz : S.size = 0 := by
        unfold MarkedQueue.size
        rw [hSe]
        rfl
      have hmi_eq : mi = mp source - 1 := by
        refine gammaS_empty_case g S mp source hsz mi ?_
        have h3 := hγ0mi
        rw [hγ0] at h3
        exact h3
      have hkr : keep = List.range g.n := by
        rw [hkeep]
        exact keep_filter_empty g S hSe
      obtain ⟨ks, hks, hgets, hmaps⟩ := ism_map_mem g keep hndkeep source
        (by rw [hkr]; exact List.mem_range.2 hsn)
      rw [← hmp] at hmaps
      have hks_eq : ks = source := by
        rw [hkr] at hgets
        have hkslt : ks < g.n := by
          rw [hkr] at hks
          simpa using hks
        rw [List.get?_range hkslt] at hgets
        injection hgets
      have hmp_src : mp source = source + 1 := by rw [hmaps, hks_eq]
      rw [hv, hmi_eq, hmp_src]
      simp
    have htarget_clause : target < g.n → S.iselement target = false →
        target ∉ Isv := by
      intro htn htSel hmem
      have htk : target ∈ keep := (hkeep_mem target).2 ⟨htn, htSel⟩
      obtain ⟨kt, hkt, hgett, hmapt⟩ := ism_map_mem g keep hndkeep target htk
      rw [← hmp] at hmapt
      have hroundt := ism_roundtrip g keep hndkeep target htk
      rw [← hmp] at hroundt
      obtain ⟨hr0, hr1, hr2, hres⟩ := dominatorTree_ok _ _ _ _ hdt
      have hdtree : domtree = (dominatorTreeRun (inducedSubgraphMap g keep).1
          (((mp target : ℤ) - 1).toNat) .inn).2.1 := by
        have h5 := congrArg (fun x => x.2.1) hres
        simpa using h5
      have hlef : leftout0 = (dominatorTreeRun (inducedSubgraphMap g keep).1
          (((mp target : ℤ) - 1).toNat) .inn).2.2 := by
        have h5 := congrArg (fun x => x.2.2) hres
        simpa using h5
      have htonat : ((mp target : ℤ) - 1).toNat = kt := by
        rw [hmapt]
        omega
      have hgetkt : keep.getD kt 0 = target := by
        have h5 := hroundt.1
        rw [hmapt] at h5
        simpa using h5
      rw [hIsv] at hmem
      have h4 := igraphBfs_ok g [mi]
        (some (((igraphDfs domtree (mp mi - 1) .inn).order.map
          (fun t => invmap.getD t 0)) ++ lo)) .out target hmem
      have h5 := (bfsOk_some_dest g _ target h4).2
      rcases List.mem_append.1 h5 with hnuv | hlo2
      · obtain ⟨x, hxo, hxv⟩ := List.mem_map.1 hnuv
        rcases dfs_order_supported domtree (mp mi - 1) .inn x hxo with
          hx1 | ⟨w, hx2⟩
        · rw [hx1, hinv_keep, hround_mi.1] at hxv
          exact hne_target hxv
        · have hx3 : ∃ e ∈ domtree.edges, e.1 = x := by
            simp only [adjFn] at hx2
            obtain ⟨e, he, hev⟩ := List.mem_map.1 hx2
            exact ⟨e, (List.mem_filter.1 he).1, hev⟩
          obtain ⟨e, he, hex⟩ := hx3
          rw [hdtree] at he
          have hsrc := dominatorTreeRun_edge_src _ _ e he
          rw [htonat, hex] at hsrc
          have hxlen : x < keep.length := by
            rw [← ism_graph_n g keep]
            exact hsrc.2
          have hxkt : x = kt := by
            refine getD_inj keep hndkeep x kt hxlen hkt ?_
            rw [hinv_keep] at hxv
            rw [hxv, hgetkt]
          exact hsrc.1 hxkt
      · rw [hlo] at hlo2
        obtain ⟨x, hx0, hxv⟩ := List.mem_map.1 hlo2
        rw [hlef] at hx0
        have hlefprop := dominatorTreeRun_leftout _ _ x hx0
        rw [htonat] at hlefprop
        have hxlen : x < keep.length := by
          rw [← ism_graph_n g keep]
          exact hlefprop.1
        have hxkt : x = kt := by
          refine getD_inj keep hndkeep x kt hxlen hkt ?_
          rw [hinv_keep] at hxv
          rw [hxv, hgetkt]
        have hfr := dfs_root_state (inducedSubgraphMap g keep).1 kt .inn
        have h6 := hlefprop.2
        rw [hxkt, hfr.1] at h6
        exact absurd h6 (by omega)
    refine ⟨hv_Isv, hIsv_range, ?_, ?_, hsource_clause, htarget_clause⟩
    · rw [hv]
      exact hSel_mi
    · rw [hv]
      exact hT_mi

theorem pivotAllCuts_err (g : IGraph) (S : MarkedQueue) (T : EStack)
    (source target : ℕ) (e : IError)
    (h : pivotAllCuts g S T source target = .error e) : e = .einval := by
  simp only [pivotAllCuts] at h
  split at h
  next e2 hdt =>
    injection h with h2
    rw [← h2]
    exact dominatorTree_err _ _ _ e2 hdt
  next dom domtree leftout0 hdt => cases h

theorem pivotAllCuts_succeeds (g : IGraph) (S : MarkedQueue) (T : EStack)
    (source target : ℕ) (hdir : g.directed = true) (ht : target < g.n)
    (htS : S.iselement target = false) :
    ∃ v Isv, pivotAllCuts g S T source target = .ok (v, Isv) := by
  simp only [pivotAllCuts]
  set keep : List ℕ := (List.range g.n).filter (fun i => !(S.iselement i))
    with hkeep
  have hndkeep : keep.Nodup := by
    rw [hkeep]
    exact List.Nodup.filter _ (List.nodup_range g.n)
  have htk : target ∈ keep := by
    rw [hkeep]
    refine List.mem_filter.2 ⟨List.mem_range.2 ht, ?_⟩
    rw [Bool.not_eq_true', htS]
  obtain ⟨kt, hkt, hgett, hmapt⟩ := ism_map_mem g keep hndkeep target htk
  have hdt : dominatorTree (inducedSubgraphMap g keep).1
      (((inducedSubgraphMap g keep).2.1 target : ℤ) - 1) .inn =
      .ok (dominatorTreeRun (inducedSubgraphMap g keep).1
        ((((inducedSubgraphMap g keep).2.1 target : ℤ) - 1)).toNat .inn) := by
    unfold dominatorTree
    rw [if_neg (by rw [hmapt, ism_graph_n g keep]; omega)]
    rw [if_neg (by rw [ism_graph_directed g keep, hdir]; simp)]
    rw [if_neg (by intro hmode; cases hmode)]
  rcases hrun : dominatorTreeRun (inducedSubgraphMap g keep).1
      ((((inducedSubgraphMap g keep).2.1 target : ℤ) - 1)).toNat .inn with
    ⟨domv, dtv, lov⟩
  rw [hrun] at hdt
  rw [hdt]
  exact ⟨_, _, rfl⟩

/-! ### Generic runs of the Provan–Shier enumeration -/

theorem card_union_insert (S : MarkedQueue) (T : EStack) (v : ℕ)
    (hvS : v ∉ S.els) (hvT : v ∉ T.els) :
    (S.els.toFinset ∪ ((⟨v :: T.els⟩ : EStack)).els.toFinset).card =
      (S.els.toFinset ∪ T.els.toFinset).card + 1 := by
  show (S.els.toFinset ∪ (v :: T.els).toFinset).card = _
  rw [List.toFinset_cons, Finset.union_insert,
    Finset.card_insert_of_not_mem (by
      rw [Finset.mem_union, List.mem_toFinset, List.mem_toFinset]
      rintro (h | h)
      · exact hvS h
      · exact hvT h)]

theorem card_union_push (S : MarkedQueue) (T : EStack) (v : ℕ) (Isv : List ℕ)
    (hvS : v ∉ S.els) (hvT : v ∉ T.els) (hvIsv : v ∈ Isv) :
    (S.els.toFinset ∪ T.els.toFinset).card + 1 ≤
      ((Isv.foldl (fun S u => if S.iselement u then S else S.push u)
        S.startBatch).els.toFinset ∪ T.els.toFinset).card := by
  have hsub : insert v (S.els.toFinset ∪ T.els.toFinset) ⊆
      (Isv.foldl (fun S u => if S.iselement u then S else S.push u)
        S.startBatch).els.toFinset ∪ T.els.toFinset := by
    intro u hu
    rw [Finset.mem_insert, Finset.mem_union, List.mem_toFinset,
      List.mem_toFinset] at hu
    rw [Finset.mem_union, List.mem_toFinset, List.mem_toFinset,
      mq_pushLoop_mem]
    rcases hu with rfl | h3 | h3
    · exact Or.inl (Or.inr hvIsv)
    · exact Or.inl (Or.inl h3)
    · exact Or.inr h3
  have h2 := Finset.card_le_card hsub
  rwa [Finset.card_insert_of_not_mem (by
    rw [Finset.mem_union, List.mem_toFinset, List.mem_toFinset]
    rintro (h | h)
    · exact hvS h
    · exact hvT h)] at h2

theorem union_card_le_n (g : IGraph) (S : MarkedQueue) (T : EStack)
    (hS : ∀ u ∈ S.els, u < g.n) (hT : ∀ u ∈ T.els, u < g.n) :
    (S.els.toFinset ∪ T.els.toFinset).card ≤ g.n := by
  have hsub : S.els.toFinset ∪ T.els.toFinset ⊆ Finset.range g.n := by
    intro u hu
    rw [Finset.mem_union, List.mem_toFinset, List.mem_toFinset] at hu
    rcases hu with h1 | h2
    · exact Finset.mem_range.2 (hS u h1)
    · exact Finset.mem_range.2 (hT u h2)
  have := Finset.card_le_card hsub
  rwa [Finset.card_range] at this

theorem psList_fuel_sufficient (g : IGraph) (pivot : PivotFn) (s t : ℕ)
    (Hne : ∀ S T e, pivot g S T s t = .error e → e ≠ .noFuel)
    (Hpiv : ∀ S T v Isv, pivot g S T s t = .ok (v, Isv) → Isv ≠ [] →
      v ∈ Isv ∧ S.iselement v = false ∧ ∀ u ∈ Isv, u < g.n) :
    ∀ (fuel : ℕ) (S : MarkedQueue) (T : EStack),
      (∀ u ∈ S.els, u < g.n) → (∀ u ∈ T.els, u < g.n) →
      g.n + 1 ≤ fuel + (S.els.toFinset ∪ T.els.toFinset).card →
      psList g pivot s t fuel S T ≠ .error .noFuel := by
  intro fuel
  induction fuel with
  | zero =>
    intro S T hS hT hcard
    exfalso
    have := union_card_le_n g S T hS hT
    omega
  | succ fuel ih =>
    intro S T hS hT hcard hcontra
    rw [psList] at hcontra
    split at hcontra
    next e hpiv =>
      injection hcontra with h2
      exact Hne S T e hpiv h2
    next v Isv hpiv =>
      split at hcontra
      next hemp =>
        split at hcontra
        next => cases hcontra
        next => cases hcontra
      next hne0 =>
        have hne : Isv ≠ [] := by
          intro h0
          rw [h0] at hne0
          exact hne0 rfl
        obtain ⟨hvIsv, hvS, hIsvn⟩ := Hpiv S T v Isv hpiv hne
        have hvnotS : v ∉ S.els := (iselement_false_iff S v).1 hvS
        split at hcontra
        next e hpush =>
          injection hcontra with h2
          unfold EStack.push at hpush
          split at hpush
          next =>
            injection hpush with h3
            rw [← h3] at h2
            cases h2
          next => cases hpush
        next T1 hpush =>
          obtain ⟨hT1, hvT⟩ := estack_push_ok T T1 v hpush
          have hvnotT : v ∉ T.els := by
            intro h3
            have h4 : T.els.contains v = true := List.elem_iff.2 h3
            rw [h4] at hvT
            cases hvT
          subst hT1
          split at hcontra
          next e hleft =>
            injection hcontra with h2
            rw [h2] at hleft
            refine ih S ⟨v :: T.els⟩ hS ?_ ?_ hleft
            · intro u hu
              rcases List.mem_cons.1 hu with rfl | h3
              · exact hIsvn u hvIsv
              · exact hT u h3
            · rw [card_union_insert S T v hvnotS hvnotT]
              omega
          next parts1 S1 T2 hleft =>
            obtain ⟨hS1, hT2⟩ := psList_restores_state g pivot s t fuel S
              ⟨v :: T.els⟩ parts1 S1 T2 hleft
            rw [hS1, hT2, estack_pop_push] at hcontra
            rcases hright : psList g pivot s t fuel
                (Isv.foldl (fun S u => if S.iselement u then S else S.push u)
                  S.startBatch) T with
              e | ⟨parts2, S3, T4⟩
            · rw [hright] at hcontra
              injection hcontra with h2
              rw [h2] at hright
              refine ih _ T ?_ hT ?_ hright
              · intro u hu
                rw [mq_pushLoop_mem] at hu
                rcases hu with h3 | h3
                · exact hS u h3
                · exact hIsvn u h3
              · have := card_union_push S T v Isv hvnotS hvnotT hvIsv
                omega
            · rw [hright] at hcontra
              cases hcontra

theorem psList_run_ok (g : IGraph) (pivot : PivotFn) (s t : ℕ)
    (Φ : MarkedQueue → Prop) (P : List ℕ → Prop)
    (HΦrange : ∀ S, Φ S → ∀ u ∈ S.els, u < g.n)
    (Hpivot : ∀ S T, Φ S → ∃ v Isv, pivot g S T s t = .ok (v, Isv) ∧
      (Isv ≠ [] → v ∈ Isv ∧ S.iselement v = false ∧ T.iselement v = false ∧
        (∀ u ∈ Isv, u < g.n) ∧
        Φ (Isv.foldl (fun S u => if S.iselement u then S else S.push u)
            S.startBatch)))
    (Hemit : ∀ S, Φ S → S.size ≠ 0 → S.size ≠ g.n → P S.asVector) :
    ∀ (fuel : ℕ) (S : MarkedQueue) (T : EStack), Φ S →
      (∀ u ∈ T.els, u < g.n) →
      g.n + 1 ≤ fuel + (S.els.toFinset ∪ T.els.toFinset).card →
      ∃ parts S1 T1, psList g pivot s t fuel S T = .ok (parts, S1, T1) ∧
        ∀ p ∈ parts, P p := by
  intro fuel
  induction fuel with
  | zero =>
    intro S T hΦ hT hcard
    exfalso
    have := union_card_le_n g S T (HΦrange S hΦ) hT
    omega
  | succ fuel ih =>
    intro S T hΦ hT hcard
    obtain ⟨v, Isv, hpiv, hprops⟩ := Hpivot S T hΦ
    rw [psList, hpiv]
    by_cases hemp : Isv = []
    · subst hemp
      by_cases hsz : S.size ≠ 0 ∧ S.size ≠ g.n
      · refine ⟨[S.asVector], S, T, ?_, ?_⟩
        · dsimp only
          have hisE : ([] : List ℕ).isEmpty = true := rfl
          rw [if_pos hisE, if_pos hsz]
        · intro p hp
          rcases List.mem_singleton.1 hp with rfl
          exact Hemit S hΦ hsz.1 hsz.2
      · refine ⟨[], S, T, ?_, fun p hp => absurd hp (List.not_mem_nil p)⟩
        dsimp only
        have hisE : ([] : List ℕ).isEmpty = true := rfl
        rw [if_pos hisE, if_neg hsz]
    · obtain ⟨hvIsv, hvS, hvT, hIsvn, hΦ2⟩ := hprops hemp
      have hvnotS : v ∉ S.els := (iselement_false_iff S v).1 hvS
      have hvnotT : v ∉ T.els := (estack_iselement_false_iff T v).1 hvT
      have hpush : T.push v = .ok ⟨v :: T.els⟩ := by
        unfold EStack.iselement at hvT
        unfold EStack.push
        rw [if_neg (by rw [hvT]; simp)]
      have hempf : Isv.isEmpty = false := by
        rcases Isv with _ | ⟨a, l⟩
        · exact absurd rfl hemp
        · rfl
      obtain ⟨parts1, S1, T2, hleft, hP1⟩ := ih S ⟨v :: T.els⟩ hΦ
        (fun u hu => by
          rcases List.mem_cons.1 hu with rfl | h3
          · exact hIsvn u hvIsv
          · exact hT u h3)
        (by rw [card_union_insert S T v hvnotS hvnotT]; omega)
      obtain ⟨hS1, hT2⟩ := psList_restores_state g pivot s t fuel S
        ⟨v :: T.els⟩ parts1 S1 T2 hleft
      obtain ⟨parts2, S3, T4, hright, hP2⟩ := ih
        (Isv.foldl (fun S u => if S.iselement u then S else S.push u)
          S.startBatch) T hΦ2 hT
        (by
          have := card_union_push S T v Isv hvnotS hvnotT hvIsv
          omega)
      refine ⟨parts1 ++ parts2, S3.popBackBatch, T4, ?_, ?_⟩
      · dsimp only
        rw [if_neg (by rw [hempf]; simp), hpush]
        dsimp only
        rw [hleft]
        dsimp only
        rw [hS1, hT2, estack_pop_push, hright]
      · intro p hp
        rcases List.mem_append.1 hp with h3 | h3
        · exact hP1 p h3
        · exact hP2 p h3

/-- C4: `igraph_provan_shier_list` terminates on every input for both of the
supplied pivot functions.  In the fuel embedding, a recursion budget of
`n + 1 - |S ∪ T|` levels (so `n + 1` levels from empty `S` and `T`) is never
exhausted: each recursive call strictly grows `S ∪ T` — the left branch
pushes the pivot vertex `v` onto `T` and the right branch pushes `v ∈ Isv`
into `S` — so no run with this much fuel ever returns the fuel-exhaustion
marker. -/
theorem psList_terminates (g : IGraph) (source target : ℕ) (S : MarkedQueue)
    (T : EStack) (fuel : ℕ) (active : ℕ → Bool)
    (hS : ∀ u ∈ S.els, u < g.n) (hT : ∀ u ∈ T.els, u < g.n)
    (hfuel : g.n + 1 ≤ fuel + (S.els.toFinset ∪ T.els.toFinset).card) :
    psList g pivotAllCuts source target fuel S T ≠ .error .noFuel ∧
    psList g (pivotMinCuts active) source target fuel S T ≠
      .error .noFuel := by
  constructor
  · refine psList_fuel_sufficient g pivotAllCuts source target ?_ ?_ fuel S T
      hS hT hfuel
    · intro S2 T2 e he
      rw [pivotAllCuts_err g S2 T2 source target e he]
      intro hc
      cases hc
    · intro S2 T2 v Isv hok hne
      obtain ⟨h1, h2, h3, _⟩ :=
        pivotAllCuts_spec g S2 T2 source target v Isv hok hne
      exact ⟨h1, h3, h2⟩
  · refine psList_fuel_sufficient g (pivotMinCuts active) source target ?_ ?_
      fuel S T hS hT hfuel
    · intro S2 T2 e he
      obtain ⟨v, Isv, hok⟩ :=
        pivotMinCuts_never_err active g S2 T2 source target
      rw [hok] at he
      cases he
    · intro S2 T2 v Isv hok hne
      obtain ⟨h1, h2, h3, _⟩ :=
        pivotMinCuts_spec active g S2 T2 source target v Isv hok hne
      exact ⟨h1, h3, h2⟩

/-- Witness for C4: a concrete run of both pivots on the one-vertex graph
from empty `S` and `T` with fuel 2. -/
theorem psList_terminates_witness :
    ((∀ u ∈ (⟨[], []⟩ : MarkedQueue).els, u < 1) ∧
     (∀ u ∈ (⟨[]⟩ : EStack).els, u < 1) ∧
     1 + 1 ≤ 2 + ((⟨[], []⟩ : MarkedQueue).els.toFinset ∪
       (⟨[]⟩ : EStack).els.toFinset).card) ∧
    (psList ⟨1, [], true⟩ pivotAllCuts 0 0 2 ⟨[], []⟩ ⟨[]⟩ ≠
      .error .noFuel ∧
     psList ⟨1, [], true⟩ (pivotMinCuts (fun _ => false)) 0 0 2 ⟨[], []⟩
       ⟨[]⟩ ≠ .error .noFuel) :=
  ⟨⟨by decide, by decide, by decide⟩,
   psList_terminates ⟨1, [], true⟩ 0 0 ⟨[], []⟩ ⟨[]⟩ 2 (fun _ => false)
     (by decide) (by decide) (by decide)⟩

/-- The Provan–Shier run of `igraph_all_st_cuts`: with a directed graph and
in-range endpoints it succeeds, and every emitted partition contains the
source and excludes the target. -/
theorem allCuts_run (g : IGraph) (s t : ℕ) (hdir : g.directed = true)
    (hs : s < g.n) (ht : t < g.n) :
    ∃ parts S1 T1,
      psList g pivotAllCuts s t (g.n + 1) ⟨[], []⟩ ⟨[]⟩ =
        .ok (parts, S1, T1) ∧
      ∀ p ∈ parts, s ∈ p ∧ t ∉ p := by
  refine psList_run_ok g pivotAllCuts s t
    (fun S => (∀ u ∈ S.els, u < g.n) ∧ t ∉ S.els ∧
      (S.els = [] ∨ s ∈ S.els))
    (fun p => s ∈ p ∧ t ∉ p)
    (fun S hΦ => hΦ.1) ?_ ?_ (g.n + 1) ⟨[], []⟩ ⟨[]⟩
    ⟨fun u hu => absurd hu (List.not_mem_nil u),
     fun hc => absurd hc (List.not_mem_nil t), Or.inl rfl⟩
    (fun u hu => absurd hu (List.not_mem_nil u))
    (Nat.le_add_right _ _)
  · intro S T hΦ
    obtain ⟨hr, htS, hsS⟩ := hΦ
    have htSel : S.iselement t = false := (iselement_false_iff S t).2 htS
    obtain ⟨v, Isv, hok⟩ := pivotAllCuts_succeeds g S T s t hdir ht htSel
    refine ⟨v, Isv, hok, fun hne => ?_⟩
    obtain ⟨h1, h2, h3, h4, h5, h6⟩ :=
      pivotAllCuts_spec g S T s t v Isv hok hne
    have htIsv : t ∉ Isv := h6 ht htSel
    refine ⟨h1, h3, h4, h2, ?_, ?_, ?_⟩
    · intro u hu
      rw [mq_pushLoop_mem] at hu
      rcases hu with hu | hu
      · exact hr u hu
      · exact h2 u hu
    · intro hc
      rw [mq_pushLoop_mem] at hc
      rcases hc with hc | hc
      · exact htS hc
      · exact htIsv hc
    · rcases hsS with h0 | h7
      · refine Or.inr ?_
        rw [mq_pushLoop_mem]
        refine Or.inr ?_
        rw [← h5 h0 hs]
        exact h1
      · exact Or.inr (by rw [mq_pushLoop_mem]; exact Or.inl h7)
  · intro S hΦ hnz hnn
    obtain ⟨hr, htS, hsS⟩ := hΦ
    refine ⟨?_, htS⟩
    rcases hsS with h0 | h7
    · exfalso
      apply hnz
      unfold MarkedQueue.size
      rw [h0]
      rfl
    · exact h7

theorem allStCuts_runs (g : IGraph) (s t : ℕ) (hdir : g.directed = true)
    (hs : s < g.n) (ht : t < g.n) :
    ∃ parts, allStCuts g s t = .ok (cutsFromPartitions g parts, parts) ∧
      ∀ p ∈ parts, s ∈ p ∧ t ∉ p := by
  obtain ⟨parts, S1, T1, hps, hP⟩ := allCuts_run g s t hdir hs ht
  refine ⟨parts, ?_, hP⟩
  unfold allStCuts
  rw [if_neg (by rw [hdir]; simp)]
  rw [hps]

/-! ### The edge-cut extraction -/

theorem tokenFold_not_mem (p : List ℕ) (k : ℕ) :
    ∀ (f : ℕ → ℕ) (u : ℕ), u ∉ p →
      (p.foldl (fun f v => upd f v k) f) u = f u := by
  induction p with
  | nil => intro f u _; rfl
  | cons a l ih =>
    intro f u hu
    simp only [List.foldl_cons]
    rw [ih _ u (fun h2 => hu (List.mem_cons_of_mem _ h2))]
    exact upd_other _ _ _ _
      (fun he => hu (by rw [he]; exact List.mem_cons_self _ _))

theorem tokenFold_mem (p : List ℕ) (k : ℕ) :
    ∀ (f : ℕ → ℕ) (u : ℕ), u ∈ p →
      (p.foldl (fun f v => upd f v k) f) u = k := by
  induction p with
  | nil => intro f u hu; cases hu
  | cons a l ih =>
    intro f u hu
    simp only [List.foldl_cons]
    by_cases hul : u ∈ l
    · exact ih _ u hul
    · rw [tokenFold_not_mem l k _ u hul]
      rcases List.mem_cons.1 hu with rfl | h2
      · exact upd_same _ _ _
      · exact absurd h2 hul

theorem tokenFold_le (p : List ℕ) (k : ℕ) :
    ∀ (f : ℕ → ℕ) (u : ℕ), f u ≤ k →
      (p.foldl (fun f v => upd f v k) f) u ≤ k := by
  induction p with
  | nil => intro f u h; exact h
  | cons a l ih =>
    intro f u h
    simp only [List.foldl_cons]
    refine ih _ u ?_
    by_cases hua : u = a
    · subst hua
      rw [upd_same]
    · rw [upd_other _ _ _ _ hua]
      exact h

theorem cutsFold_prefix (g : IGraph) :
    ∀ (l : List (ℕ × List ℕ)) (f0 : ℕ → ℕ) (acc : List (List ℕ)),
      ∃ extra, (l.foldl (fun (p : (ℕ → ℕ) × List (List ℕ)) ip =>
        let inS := ip.2.foldl (fun f v => upd f v (ip.1 + 1)) p.1
        let cut := (List.range g.edges.length).filter (fun j =>
          inS (g.edges.getD j (0, 0)).1 = ip.1 + 1 ∧
          inS (g.edges.getD j (0, 0)).2 ≠ ip.1 + 1)
        (inS, p.2 ++ [cut])) (f0, acc)).2 = acc ++ extra := by
  intro l
  induction l with
  | nil => intro f0 acc; exact ⟨[], by simp⟩
  | cons ip rest ih =>
    intro f0 acc
    simp only [List.foldl_cons]
    obtain ⟨extra, hex⟩ := ih (ip.2.foldl (fun f v => upd f v (ip.1 + 1)) f0)
      (acc ++ [(List.range g.edges.length).filter (fun j =>
        (ip.2.foldl (fun f v => upd f v (ip.1 + 1)) f0)
          (g.edges.getD j (0, 0)).1 = ip.1 + 1 ∧
        (ip.2.foldl (fun f v => upd f v (ip.1 + 1)) f0)
          (g.edges.getD j (0, 0)).2 ≠ ip.1 + 1)])
    refine ⟨(List.range g.edges.length).filter (fun j =>
        (ip.2.foldl (fun f v => upd f v (ip.1 + 1)) f0)
          (g.edges.getD j (0, 0)).1 = ip.1 + 1 ∧
        (ip.2.foldl (fun f v => upd f v (ip.1 + 1)) f0)
          (g.edges.getD j (0, 0)).2 ≠ ip.1 + 1) :: extra, ?_⟩
    rw [hex]
    simp

theorem cutsFold_len (g : IGraph) :
    ∀ (parts : List (ℕ × List ℕ)) (inS0 : ℕ → ℕ) (acc : List (List ℕ)),
      (parts.foldl (fun (p : (ℕ → ℕ) × List (List ℕ)) ip =>
        let inS := ip.2.foldl (fun f v => upd f v (ip.1 + 1)) p.1
        let cut := (List.range g.edges.length).filter (fun j =>
          inS (g.edges.getD j (0, 0)).1 = ip.1 + 1 ∧
          inS (g.edges.getD j (0, 0)).2 ≠ ip.1 + 1)
        (inS, p.2 ++ [cut])) (inS0, acc)).2.length =
      acc.length + parts.length := by
  intro parts
  induction parts with
  | nil =>
    intro inS0 acc
    simp
  | cons ip rest ih =>
    intro inS0 acc
    simp only [List.foldl_cons]
    rw [ih]
    simp only [List.length_append, List.length_cons, List.length_nil]
    omega

theorem cutsFold_get (g : IGraph) :
    ∀ (parts : List (List ℕ)) (k : ℕ) (inS0 : ℕ → ℕ) (acc : List (List ℕ)),
      (∀ u, inS0 u ≤ k) → ∀ i, i < parts.length →
      ((parts.enumFrom k).foldl (fun (p : (ℕ → ℕ) × List (List ℕ)) ip =>
        let inS := ip.2.foldl (fun f v => upd f v (ip.1 + 1)) p.1
        let cut := (List.range g.edges.length).filter (fun j =>
          inS (g.edges.getD j (0, 0)).1 = ip.1 + 1 ∧
          inS (g.edges.getD j (0, 0)).2 ≠ ip.1 + 1)
        (inS, p.2 ++ [cut])) (inS0, acc)).2.getD (acc.length + i) [] =
      (List.range g.edges.length).filter (fun j =>
        decide ((g.edges.getD j (0, 0)).1 ∈ parts.getD i []) &&
        !decide ((g.edges.getD j (0, 0)).2 ∈ parts.getD i [])) := by
  intro parts
  induction parts with
  | nil =>
    intro k inS0 acc hle i hi
    cases hi
  | cons q ps ih =>
    intro k inS0 acc hle i hi
    rw [List.enumFrom_cons]
    simp only [List.foldl_cons]
    have hle2 : ∀ u, (q.foldl (fun f v => upd f v (k + 1)) inS0) u ≤
        k + 1 := by
      intro u
      by_cases hq : u ∈ q
      · rw [tokenFold_mem q (k + 1) inS0 u hq]
      · rw [tokenFold_not_mem q (k + 1) inS0 u hq]
        exact le_trans (hle u) (Nat.le_succ k)
    rcases i with _ | i
    · obtain ⟨extra, hex⟩ := cutsFold_prefix g (ps.enumFrom (k + 1))
        (q.foldl (fun f v => upd f v (k + 1)) inS0)
        (acc ++ [(List.range g.edges.length).filter (fun j =>
          (q.foldl (fun f v => upd f v (k + 1)) inS0)
            (g.edges.getD j (0, 0)).1 = k + 1 ∧
          (q.foldl (fun f v => upd f v (k + 1)) inS0)
            (g.edges.getD j (0, 0)).2 ≠ k + 1)])
      rw [hex]
      rw [List.append_assoc]
      rw [List.getD_append_right acc _ [] (acc.length + 0) (by omega)]
      have hidx : acc.length + 0 - acc.length = 0 := by omega
      rw [hidx]
      rw [List.singleton_append]
      rw [List.getD_cons_zero, List.getD_cons_zero]
      refine List.filter_congr (fun j hj => ?_)
      have he1 : ((q.foldl (fun f v => upd f v (k + 1)) inS0)
          (g.edges.getD j (0, 0)).1 = k + 1) ↔
          (g.edges.getD j (0, 0)).1 ∈ q := by
        constructor
        · intro h2
          by_contra hq
          rw [tokenFold_not_mem q (k + 1) inS0 _ hq] at h2
          have := hle (g.edges.getD j (0, 0)).1
          omega
        · intro h2
          exact tokenFold_mem q (k + 1) inS0 _ h2
      have he2 : ((q.foldl (fun f v => upd f v (k + 1)) inS0)
          (g.edges.getD j (0, 0)).2 = k + 1) ↔
          (g.edges.getD j (0, 0)).2 ∈ q := by
        constructor
        · intro h2
          by_contra hq
          rw [tokenFold_not_mem q (k + 1) inS0 _ hq] at h2
          have := hle (g.edges.getD j (0, 0)).2
          omega
        · intro h2
          exact tokenFold_mem q (k + 1) inS0 _ h2
      simp only [ne_eq, he1, he2, Bool.decide_and, decide_not]
    · have hidx : acc.length + (i + 1) =
          (acc ++ [(List.range g.edges.length).filter (fun j =>
            (q.foldl (fun f v => upd f v (k + 1)) inS0)
              (g.edges.getD j (0, 0)).1 = k + 1 ∧
            (q.foldl (fun f v => upd f v (k + 1)) inS0)
              (g.edges.getD j (0, 0)).2 ≠ k + 1)]).length + i := by
        simp only [List.length_append, List.length_cons, List.length_nil]
        omega
      rw [hidx]
      rw [ih (k + 1) (q.foldl (fun f v => upd f v (k + 1)) inS0) _ hle2 i
        (by simpa using Nat.lt_of_succ_lt_succ hi)]
      rw [List.getD_cons_succ]

theorem cutsFromPartitions_spec (g : IGraph) (parts : List (List ℕ)) :
    (cutsFromPartitions g parts).length = parts.length ∧
    ∀ i, i < parts.length → (cutsFromPartitions g parts).getD i [] =
      (List.range g.edges.length).filter (fun j =>
        decide ((g.edges.getD j (0, 0)).1 ∈ parts.getD i []) &&
        !decide ((g.edges.getD j (0, 0)).2 ∈ parts.getD i [])) := by
  have hEq : cutsFromPartitions g parts =
      ((parts.enumFrom 0).foldl (fun (p : (ℕ → ℕ) × List (List ℕ)) ip =>
        let inS := ip.2.foldl (fun f v => upd f v (ip.1 + 1)) p.1
        let cut := (List.range g.edges.length).filter (fun j =>
          inS (g.edges.getD j (0, 0)).1 = ip.1 + 1 ∧
          inS (g.edges.getD j (0, 0)).2 ≠ ip.1 + 1)
        (inS, p.2 ++ [cut])) ((fun _ => 0), [])).2 := rfl
  rw [hEq]
  constructor
  · rw [cutsFold_len g (parts.enumFrom 0) (fun _ => 0) []]
    simp
  · intro i hi
    have h2 := cutsFold_get g parts 0 (fun _ => 0) []
      (fun u => Nat.le_refl 0) i hi
    simpa using h2
set_option maxRecDepth 1000000 in
/-- C2 counterexample: on the directed graph with vertices `{0, 1, 2}` and
the single edge `0 → 2`, with source 0 and target 2, the partition family
emitted by `igraph_all_st_cuts` is not the family of all vertex sets
containing the source and excluding the target: the set `{0, 1}` (vertex 1
is isolated) is never enumerated. -/
theorem claimC2_counterexample : ¬ ClaimC2At ⟨3, [(0, 2)], true⟩ 0 2 := by
  decide


/-! ### The façade checks -/

theorem reverseResidualGraph_ok (g : IGraph) (capacity : Option (List ℚ))
    (flow : List ℚ) (hflow : flow.length = g.edges.length)
    (hcap : ∀ c, capacity = some c → c.length = g.edges.length) :
    reverseResidualGraph g capacity flow =
      .ok (igraphCreate (reverseResidualEdges g capacity flow) g.n true) := by
  unfold reverseResidualGraph
  have h1 : capacity.any (fun c => decide (c.length ≠ g.edges.length)) =
      false := by
    rcases hc : capacity with _ | c
    · rfl
    · rw [Option.any_some]
      rw [hcap c hc]
      simp
  rw [if_neg (by rw [h1]; simp)]
  rw [if_neg (fun hc => hc hflow)]

set_option maxRecDepth 100000 in
/-- C6 counterexample: `igraph_all_st_cuts` performs no source/target
validation — on the one-vertex directed graph with `source = target = 0` it
succeeds (returning no cuts) instead of failing with the invalid-argument
error. -/
theorem claimC6_counterexample : ¬ ClaimC6At ⟨1, [], true⟩ 0 0 := by
  decide

/-- C6 (amended): both façades reject an undirected graph with the
unimplemented error, but only `igraph_all_st_mincuts` validates the
endpoints and capacities: it fails with the invalid-argument error exactly
when the source or target is out of range, the source equals the target, or
some capacity is non-positive, and succeeds otherwise (given well-sized
capacity and flow vectors for the modelled maxflow input); in contrast
`igraph_all_st_cuts` performs no source/target validation at all and
succeeds on every directed graph with in-range endpoints, even when
`source = target`. -/
theorem facade_error_policy (g : IGraph) (s t : ℕ)
    (capacity : Option (List ℚ)) (flow : List ℚ) (value : ℚ)
    (hflow : flow.length = g.edges.length)
    (hcap : ∀ c, capacity = some c → c.length = g.edges.length) :
    (¬ g.directed → allStCuts g s t = .error .unimplemented ∧
      allStMincuts g s t capacity flow value = .error .unimplemented) ∧
    (g.directed → s < g.n → t < g.n →
      exceptIsOk (allStCuts g s t) = true) ∧
    (g.directed → (g.n ≤ s ∨ g.n ≤ t ∨ s = t ∨
        capacity.any (fun c => vecMin c ≤ 0) = true) →
      allStMincuts g s t capacity flow value = .error .einval) ∧
    (g.directed → s < g.n → t < g.n → s ≠ t →
      capacity.any (fun c => vecMin c ≤ 0) = false →
      exceptIsOk (allStMincuts g s t capacity flow value) = true) := by
  refine ⟨?_, ?_, ?_, ?_⟩
  · intro hnd
    constructor
    · unfold allStCuts
      rw [if_pos hnd]
    · unfold allStMincuts
      rw [if_pos hnd]
  · intro hdir hs ht
    obtain ⟨parts, hok, _⟩ := allStCuts_runs g s t hdir hs ht
    rw [hok]
    rfl
  · intro hdir hbad
    unfold allStMincuts
    rw [if_neg (by rw [hdir]; simp)]
    by_cases h1 : g.n ≤ s
    · rw [if_pos h1]
    · rw [if_neg h1]
      by_cases h2 : g.n ≤ t
      · rw [if_pos h2]
      · rw [if_neg h2]
        by_cases h3 : s = t
        · rw [if_pos h3]
        · rw [if_neg h3]
          have h4 : capacity.any (fun c => vecMin c ≤ 0) = true := by
            rcases hbad with hb | hb | hb | hb
            · exact absurd hb h1
            · exact absurd hb h2
            · exact absurd hb h3
            · exact hb
          rw [if_pos h4]
  · intro hdir hs ht hst hcappos
    unfold allStMincuts
    rw [if_neg (by rw [hdir]; simp)]
    rw [if_neg (by omega), if_neg (by omega), if_neg hst]
    rw [if_neg (by rw [hcappos]; simp)]
    rw [reverseResidualGraph_ok g capacity flow hflow hcap]
    dsimp only
    obtain ⟨closedsets, S1, T1, hps, _⟩ := psList_run_ok
      (simplifyGraph (contractVertices
        (igraphCreate (reverseResidualEdges g capacity flow) g.n true)
        (sccMembership
          (igraphCreate (reverseResidualEdges g capacity flow) g.n true)).1
        (sccMembership
          (igraphCreate (reverseResidualEdges g capacity flow) g.n true)).2))
      (pivotMinCuts ((List.range g.edges.length).foldl (fun a i =>
        if flow.getD i 0 > 0 then
          upd (upd a ((sccMembership
            (igraphCreate (reverseResidualEdges g capacity flow) g.n
              true)).1 (g.edges.getD i (0, 0)).1) true)
            ((sccMembership
              (igraphCreate (reverseResidualEdges g capacity flow) g.n
                true)).1 (g.edges.getD i (0, 0)).2) true
        else a) (fun _ => false)))
      ((sccMembership
        (igraphCreate (reverseResidualEdges g capacity flow) g.n true)).1 s)
      ((sccMembership
        (igraphCreate (reverseResidualEdges g capacity flow) g.n true)).1 t)
      (fun S => ∀ u ∈ S.els,
        u < (simplifyGraph (contractVertices
          (igraphCreate (reverseResidualEdges g capacity flow) g.n true)
          (sccMembership
            (igraphCreate (reverseResidualEdges g capacity flow) g.n
              true)).1
          (sccMembership
            (igraphCreate (reverseResidualEdges g capacity flow) g.n
              true)).2)).n)
      (fun _ => True)
      (fun S hΦ => hΦ)
      (fun S T hΦ => by
        obtain ⟨v, Isv, hok2⟩ := pivotMinCuts_never_err _ _ S T _ _
        refine ⟨v, Isv, hok2, fun hne => ?_⟩
        obtain ⟨h1, h2, h3, h4⟩ := pivotMinCuts_spec _ _ S T _ _ v Isv
          hok2 hne
        refine ⟨h1, h3, h4, h2, ?_⟩
        intro u hu
        rw [mq_pushLoop_mem] at hu
        rcases hu with hu | hu
        · exact hΦ u hu
        · exact h2 u hu)
      (fun S hΦ h1 h2 => trivial)
      ((simplifyGraph (contractVertices
        (igraphCreate (reverseResidualEdges g capacity flow) g.n true)
        (sccMembership
          (igraphCreate (reverseResidualEdges g capacity flow) g.n
            true)).1
        (sccMembership
          (igraphCreate (reverseResidualEdges g capacity flow) g.n
            true)).2)).n + 1)
      ⟨[], []⟩ ⟨[]⟩
      (fun u hu => absurd hu (List.not_mem_nil u))
      (fun u hu => absurd hu (List.not_mem_nil u))
      (Nat.le_add_right _ _)
    rw [hps]
    rfl

/-- Witness for the amended C6 on the single-edge graph `0 → 1` with no
capacity vector and a zero flow. -/
theorem facade_error_policy_witness :
    (([(0 : ℚ)] : List ℚ).length =
      (⟨2, [(0, 1)], true⟩ : IGraph).edges.length) ∧
    ((¬ (⟨2, [(0, 1)], true⟩ : IGraph).directed →
      allStCuts ⟨2, [(0, 1)], true⟩ 0 1 = .error .unimplemented ∧
      allStMincuts ⟨2, [(0, 1)], true⟩ 0 1 none [(0 : ℚ)] 0 =
        .error .unimplemented) ∧
    ((⟨2, [(0, 1)], true⟩ : IGraph).directed →
      0 < (⟨2, [(0, 1)], true⟩ : IGraph).n →
      1 < (⟨2, [(0, 1)], true⟩ : IGraph).n →
      exceptIsOk (allStCuts ⟨2, [(0, 1)], true⟩ 0 1) = true) ∧
    ((⟨2, [(0, 1)], true⟩ : IGraph).directed →
      ((⟨2, [(0, 1)], true⟩ : IGraph).n ≤ 0 ∨
        (⟨2, [(0, 1)], true⟩ : IGraph).n ≤ 1 ∨ (0 : ℕ) = 1 ∨
        (none : Option (List ℚ)).any (fun c => vecMin c ≤ 0) = true) →
      allStMincuts ⟨2, [(0, 1)], true⟩ 0 1 none [(0 : ℚ)] 0 =
        .error .einval) ∧
    ((⟨2, [(0, 1)], true⟩ : IGraph).directed →
      0 < (⟨2, [(0, 1)], true⟩ : IGraph).n →
      1 < (⟨2, [(0, 1)], true⟩ : IGraph).n → (0 : ℕ) ≠ 1 →
      (none : Option (List ℚ)).any (fun c => vecMin c ≤ 0) = false →
      exceptIsOk (allStMincuts ⟨2, [(0, 1)], true⟩ 0 1 none [(0 : ℚ)] 0) =
        true)) :=
  ⟨by decide,
   facade_error_policy ⟨2, [(0, 1)], true⟩ 0 1 none [(0 : ℚ)] 0 (by decide)
     (fun c h => by cases h)⟩

/-- C9: `igraph_dominator_tree` fails — always with the invalid-argument
error — exactly when the root is outside `[0, n)`, the graph is undirected,
or the mode is `IGRAPH_ALL`; in this `Except` embedding an error result
carries no outputs, mirroring the C code's discipline of checking all
arguments before modifying `dom`, `domtree` or `leftout`. -/
theorem dominatorTree_checks (g : IGraph) (root : ℤ) (mode : NeiMode) :
    ((dominatorTree g root mode = .error .einval) ↔
      (root < 0 ∨ (g.n : ℤ) ≤ root ∨ g.directed = false ∨ mode = .all)) ∧
    ∀ e, dominatorTree g root mode = .error e → e = .einval := by
  constructor
  · constructor
    · intro h
      unfold dominatorTree at h
      split at h
      next hc =>
        rcases hc with h1 | h1
        · exact Or.inl h1
        · exact Or.inr (Or.inl h1)
      next hc =>
        split at h
        next hc2 =>
          refine Or.inr (Or.inr (Or.inl ?_))
          rwa [Bool.not_eq_true] at hc2
        next hc2 =>
          split at h
          next hc3 => exact Or.inr (Or.inr (Or.inr hc3))
          next hc3 => cases h
    · intro hcond
      unfold dominatorTree
      by_cases h1 : root < 0 ∨ (g.n : ℤ) ≤ root
      · rw [if_pos h1]
      · rw [if_neg h1]
        by_cases h2 : g.directed = true
        · rw [if_neg (by rw [h2]; simp)]
          by_cases h3 : mode = .all
          · rw [if_pos h3]
          · rw [if_neg h3]
            exfalso
            rcases hcond with hc | hc | hc | hc
            · exact h1 (Or.inl hc)
            · exact h1 (Or.inr hc)
            · rw [h2] at hc; cases hc
            · exact h3 hc
        · rw [if_pos h2]
  · exact fun e he => dominatorTree_err g root mode e he

/-- Witness for C9: the checks at a concrete undirected input. -/
theorem dominatorTree_checks_witness :
    ((dominatorTree ⟨2, [(0, 1)], false⟩ 0 .out = .error .einval) ↔
      ((0 : ℤ) < 0 ∨ ((⟨2, [(0, 1)], false⟩ : IGraph).n : ℤ) ≤ 0 ∨
        (⟨2, [(0, 1)], false⟩ : IGraph).directed = false ∨
        (NeiMode.out = NeiMode.all))) ∧
    ∀ e, dominatorTree ⟨2, [(0, 1)], false⟩ 0 .out = .error e →
      e = .einval :=
  dominatorTree_checks ⟨2, [(0, 1)], false⟩ 0 .out

/-! ### BFS soundness and completeness -/

theorem bfs_fold_queue_src (ok : ℕ → Bool) (l : List ℕ) :
    ∀ (q : List ℕ) (vis : ℕ → Bool) (x : ℕ),
      x ∈ (l.foldl (fun (p : List ℕ × (ℕ → Bool)) w =>
        if ok w && !(p.2 w) then (p.1 ++ [w], upd p.2 w true) else p)
      (q, vis)).1 →
      x ∈ q ∨ (x ∈ l ∧ ok x = true) := by
  induction l with
  | nil => intro q vis x hx; exact Or.inl hx
  | cons w rest ih =>
    intro q vis x hx
    simp only [List.foldl_cons] at hx
    by_cases hc : (ok w && !(vis w)) = true
    · rw [if_pos hc] at hx
      rcases ih (q ++ [w]) (upd vis w true) x hx with h1 | h2
      · rcases List.mem_append.1 h1 with h3 | h3
        · exact Or.inl h3
        · rw [List.mem_singleton.1 h3]
          exact Or.inr ⟨List.mem_cons_self _ _, (Bool.and_eq_true _ _ ▸ hc).1⟩
      · exact Or.inr ⟨List.mem_cons_of_mem _ h2.1, h2.2⟩
    · rw [if_neg hc] at hx
      rcases ih q vis x hx with h1 | h2
      · exact Or.inl h1
      · exact Or.inr ⟨List.mem_cons_of_mem _ h2.1, h2.2⟩

/-- Invariant: every ordered or queued vertex is reached from an admissible
original root by admissible steps. -/
theorem bfs_reach_inv {A : ℕ → List ℕ} {ok : ℕ → Bool} (roots0 : List ℕ) :
    ∀ fuel st,
      ((∀ x, x ∈ st.order ∨ x ∈ st.queue →
          ∃ r ∈ roots0, ok r = true ∧
            Relation.ReflTransGen (fun a b => b ∈ A a ∧ ok b = true) r x) ∧
        (∀ r ∈ st.roots, r ∈ roots0)) →
      ∀ x, x ∈ (bfsRun A ok fuel st).order ∨
          x ∈ (bfsRun A ok fuel st).queue →
        ∃ r ∈ roots0, ok r = true ∧
          Relation.ReflTransGen (fun a b => b ∈ A a ∧ ok b = true) r x := by
  intro fuel st h
  refine (bfsRun_preserves
    (fun st => (∀ x, x ∈ st.order ∨ x ∈ st.queue →
        ∃ r ∈ roots0, ok r = true ∧
          Relation.ReflTransGen (fun a b => b ∈ A a ∧ ok b = true) r x) ∧
      (∀ r ∈ st.roots, r ∈ roots0))
    (fun st h => ?_) fuel st h).1
  obtain ⟨hreach, hroots⟩ := h
  unfold bfsStep
  rcases hq : st.queue with _ | ⟨v, q⟩
  · rcases hr : st.roots with _ | ⟨r, rs⟩
    · exact ⟨hreach, hroots⟩
    · dsimp only
      by_cases hc : (ok r && !(st.visited r)) = true
      · rw [if_pos hc]
        refine ⟨fun x hx => ?_, fun a ha => ?_⟩
        · rcases hx with h1 | h1
          · exact hreach x (Or.inl h1)
          · rw [List.mem_singleton.1 h1]
            refine ⟨r, hroots r (by rw [hr]; exact List.mem_cons_self _ _),
              (Bool.and_eq_true _ _ ▸ hc).1, Relation.ReflTransGen.refl⟩
        · exact hroots a (by rw [hr]; exact List.mem_cons_of_mem _ ha)
      · rw [if_neg hc]
        refine ⟨fun x hx => hreach x ?_, fun a ha => ?_⟩
        · rcases hx with h1 | h1
          · exact Or.inl h1
          · exact absurd h1 (List.not_mem_nil x)
        · exact hroots a (by rw [hr]; exact List.mem_cons_of_mem _ ha)
  · dsimp only
    refine ⟨fun x hx => ?_, hroots⟩
    rcases hx with h1 | h1
    · rcases List.mem_append.1 h1 with h2 | h2
      · exact hreach x (Or.inl h2)
      · rw [List.mem_singleton.1 h2]
        exact hreach v (Or.inr (by rw [hq]; exact List.mem_cons_self _ _))
    · rcases bfs_fold_queue_src ok (A v) q st.visited x h1 with h2 | h2
      · exact hreach x (Or.inr (by rw [hq]; exact List.mem_cons_of_mem _ h2))
      · obtain ⟨r, hrr, hokr, hrtg⟩ := hreach v
          (Or.inr (by rw [hq]; exact List.mem_cons_self _ _))
        exact ⟨r, hrr, hokr, hrtg.tail ⟨h2.1, h2.2⟩⟩

/-- Every vertex of the BFS order is reached from some admissible root by
admissible steps. -/
theorem igraphBfs_sound (g : IGraph) (roots : List ℕ)
    (restricted : Option (List ℕ)) (mode : NeiMode) (x : ℕ)
    (hx : x ∈ igraphBfs g roots restricted mode) :
    ∃ r ∈ roots, bfsOk g restricted r = true ∧
      ReachVia g mode (bfsOk g restricted) r x := by
  unfold igraphBfs at hx
  exact @bfs_reach_inv (adjFn g mode) (bfsOk g restricted) roots
    (bfsFuel g roots) ⟨roots, [], fun _ => false, []⟩
    ⟨fun y hy => by
      rcases hy with hy | hy
      · exact absurd hy (List.not_mem_nil y)
      · exact absurd hy (List.not_mem_nil y),
     fun r hr => hr⟩ x (Or.inl hx)

theorem bfs_fold_visits_all (ok : ℕ → Bool) (l : List ℕ) :
    ∀ (q : List ℕ) (vis : ℕ → Bool) (w : ℕ), w ∈ l → ok w = true →
      (l.foldl (fun (p : List ℕ × (ℕ → Bool)) w =>
        if ok w && !(p.2 w) then (p.1 ++ [w], upd p.2 w true) else p)
      (q, vis)).2 w = true := by
  induction l with
  | nil => intro q vis w hw hok; exact absurd hw (List.not_mem_nil w)
  | cons a rest ih =>
    intro q vis w hw hok
    simp only [List.foldl_cons]
    rcases List.mem_cons.1 hw with rfl | h2
    · by_cases hc : (ok w && !(vis w)) = true
      · rw [if_pos hc]
        exact bfs_fold_visited_mono ok rest (q ++ [w]) (upd vis w true) w
          (upd_same _ _ _)
      · rw [if_neg hc]
        have hvw : vis w = true := by
          rcases hv : vis w with _ | _
          · exact absurd (by rw [hok, hv]; rfl) hc
          · rfl
        exact bfs_fold_visited_mono ok rest q vis w hvw
    · by_cases hc : (ok a && !(vis a)) = true
      · rw [if_pos hc]; exact ih _ _ w h2 hok
      · rw [if_neg hc]; exact ih _ _ w h2 hok

/-- Invariant: the admissible neighbors of every ordered vertex are
visited. -/
theorem bfs_closed_inv {A : ℕ → List ℕ} {ok : ℕ → Bool} :
    ∀ fuel st,
      (∀ y, y ∈ st.order → ∀ w ∈ A y, ok w = true → st.visited w = true) →
      ∀ y, y ∈ (bfsRun A ok fuel st).order → ∀ w ∈ A y, ok w = true →
        (bfsRun A ok fuel st).visited w = true := by
  intro fuel st h
  refine bfsRun_preserves
    (fun st => ∀ y, y ∈ st.order → ∀ w ∈ A y, ok w = true →
      st.visited w = true)
    (fun st h => ?_) fuel st h
  unfold bfsStep
  rcases hq : st.queue with _ | ⟨v, q⟩
  · rcases hr : st.roots with _ | ⟨r, rs⟩
    · exact h
    · dsimp only
      by_cases hc : (ok r && !(st.visited r)) = true
      · rw [if_pos hc]
        intro y hy w hw hok
        dsimp only
        by_cases hwr : w = r
        · subst hwr; exact upd_same _ _ _
        · rw [upd_other _ _ _ _ hwr]
          exact h y hy w hw hok
      · rw [if_neg hc]
        exact h
  · dsimp only
    intro y hy w hw hok
    rcases List.mem_append.1 hy with h1 | h1
    · exact bfs_fold_visited_mono ok (A v) q st.visited w (h y h1 w hw hok)
    · rw [List.mem_singleton.1 h1] at hw
      exact bfs_fold_visits_all ok (A v) q st.visited w hw hok

/-- Every vertex reached from an admissible root of the BFS by admissible
steps appears in the BFS order. -/
theorem igraphBfs_complete (g : IGraph) (roots : List ℕ)
    (restricted : Option (List ℕ)) (mode : NeiMode) (r x : ℕ)
    (hr : r ∈ roots) (hokr : bfsOk g restricted r = true)
    (hreach : ReachVia g mode (bfsOk g restricted) r x) :
    x ∈ igraphBfs g roots restricted mode := by
  have hfuel : bfsMeasure g.n ⟨roots, [], fun _ => false, []⟩ ≤
      bfsFuel g roots := by
    unfold bfsMeasure bfsFuel
    have h2 : ((Finset.range g.n).filter (fun v => True)).card ≤ g.n :=
      le_trans (Finset.card_filter_le _ _) (le_of_eq (Finset.card_range _))
    simp only [List.length_nil]
    omega
  have hdone := bfsRun_done g restricted mode (bfsFuel g roots)
    ⟨roots, [], fun _ => false, []⟩ hfuel
  have hvis := @bfs_visited_inv (adjFn g mode) (bfsOk g restricted)
    (bfsFuel g roots) ⟨roots, [], fun _ => false, []⟩ (by simp)
  have hclosed := @bfs_closed_inv (adjFn g mode) (bfsOk g restricted)
    (bfsFuel g roots) ⟨roots, [], fun _ => false, []⟩
    (fun y hy => absurd hy (List.not_mem_nil y))
  have hbase := igraphBfs_mem_root g roots restricted mode r hr hokr
  unfold igraphBfs at hbase ⊢
  induction hreach with
  | refl => exact hbase
  | tail hab hbc ih =>
    obtain ⟨hcadj, hcok⟩ := hbc
    have hvisc := hclosed _ ih _ hcadj hcok
    rcases (hvis _).1 hvisc with h1 | h1
    · exact h1
    · rw [hdone.2] at h1
      exact absurd h1 (List.not_mem_nil _)

/-- The restricted single-source BFS decides reachability along admissible
steps. -/
theorem reachB_iff (g : IGraph) (K : List ℕ) (x t : ℕ) :
    reachB g K x t ↔ (bfsOk g (some K) x = true ∧
      ReachVia g .out (bfsOk g (some K)) x t) := by
  constructor
  · intro h
    unfold reachB at h
    obtain ⟨r, hr, hok, hre⟩ := igraphBfs_sound g [x] (some K) .out t h
    rw [List.mem_singleton] at hr
    subst hr
    exact ⟨hok, hre⟩
  · rintro ⟨h1, h2⟩
    unfold reachB
    exact igraphBfs_complete g [x] (some K) .out x t
      (List.mem_singleton_self x) h1 h2

theorem bfsOk_mono (g : IGraph) (K1 K2 : List ℕ)
    (hsub : ∀ w, w ∈ K1 → w ∈ K2) (w : ℕ)
    (h : bfsOk g (some K1) w = true) : bfsOk g (some K2) w = true := by
  obtain ⟨h1, h2⟩ := bfsOk_some_dest g K1 w h
  exact bfsOk_some_true g K2 w h1 (hsub w h2)

theorem reachVia_mono (g : IGraph) (mode : NeiMode) (ok1 ok2 : ℕ → Bool)
    (hmono : ∀ w, ok1 w = true → ok2 w = true) (a b : ℕ)
    (h : ReachVia g mode ok1 a b) : ReachVia g mode ok2 a b :=
  Relation.ReflTransGen.mono (fun x y hxy => ⟨hxy.1, hmono y hxy.2⟩) h

theorem reachB_mono (g : IGraph) (K1 K2 : List ℕ)
    (hsub : ∀ w, w ∈ K1 → w ∈ K2) (x t : ℕ) (h : reachB g K1 x t) :
    reachB g K2 x t := by
  obtain ⟨h1, h2⟩ := (reachB_iff g K1 x t).1 h
  exact (reachB_iff g K2 x t).2 ⟨bfsOk_mono g K1 K2 hsub x h1,
    reachVia_mono g .out _ _ (bfsOk_mono g K1 K2 hsub) x t h2⟩

theorem reachB_self (g : IGraph) (K : List ℕ) (t : ℕ) (htn : t < g.n)
    (htK : t ∈ K) : reachB g K t t := by
  unfold reachB
  obtain ⟨tl, htl⟩ := igraphBfs_head g t (some K) .out
    (bfsOk_some_true g K t htn htK)
  rw [htl]
  exact List.mem_cons_self _ _

theorem reachB_dest (g : IGraph) (K : List ℕ) (x t : ℕ)
    (h : reachB g K x t) : (x < g.n ∧ x ∈ K) ∧ (t < g.n ∧ t ∈ K) := by
  have h0 := h
  unfold reachB at h0
  have h2 := igraphBfs_ok g [x] (some K) .out t h0
  have h1 := (reachB_iff g K x t).1 h
  exact ⟨bfsOk_some_dest g K x h1.1, bfsOk_some_dest g K t h2⟩

theorem reachB_trans_via (g : IGraph) (K : List ℕ) (x u t : ℕ)
    (h1 : ReachVia g .out (bfsOk g (some K)) x u) (h2 : reachB g K u t)
    (hx : bfsOk g (some K) x = true) : reachB g K x t := by
  obtain ⟨h3, h4⟩ := (reachB_iff g K u t).1 h2
  exact (reachB_iff g K x t).2 ⟨hx, Relation.ReflTransGen.trans h1 h4⟩

/-- Splitting a reachability chain at a distinguished set `D` whose endpoint
avoids `D`: either the whole chain has all its step targets outside `D`, or
there is a last crossing — a step from a `D` element to a non-`D` element
followed by a chain whose step targets all avoid `D`. -/
theorem rtg_split {α : Type} (r : α → α → Prop) (D : α → Prop) :
    ∀ a b, Relation.ReflTransGen r a b → ¬ D b →
      Relation.ReflTransGen (fun x y => r x y ∧ ¬ D y) a b ∨
      ∃ y z, D y ∧ r y z ∧ ¬ D z ∧
        Relation.ReflTransGen (fun x y => r x y ∧ ¬ D y) z b := by
  intro a b hab hb
  induction hab using Relation.ReflTransGen.head_induction_on with
  | refl => exact Or.inl Relation.ReflTransGen.refl
  | head hstep htail ih =>
    rename_i x c
    rcases ih with h1 | h2
    · by_cases hcD : D c
      · rcases Relation.ReflTransGen.cases_head h1 with hcb | ⟨z, hz, hzb⟩
        · rw [hcb] at hcD
          exact absurd hcD hb
        · exact Or.inr ⟨c, z, hcD, hz.1, hz.2, hzb⟩
      · exact Or.inl (Relation.ReflTransGen.head ⟨hstep, hcD⟩ h1)
    · exact Or.inr h2

/-! ### Completeness and inversion of the `Gamma(S)` fold -/

theorem gamma_inner_mono (S : MarkedQueue) (l : List ℕ) :
    ∀ (γ : ℕ → Bool) (i : ℕ), γ i = true →
      (l.foldl (fun γ nei => if S.iselement nei then γ
        else upd γ nei true) γ) i = true := by
  induction l with
  | nil => intro γ i h; exact h
  | cons a l ih =>
    intro γ i h
    simp only [List.foldl_cons]
    by_cases ha : S.iselement a = true
    · rw [if_pos ha]; exact ih γ i h
    · rw [if_neg ha]
      refine ih _ i ?_
      by_cases hia : i = a
      · subst hia; exact upd_same _ _ _
      · rw [upd_other _ _ _ _ hia]; exact h

theorem gamma_outer_mono (g : IGraph) (S : MarkedQueue) (l : List ℕ) :
    ∀ (γ : ℕ → Bool) (i : ℕ), γ i = true →
      (l.foldl (fun γ i =>
        if S.iselement i then
          (adjFn g .out i).foldl (fun γ nei =>
            if S.iselement nei then γ else upd γ nei true) γ
        else γ) γ) i = true := by
  induction l with
  | nil => intro γ i h; exact h
  | cons a l ih =>
    intro γ i h
    simp only [List.foldl_cons]
    by_cases ha : S.iselement a = true
    · rw [if_pos ha]
      exact ih _ i (gamma_inner_mono S (adjFn g .out a) γ i h)
    · rw [if_neg ha]; exact ih γ i h

theorem gamma_inner_sets (S : MarkedQueue) (l : List ℕ) :
    ∀ (γ : ℕ → Bool) (y : ℕ), y ∈ l → S.iselement y = false →
      (l.foldl (fun γ nei => if S.iselement nei then γ
        else upd γ nei true) γ) y = true := by
  induction l with
  | nil => intro γ y hy hyS; exact absurd hy (List.not_mem_nil y)
  | cons a l ih =>
    intro γ y hy hyS
    simp only [List.foldl_cons]
    rcases List.mem_cons.1 hy with rfl | h2
    · rw [if_neg (by simp [hyS])]
      exact gamma_inner_mono S l (upd γ y true) y (upd_same _ _ _)
    · by_cases ha : S.iselement a = true
      · rw [if_pos ha]; exact ih γ y h2 hyS
      · rw [if_neg ha]; exact ih _ y h2 hyS

theorem gamma_outer_sets (g : IGraph) (S : MarkedQueue) (l : List ℕ) :
    ∀ (γ : ℕ → Bool) (i y : ℕ), i ∈ l → S.iselement i = true →
      y ∈ adjFn g .out i → S.iselement y = false →
      (l.foldl (fun γ i =>
        if S.iselement i then
          (adjFn g .out i).foldl (fun γ nei =>
            if S.iselement nei then γ else upd γ nei true) γ
        else γ) γ) y = true := by
  induction l with
  | nil => intro γ i y hi; exact absurd hi (List.not_mem_nil i)
  | cons a l ih =>
    intro γ i y hi hiS hy hyS
    simp only [List.foldl_cons]
    rcases List.mem_cons.1 hi with rfl | h2
    · rw [if_pos hiS]
      exact gamma_outer_mono g S l _ y
        (gamma_inner_sets S (adjFn g .out i) γ y hy hyS)
    · by_cases ha : S.iselement a = true
      · rw [if_pos ha]; exact ih _ i y h2 hiS hy hyS
      · rw [if_neg ha]; exact ih γ i y h2 hiS hy hyS

/-- Completeness of the `Gamma(S)` construction: an out-neighbor outside
`S` of an in-range `S` element is marked. -/
theorem gammaS_complete (g : IGraph) (S : MarkedQueue) (mp : ℕ → ℕ)
    (source : ℕ) (hS : S.size ≠ 0) (i y : ℕ) (hin : i < g.n)
    (hiS : S.iselement i = true) (hy : y ∈ adjFn g .out i)
    (hyS : S.iselement y = false) : gammaS g S mp source y = true := by
  unfold gammaS
  rw [if_neg hS]
  exact gamma_outer_sets g S (List.range g.n) _ i y (List.mem_range.2 hin)
    hiS hy hyS

theorem gamma_inner_inv (S : MarkedQueue) (l : List ℕ) :
    ∀ (γ : ℕ → Bool) (y : ℕ),
      (l.foldl (fun γ nei => if S.iselement nei then γ
        else upd γ nei true) γ) y = true →
      γ y = true ∨ y ∈ l := by
  induction l with
  | nil => intro γ y h; exact Or.inl h
  | cons a l ih =>
    intro γ y h
    simp only [List.foldl_cons] at h
    by_cases ha : S.iselement a = true
    · rw [if_pos ha] at h
      rcases ih γ y h with h1 | h1
      · exact Or.inl h1
      · exact Or.inr (List.mem_cons_of_mem _ h1)
    · rw [if_neg ha] at h
      rcases ih _ y h with h1 | h1
      · by_cases hya : y = a
        · exact Or.inr (by rw [hya]; exact List.mem_cons_self _ _)
        · rw [upd_other _ _ _ _ hya] at h1
          exact Or.inl h1
      · exact Or.inr (List.mem_cons_of_mem _ h1)

theorem gamma_outer_inv (g : IGraph) (S : MarkedQueue) (l : List ℕ) :
    ∀ (γ : ℕ → Bool) (y : ℕ),
      (l.foldl (fun γ i =>
        if S.iselement i then
          (adjFn g .out i).foldl (fun γ nei =>
            if S.iselement nei then γ else upd γ nei true) γ
        else γ) γ) y = true →
      γ y = true ∨ ∃ i, S.iselement i = true ∧ y ∈ adjFn g .out i := by
  induction l with
  | nil => intro γ y h; exact Or.inl h
  | cons a l ih =>
    intro γ y h
    simp only [List.foldl_cons] at h
    by_cases ha : S.iselement a = true
    · rw [if_pos ha] at h
      rcases ih _ y h with h1 | h1
      · rcases gamma_inner_inv S (adjFn g .out a) γ y h1 with h2 | h2
        · exact Or.inl h2
        · exact Or.inr ⟨a, ha, h2⟩
      · exact Or.inr h1
    · rw [if_neg ha] at h
      rcases ih γ y h with h1 | h1
      · exact Or.inl h1
      · exact Or.inr h1

/-- Inversion of the `Gamma(S)` construction for non-empty `S`: every
marked vertex is an out-neighbor of some `S` element. -/
theorem gammaS_inv (g : IGraph) (S : MarkedQueue) (mp : ℕ → ℕ)
    (source : ℕ) (hS : S.size ≠ 0) (y : ℕ)
    (h : gammaS g S mp source y = true) :
    ∃ i, S.iselement i = true ∧ y ∈ adjFn g .out i := by
  unfold gammaS at h
  rw [if_neg hS] at h
  rcases gamma_outer_inv g S (List.range g.n) _ y h with h1 | h1
  · simp at h1
  · exact h1

theorem zero_fold_false (l : List ℕ) :
    ∀ (γ : ℕ → Bool) (i : ℕ), γ i = false →
      (l.foldl (fun γ x => upd γ x false) γ) i = false := by
  induction l with
  | nil => intro γ i h; exact h
  | cons a l ih =>
    intro γ i h
    simp only [List.foldl_cons]
    refine ih _ i ?_
    by_cases hia : i = a
    · subst hia; exact upd_same _ _ _
    · rw [upd_other _ _ _ _ hia]; exact h

theorem zero_fold_mem (l : List ℕ) :
    ∀ (γ : ℕ → Bool) (i : ℕ), i ∈ l →
      (l.foldl (fun γ x => upd γ x false) γ) i = false := by
  induction l with
  | nil => intro γ i h; exact absurd h (List.not_mem_nil i)
  | cons a l ih =>
    intro γ i h
    simp only [List.foldl_cons]
    rcases List.mem_cons.1 h with rfl | h2
    · exact zero_fold_false l _ i (upd_same _ _ _)
    · exact ih _ i h2

theorem zero_fold_not_mem (l : List ℕ) :
    ∀ (γ : ℕ → Bool) (i : ℕ), i ∉ l →
      (l.foldl (fun γ x => upd γ x false) γ) i = γ i := by
  induction l with
  | nil => intro γ i h; rfl
  | cons a l ih =>
    intro γ i h
    simp only [List.foldl_cons]
    have hia : i ≠ a := fun hh => h (by rw [hh]; exact List.mem_cons_self _ _)
    rw [ih _ i (fun hh => h (List.mem_cons_of_mem _ hh)),
      upd_other _ _ _ _ hia]

/-! ### Structure of the kept set, `leftout` and the subtrees -/

theorem keepOf_mem (g : IGraph) (S : MarkedQueue) (u : ℕ) :
    u ∈ keepOf g S ↔ (u < g.n ∧ S.iselement u = false) := by
  unfold keepOf
  simp only [List.mem_filter, List.mem_range, Bool.not_eq_true']

theorem keepOf_nodup (g : IGraph) (S : MarkedQueue) : (keepOf g S).Nodup :=
  List.Nodup.filter _ (List.nodup_range g.n)

theorem keepOf_sublists (g : IGraph) (S : MarkedQueue) :
    keepOf g S ∈ (List.range g.n).sublists :=
  List.mem_sublists.2 (List.filter_sublist _)

theorem leftoutK_subset (g : IGraph) (K : List ℕ) (t : ℕ) (x : ℕ)
    (hx : x ∈ leftoutK g K t) : x ∈ K := by
  unfold leftoutK at hx
  obtain ⟨w, hw, hwx⟩ := List.mem_map.1 hx
  unfold domResK at hw
  have h1 := dominatorTreeRun_leftout _ _ w hw
  rw [ism_graph_n] at h1
  rw [ism_invmap] at hwx
  rw [← hwx, List.getD_eq_getElem _ _ h1.1]
  exact List.getElem_mem h1.1

theorem nuvK_subset (g : IGraph) (K : List ℕ) (hnd : K.Nodup) (t x : ℕ)
    (hx : x ∈ K) (w : ℕ) (hw : w ∈ nuvK g K t x) : w ∈ K := by
  unfold nuvK at hw
  obtain ⟨w0, hw0, hww⟩ := List.mem_map.1 hw
  rw [ism_invmap] at hww
  have hround := ism_roundtrip g K hnd x hx
  rcases dfs_order_supported _ _ _ w0 hw0 with h1 | ⟨w1, h2⟩
  · rw [h1] at hww
    rw [← hww, hround.1]
    exact hx
  · have h3 : ∃ e ∈ (domResK g K t).2.1.edges, e.1 = w0 := by
      simp only [adjFn] at h2
      obtain ⟨e, he, hev⟩ := List.mem_map.1 h2
      exact ⟨e, (List.mem_filter.1 he).1, hev⟩
    obtain ⟨e, he, hex⟩ := h3
    unfold domResK at he
    have hsrc := dominatorTreeRun_edge_src _ _ e he
    rw [ism_graph_n, hex] at hsrc
    rw [← hww, List.getD_eq_getElem _ _ hsrc.2]
    exact List.getElem_mem hsrc.2

theorem nuvK_self (g : IGraph) (K : List ℕ) (hnd : K.Nodup) (t x : ℕ)
    (hx : x ∈ K) : x ∈ nuvK g K t x := by
  unfold nuvK
  obtain ⟨tl0, htl0⟩ := dfs_order_head (domResK g K t).2.1
    ((inducedSubgraphMap g K).2.1 x - 1) .inn
  refine List.mem_map.2 ⟨(inducedSubgraphMap g K).2.1 x - 1, ?_, ?_⟩
  · rw [htl0]; exact List.mem_cons_self _ _
  · rw [ism_invmap]
    exact (ism_roundtrip g K hnd x hx).1

theorem gammaVecOf_mem (g : IGraph) (S : MarkedQueue) (source t y : ℕ) :
    y ∈ gammaVecOf g S source t ↔
      (y < g.n ∧ gammaFn g S source t y = true) := by
  unfold gammaVecOf
  simp only [List.mem_filter, List.mem_range]

theorem gammaFn_intro (g : IGraph) (S : MarkedQueue) (source t y : ℕ)
    (h1 : gammaS g S (inducedSubgraphMap g (keepOf g S)).2.1 source y = true)
    (h2 : y ∉ leftoutK g (keepOf g S) t) :
    gammaFn g S source t y = true := by
  unfold gammaFn
  rw [zero_fold_not_mem _ _ _ h2]
  exact h1

theorem gammaFn_elim (g : IGraph) (S : MarkedQueue) (source t y : ℕ)
    (h : gammaFn g S source t y = true) :
    gammaS g S (inducedSubgraphMap g (keepOf g S)).2.1 source y = true ∧
      y ∉ leftoutK g (keepOf g S) t := by
  unfold gammaFn at h
  refine ⟨zero_fold_true _ _ y h, fun hmem => ?_⟩
  rw [zero_fold_mem _ _ y hmem] at h
  cases h

/-! ### Consequences of the dominator characterization -/

/-- Nesting of dominator subtrees under the characterization: if `u` lies
in the subtree of `x`, the whole subtree of `u` lies in the subtree of
`x`. -/
theorem nuv_nested (g : IGraph) (t : ℕ) (K : List ℕ) (hnd : K.Nodup)
    (hchar : ∀ x ∈ K, reachB g K x t → ∀ w ∈ List.range g.n,
      (w ∈ nuvK g K t x ↔
        (w ∈ K ∧ reachB g K w t ∧ ¬ reachB g (K.erase x) w t)))
    (hKn : ∀ w ∈ K, w < g.n)
    (u x : ℕ) (hu : u ∈ K) (hru : reachB g K u t)
    (hx : x ∈ K) (hrx : reachB g K x t) (hut : u ≠ t)
    (hux : u ∈ nuvK g K t x)
    (w : ℕ) (hw : w ∈ nuvK g K t u) : w ∈ nuvK g K t x := by
  by_cases huxeq : u = x
  · rw [← huxeq]; exact hw
  have hwK : w ∈ K := nuvK_subset g K hnd t u hu w hw
  have hwr : w ∈ List.range g.n := List.mem_range.2 (hKn w hwK)
  have hcu := (hchar u hu hru w hwr).1 hw
  have hcx := (hchar x hx hrx u (List.mem_range.2 (hKn u hu))).1 hux
  refine (hchar x hx hrx w hwr).2 ⟨hwK, hcu.2.1, fun hcon => ?_⟩
  obtain ⟨hokw, hpath⟩ := (reachB_iff g (K.erase x) w t).1 hcon
  have htne : ¬ (t = u) := fun hh => hut hh.symm
  rcases rtg_split (bstep g .out (bfsOk g (some (K.erase x))))
      (fun z => z = u) w t hpath htne with h1 | ⟨y, z, hy, hyz, hz, hzt⟩
  · by_cases hwu : w = u
    · subst hwu
      exact hcx.2.2 hcon
    · have hmono : ∀ z2, bfsOk g (some (K.erase x)) z2 = true → z2 ≠ u →
          bfsOk g (some (K.erase u)) z2 = true := by
        intro z2 hz2 hz2u
        obtain ⟨ha, hb⟩ := bfsOk_some_dest g _ z2 hz2
        exact bfsOk_some_true g _ z2 ha
          ((List.mem_erase_of_ne hz2u).2 (List.mem_of_mem_erase hb))
      have h2 : Relation.ReflTransGen
          (bstep g .out (bfsOk g (some (K.erase u)))) w t := by
        refine Relation.ReflTransGen.mono (fun p q hpq => ?_) h1
        exact ⟨hpq.1.1, hmono q hpq.1.2 hpq.2⟩
      have hokw2 : bfsOk g (some (K.erase u)) w = true := by
        obtain ⟨ha, hb⟩ := bfsOk_some_dest g _ w hokw
        exact bfsOk_some_true g _ w ha
          ((List.mem_erase_of_ne hwu).2 (List.mem_of_mem_erase hb))
      exact hcu.2.2 ((reachB_iff g (K.erase u) w t).2 ⟨hokw2, h2⟩)
  · rw [hy] at hyz
    have hchain : Relation.ReflTransGen
        (bstep g .out (bfsOk g (some (K.erase x)))) u t := by
      refine Relation.ReflTransGen.head hyz ?_
      exact Relation.ReflTransGen.mono (fun p q hpq => hpq.1) hzt
    have hoku : bfsOk g (some (K.erase x)) u = true :=
      bfsOk_some_true g _ u (hKn u hu) ((List.mem_erase_of_ne huxeq).2 hu)
    exact hcx.2.2 ((reachB_iff g (K.erase x) u t).2 ⟨hoku, hchain⟩)

/-- Transfer of target reachability past the accepted subtree: a kept
vertex that reaches the target and lies outside the accepted candidate
subtree `Nu(mi)` also reaches the target inside any kept subset that
retains everything outside `Nu(mi)` and `leftout`. -/
theorem reach_avoid (g : IGraph) (t : ℕ) (K : List ℕ)
    (hloChar : ∀ x ∈ List.range g.n,
      (x ∈ leftoutK g K t ↔ (x ∈ K ∧ ¬ reachB g K x t)))
    (hchar : ∀ x ∈ K, reachB g K x t → ∀ w ∈ List.range g.n,
      (w ∈ nuvK g K t x ↔
        (w ∈ K ∧ reachB g K w t ∧ ¬ reachB g (K.erase x) w t)))
    (hKn : ∀ w ∈ K, w < g.n)
    (mi : ℕ) (hmi : mi ∈ K) (hrmi : reachB g K mi t)
    (K2 : List ℕ)
    (hK2 : ∀ z, z ∈ K → z ∉ nuvK g K t mi → z ∉ leftoutK g K t → z ∈ K2)
    (hK2n : ∀ z ∈ K2, z < g.n)
    (u : ℕ) (hu : u ∈ K) (hru : reachB g K u t)
    (hunuv : u ∉ nuvK g K t mi) :
    reachB g K2 u t := by
  have hur := List.mem_range.2 (hKn u hu)
  have h2a : reachB g (K.erase mi) u t := by
    by_contra hcon
    exact hunuv ((hchar mi hmi hrmi u hur).2 ⟨hu, hru, hcon⟩)
  obtain ⟨hoku, hpath⟩ := (reachB_iff g (K.erase mi) u t).1 h2a
  have hstep2 : ∀ z, z ∈ K.erase mi →
      Relation.ReflTransGen (bstep g .out (bfsOk g (some (K.erase mi)))) z t →
      z ∈ K2 := by
    intro z hzK hz
    have hzK0 : z ∈ K := List.mem_of_mem_erase hzK
    have hzok : bfsOk g (some (K.erase mi)) z = true :=
      bfsOk_some_true g _ z (hKn z hzK0) hzK
    have hzreach : reachB g (K.erase mi) z t :=
      (reachB_iff g (K.erase mi) z t).2 ⟨hzok, hz⟩
    have hzreachK : reachB g K z t :=
      reachB_mono g (K.erase mi) K (fun w hw => List.mem_of_mem_erase hw) z t
        hzreach
    have hzlo : z ∉ leftoutK g K t := fun hmem =>
      ((hloChar z (List.mem_range.2 (hKn z hzK0))).1 hmem).2 hzreachK
    have hznuv : z ∉ nuvK g K t mi := fun hmem =>
      ((hchar mi hmi hrmi z (List.mem_range.2 (hKn z hzK0))).1 hmem).2.2
        hzreach
    exact hK2 z hzK0 hznuv hzlo
  have htrans : ∀ z, Relation.ReflTransGen
      (bstep g .out (bfsOk g (some (K.erase mi)))) z t →
      Relation.ReflTransGen (bstep g .out (bfsOk g (some K2))) z t := by
    intro z hz
    induction hz using Relation.ReflTransGen.head_induction_on with
    | refl => exact Relation.ReflTransGen.refl
    | head hstep htail ih =>
      rename_i a c
      obtain ⟨hadj, hok⟩ := hstep
      have hcK2 : c ∈ K2 := hstep2 c (bfsOk_some_dest g _ c hok).2 htail
      exact Relation.ReflTransGen.head
        ⟨hadj, bfsOk_some_true g K2 c (hK2n c hcK2) hcK2⟩ ih
  have huK2 : u ∈ K2 :=
    hK2 u hu hunuv (fun hmem => ((hloChar u hur).1 hmem).2 hru)
  exact (reachB_iff g K2 u t).2
    ⟨bfsOk_some_true g K2 u (hKn u hu) huK2, htrans u hpath⟩

/-- Transfer of subtree membership to a kept subset: a vertex of `Nu(u)`
that survives into the subset and still reaches the target there lies in
the subset subtree of `u` as well. -/
theorem nuv_transfer (g : IGraph) (t : ℕ) (K K2 : List ℕ)
    (hnd2 : K2.Nodup)
    (hchar : ∀ x ∈ K, reachB g K x t → ∀ w ∈ List.range g.n,
      (w ∈ nuvK g K t x ↔
        (w ∈ K ∧ reachB g K w t ∧ ¬ reachB g (K.erase x) w t)))
    (hchar2 : ∀ x ∈ K2, reachB g K2 x t → ∀ w ∈ List.range g.n,
      (w ∈ nuvK g K2 t x ↔
        (w ∈ K2 ∧ reachB g K2 w t ∧ ¬ reachB g (K2.erase x) w t)))
    (hsub : ∀ z, z ∈ K2 → z ∈ K) (hKn : ∀ w ∈ K, w < g.n)
    (u : ℕ) (hu : u ∈ K) (hru : reachB g K u t)
    (hu2 : u ∈ K2) (hru2 : reachB g K2 u t)
    (w : ℕ) (hw : w ∈ nuvK g K t u) (hw2 : w ∈ K2)
    (hrw2 : reachB g K2 w t) : w ∈ nuvK g K2 t u := by
  have hwr := List.mem_range.2 (hKn w (hsub w hw2))
  refine (hchar2 u hu2 hru2 w hwr).2 ⟨hw2, hrw2, fun hcon => ?_⟩
  have hKsub : ∀ z, z ∈ K2.erase u → z ∈ K.erase u := by
    intro z hz
    obtain ⟨hzu, hzK2⟩ := (List.Nodup.mem_erase_iff hnd2).1 hz
    exact (List.mem_erase_of_ne hzu).2 (hsub z hzK2)
  have hcon2 : reachB g (K.erase u) w t :=
    reachB_mono g (K2.erase u) (K.erase u) hKsub w t hcon
  exact ((hchar u hu hru w hwr).1 hw).2.2 hcon2

/-! ### The accepted pivot, in terms of the kept-set projections -/

/-- Core description of a successful pivot call with non-empty `Isv`, with
every component expressed through `keepOf`, `nuvK`, `leftoutK` and
`gammaVecOf`: the accepted vertex is a marked minimal candidate outside
`S`, reachable from `Gamma(S)` inside its own subtree, `Isv` is the BFS
from it restricted to its subtree plus `leftout`, and the acceptance check
passed on its subtree. -/
theorem pivotAllCuts_accept_core (g : IGraph) (S : MarkedQueue) (T : EStack)
    (source target : ℕ) (v : ℕ) (Isv : List ℕ)
    (h : pivotAllCuts g S T source target = .ok (v, Isv)) (hne : Isv ≠ []) :
    v < g.n ∧ S.iselement v = false ∧
      gammaFn g S source target v = true ∧
      v ∈ igraphBfs g (gammaVecOf g S source target)
        (some (nuvK g (keepOf g S) target v)) .out ∧
      Isv = igraphBfs g [v]
        (some (nuvK g (keepOf g S) target v ++
          leftoutK g (keepOf g S) target)) .out ∧
      (igraphBfs g (gammaVecOf g S source target)
        (some (nuvK g (keepOf g S) target v)) .out).all
        (fun u => !(T.iselement u) && u ≠ target) = true ∧
      (S.els = [] → source < g.n → v = source) := by
  simp only [pivotAllCuts] at h
  split at h
  next e hdt => cases h
  next dom domtree leftout0 hdt =>
    injection h with h2
    set keep : List ℕ := (List.range g.n).filter (fun i => !(S.iselement i))
      with hkeep
    have hkeepOf : keepOf g S = keep := rfl
    rw [hkeepOf]
    have hndkeep : keep.Nodup := by
      rw [hkeep]
      exact List.Nodup.filter _ (List.nodup_range g.n)
    have hkeep_mem : ∀ u, u ∈ keep ↔ u < g.n ∧ S.iselement u = false := by
      intro u
      simp only [hkeep, List.mem_filter, List.mem_range, Bool.not_eq_true']
    set mp : ℕ → ℕ := (inducedSubgraphMap g keep).2.1 with hmp
    set invmap : List ℕ := (inducedSubgraphMap g keep).2.2 with hinv
    have hinv_keep : invmap = keep := by rw [hinv]; rfl
    set γ0 : ℕ → Bool := gammaS g S mp source with hγ0
    set lo : List ℕ := leftout0.map (fun x => invmap.getD x 0) with hlo
    set γfn : ℕ → Bool := lo.foldl (fun γ x => upd γ x false) γ0 with hγfn
    obtain ⟨mi, hmi, hv, hIsv, hchk⟩ :=
      pivotAllLoop_spec g T target mp invmap domtree lo _ _ v Isv h2 hne
    obtain ⟨hr0, hr1, hr2, hres⟩ := dominatorTree_ok _ _ _ _ hdt
    have hdtree : domtree = (domResK g keep target).2.1 := by
      have h5 := congrArg (fun x => x.2.1) hres
      simpa [domResK, hmp] using h5
    have hlef : leftout0 = (domResK g keep target).2.2 := by
      have h5 := congrArg (fun x => x.2.2) hres
      simpa [domResK, hmp] using h5
    have hlo_eq : lo = leftoutK g keep target := by
      rw [hlo, hinv_keep, hlef]
      rfl
    have hnuv_eq : ∀ x, (igraphDfs domtree (mp x - 1) .inn).order.map
        (fun t => invmap.getD t 0) = nuvK g keep target x := by
      intro x
      rw [hdtree, hinv_keep]
      rfl
    have hγfn_gamma : γfn = gammaFn g S source target := by
      rw [hγfn, hγ0, hlo_eq]
      rfl
    have hgvOf : (List.range g.n).filter
        (fun i => gammaFn g S source target i) =
        gammaVecOf g S source target := rfl
    have hmi2 : γfn mi = true ∧ mi < g.n := by
      split at hmi
      · exact minimalElems_gamma g.n domtree _ γfn invmap mi hmi
      · cases hmi
    have hγ0mi : γ0 mi = true := by
      have h3 := hmi2.1
      rw [hγfn] at h3
      exact zero_fold_true lo γ0 mi h3
    have hSel_mi : S.iselement mi = false := by
      by_cases hsz : S.size = 0
      · have hSe : S.els = [] := by
          unfold MarkedQueue.size at hsz
          exact List.length_eq_zero.1 hsz
        unfold MarkedQueue.iselement
        rw [hSe]
        rfl
      · refine gammaS_not_elem g S mp source hsz mi ?_
        have h3 := hγ0mi
        rw [hγ0] at h3
        exact h3
    have hmi_keep : mi ∈ keep := (hkeep_mem mi).2 ⟨hmi2.2, hSel_mi⟩
    have hmi_nuv : mi ∈ nuvK g keep target mi :=
      nuvK_self g keep hndkeep target mi hmi_keep
    have hok_nuv : bfsOk g (some (nuvK g keep target mi)) mi = true :=
      bfsOk_some_true g _ mi hmi2.2 hmi_nuv
    have hmi_gvOf : mi ∈ gammaVecOf g S source target :=
      (gammaVecOf_mem g S source target mi).2 ⟨hmi2.2, by
        rw [← hγfn_gamma]
        exact hmi2.1⟩
    have hmi_isvMin : mi ∈ igraphBfs g (gammaVecOf g S source target)
        (some (nuvK g keep target mi)) .out :=
      igraphBfs_mem_root g _ _ .out mi hmi_gvOf hok_nuv
    rw [hnuv_eq mi, hγfn_gamma, hgvOf] at hchk
    rw [hnuv_eq mi, hlo_eq] at hIsv
    have hsource_clause : S.els = [] → source < g.n → mi = source := by
      intro hSe hsn
      have hsz : S.size = 0 := by
        unfold MarkedQueue.size
        rw [hSe]
        rfl
      have hmi_eq : mi = mp source - 1 := by
        refine gammaS_empty_case g S mp source hsz mi ?_
        have h3 := hγ0mi
        rw [hγ0] at h3
        exact h3
      have hkr : keep = List.range g.n := by
        rw [hkeep]
        exact keep_filter_empty g S hSe
      obtain ⟨ks, hks, hgets, hmaps⟩ := ism_map_mem g keep hndkeep source
        (by rw [hkr]; exact List.mem_range.2 hsn)
      rw [← hmp] at hmaps
      have hks_eq : ks = source := by
        rw [hkr] at hgets
        have hkslt : ks < g.n := by
          rw [hkr] at hks
          simpa using hks
        rw [List.get?_range hkslt] at hgets
        injection hgets
      have hmp_src : mp source = source + 1 := by rw [hmaps, hks_eq]
      rw [hmi_eq, hmp_src]
      simp
    subst hv
    refine ⟨hmi2.2, hSel_mi, ?_, hmi_isvMin, hIsv, hchk, hsource_clause⟩
    rw [← hγfn_gamma]
    exact hmi2.1

/-- The accepted pivot vertex itself satisfies the stack invariant: it is
distinct from the target, lies outside `S` and `leftout`, and is reachable
from `Gamma(S)` inside its own subtree. -/
theorem pivotAllCuts_accept (g : IGraph) (S : MarkedQueue) (T : EStack)
    (source target : ℕ) (v : ℕ) (Isv : List ℕ)
    (h : pivotAllCuts g S T source target = .ok (v, Isv)) (hne : Isv ≠ []) :
    v ≠ target ∧ Ginv g S source target v := by
  obtain ⟨h1, h2, h3, h4, h5, h6, h7⟩ :=
    pivotAllCuts_accept_core g S T source target v Isv h hne
  have hvt := List.all_eq_true.1 h6 v h4
  rw [Bool.and_eq_true] at hvt
  exact ⟨of_decide_eq_true hvt.2, h1, h2,
    (gammaFn_elim g S source target v h3).2, h4⟩

/-- Preservation of the stack invariant across a right branch of the
enumeration: when the pivot accepts `(v, Isv)` and `u` is a `T` vertex
satisfying the invariant, then `u` survives outside `Isv` — the acceptance
check rejected every candidate whose subtree contains `u` — and the
invariant still holds after the whole `Isv` batch is pushed into `S`,
assuming the dominator characterization `DomSound`. -/
theorem pivotAllCuts_preserves (g : IGraph) (S : MarkedQueue) (T : EStack)
    (source target : ℕ) (v : ℕ) (Isv : List ℕ)
    (hDS : DomSound g target) (hs : source < g.n) (ht : target < g.n)
    (htS : S.iselement target = false) (hSr : ∀ w ∈ S.els, w < g.n)
    (h : pivotAllCuts g S T source target = .ok (v, Isv)) (hne : Isv ≠ [])
    (u : ℕ) (huT : T.iselement u = true) (hut : u ≠ target)
    (hG : Ginv g S source target u) :
    u ∉ Isv ∧
      Ginv g (Isv.foldl (fun S u => if S.iselement u then S else S.push u)
        S.startBatch) source target u := by
  obtain ⟨hvn, hvS, hvγ, hvMin, hIsvEq, hchk, hsrcC⟩ :=
    pivotAllCuts_accept_core g S T source target v Isv h hne
  obtain ⟨hspec1, hIsvn, hspec3, hspec4, hspec5, htargNI⟩ :=
    pivotAllCuts_spec g S T source target v Isv h hne
  set S2 : MarkedQueue := Isv.foldl
    (fun S u => if S.iselement u then S else S.push u) S.startBatch with hS2
  unfold Ginv at hG
  obtain ⟨hun, huS, hulo, huMin⟩ := hG
  have hK := keepOf_mem g S
  have hKn : ∀ w ∈ keepOf g S, w < g.n := fun w hw => ((hK w).1 hw).1
  have hnd := keepOf_nodup g S
  have htK : target ∈ keepOf g S := (hK target).2 ⟨ht, htS⟩
  obtain ⟨hloChar, hnuvChar⟩ := hDS (keepOf g S) (keepOf_sublists g S) htK
  have huK : u ∈ keepOf g S := (hK u).2 ⟨hun, huS⟩
  have hur : u ∈ List.range g.n := List.mem_range.2 hun
  have hru : reachB g (keepOf g S) u target := by
    by_contra hcon
    exact hulo ((hloChar u hur).2 ⟨huK, hcon⟩)
  have hvK : v ∈ keepOf g S := (hK v).2 ⟨hvn, hvS⟩
  have hvlo : v ∉ leftoutK g (keepOf g S) target :=
    (gammaFn_elim g S source target v hvγ).2
  have hvr : v ∈ List.range g.n := List.mem_range.2 hvn
  have hrv : reachB g (keepOf g S) v target := by
    by_contra hcon
    exact hvlo ((hloChar v hvr).2 ⟨hvK, hcon⟩)
  have hunuv : u ∉ nuvK g (keepOf g S) target v := by
    intro hin
    obtain ⟨γ, hγroots, hγok, hγpath⟩ := igraphBfs_sound g
      (gammaVecOf g S source target) (some (nuvK g (keepOf g S) target u))
      .out u huMin
    have hsubt : ∀ w, w ∈ nuvK g (keepOf g S) target u →
        w ∈ nuvK g (keepOf g S) target v := fun w hw =>
      nuv_nested g target (keepOf g S) hnd hnuvChar hKn u v huK hru hvK hrv
        hut hin w hw
    have hokimp : ∀ w, bfsOk g (some (nuvK g (keepOf g S) target u)) w =
        true → bfsOk g (some (nuvK g (keepOf g S) target v)) w = true := by
      intro w hw
      obtain ⟨ha, hb⟩ := bfsOk_some_dest g _ w hw
      exact bfsOk_some_true g _ w ha (hsubt w hb)
    have hMin2 : u ∈ igraphBfs g (gammaVecOf g S source target)
        (some (nuvK g (keepOf g S) target v)) .out :=
      igraphBfs_complete g _ _ .out γ u hγroots (hokimp γ hγok)
        (reachVia_mono g .out _ _ hokimp γ u hγpath)
    have hchku := List.all_eq_true.1 hchk u hMin2
    rw [Bool.and_eq_true] at hchku
    have hTu : T.iselement u = false := by
      have h3 := hchku.1
      rwa [Bool.not_eq_true'] at h3
    rw [huT] at hTu
    cases hTu
  have hIsv_sub : ∀ z, z ∈ Isv → z ∈ nuvK g (keepOf g S) target v ∨
      z ∈ leftoutK g (keepOf g S) target := by
    intro z hz
    rw [hIsvEq] at hz
    have h4 := igraphBfs_ok g [v] _ .out z hz
    exact List.mem_append.1 (bfsOk_some_dest g _ z h4).2
  have hunotIsv : u ∉ Isv := by
    intro hmem
    rcases hIsv_sub u hmem with h1 | h1
    · exact hunuv h1
    · exact hulo h1
  have hS2els : ∀ z, z ∈ S2.els ↔ z ∈ S.els ∨ z ∈ Isv := by
    intro z
    rw [hS2]
    exact mq_pushLoop_mem Isv S.startBatch z
  have hK2 := keepOf_mem g S2
  have hK2_iff : ∀ z, z ∈ keepOf g S2 ↔ (z ∈ keepOf g S ∧ z ∉ Isv) := by
    intro z
    rw [hK2 z, hK z]
    constructor
    · rintro ⟨h1, h2⟩
      have h4 := (iselement_false_iff S2 z).1 h2
      rw [hS2els z] at h4
      exact ⟨⟨h1, (iselement_false_iff S z).2 (fun hh => h4 (Or.inl hh))⟩,
        fun hh => h4 (Or.inr hh)⟩
    · rintro ⟨⟨h1, h2⟩, h3⟩
      refine ⟨h1, (iselement_false_iff S2 z).2 ?_⟩
      rw [hS2els z]
      rintro (hh | hh)
      · exact (iselement_false_iff S z).1 h2 hh
      · exact h3 hh
  have hK2n : ∀ z ∈ keepOf g S2, z < g.n := fun z hz => ((hK2 z).1 hz).1
  have hnd2 := keepOf_nodup g S2
  have htK2 : target ∈ keepOf g S2 :=
    (hK2_iff target).2 ⟨htK, htargNI ht htS⟩
  obtain ⟨hloChar2, hnuvChar2⟩ := hDS (keepOf g S2) (keepOf_sublists g S2)
    htK2
  have hK2sub : ∀ z, z ∈ keepOf g S2 → z ∈ keepOf g S :=
    fun z hz => ((hK2_iff z).1 hz).1
  have hK2in : ∀ z, z ∈ keepOf g S → z ∉ nuvK g (keepOf g S) target v →
      z ∉ leftoutK g (keepOf g S) target → z ∈ keepOf g S2 := by
    intro z h1 h2 h3
    refine (hK2_iff z).2 ⟨h1, fun hmem => ?_⟩
    rcases hIsv_sub z hmem with h4 | h4
    · exact h2 h4
    · exact h3 h4
  have hru2 : reachB g (keepOf g S2) u target :=
    reach_avoid g target (keepOf g S) hloChar hnuvChar hKn v hvK hrv
      (keepOf g S2) hK2in hK2n u huK hru hunuv
  have hulo2 : u ∉ leftoutK g (keepOf g S2) target := fun hmem =>
    ((hloChar2 u hur).1 hmem).2 hru2
  have huK2 : u ∈ keepOf g S2 := (hK2_iff u).2 ⟨huK, hunotIsv⟩
  have hNusub : ∀ z, z ∈ nuvK g (keepOf g S) target u → z ∈ keepOf g S :=
    fun z hz => nuvK_subset g (keepOf g S) hnd target u huK z hz
  have hreach2 : ∀ z, z ∈ keepOf g S2 →
      ReachVia g .out (bfsOk g (some (keepOf g S2))) z u →
      reachB g (keepOf g S2) z target := by
    intro z hz hchain
    exact reachB_trans_via g (keepOf g S2) z u target hchain hru2
      (bfsOk_some_true g _ z (hK2n z hz) hz)
  have htail_trans : ∀ z,
      Relation.ReflTransGen (fun a b =>
        bstep g .out (bfsOk g (some (nuvK g (keepOf g S) target u))) a b ∧
        ¬ b ∈ Isv) z u →
      ReachVia g .out
        (bfsOk g (some (nuvK g (keepOf g S2) target u))) z u := by
    intro z hz
    induction hz using Relation.ReflTransGen.head_induction_on with
    | refl => exact Relation.ReflTransGen.refl
    | head hstep htail ih =>
      rename_i a c
      obtain ⟨⟨hadj, hok⟩, hcI⟩ := hstep
      obtain ⟨hcn, hcNu⟩ := bfsOk_some_dest g _ c hok
      have hcK : c ∈ keepOf g S := hNusub c hcNu
      have hcK2 : c ∈ keepOf g S2 := (hK2_iff c).2 ⟨hcK, hcI⟩
      have hcchainK2 : ReachVia g .out (bfsOk g (some (keepOf g S2)))
          c u := by
        refine Relation.ReflTransGen.mono (fun p q hpq => ?_) htail
        obtain ⟨⟨hadjq, hokq⟩, hqI⟩ := hpq
        obtain ⟨hqn, hqNu⟩ := bfsOk_some_dest g _ q hokq
        exact ⟨hadjq, bfsOk_some_true g _ q hqn
          ((hK2_iff q).2 ⟨hNusub q hqNu, hqI⟩)⟩
      have hcreach2 : reachB g (keepOf g S2) c target :=
        hreach2 c hcK2 hcchainK2
      have hcNu2 : c ∈ nuvK g (keepOf g S2) target u :=
        nuv_transfer g target (keepOf g S) (keepOf g S2) hnd2 hnuvChar
          hnuvChar2 hK2sub hKn u huK hru huK2 hru2 c hcNu hcK2 hcreach2
      exact Relation.ReflTransGen.head
        ⟨hadj, bfsOk_some_true g _ c hcn hcNu2⟩ ih
  have hS2sz : S2.size ≠ 0 := by
    have hv2 : v ∈ S2.els := (hS2els v).2 (Or.inr hspec1)
    unfold MarkedQueue.size
    intro hlen
    rw [List.length_eq_zero.1 hlen] at hv2
    exact absurd hv2 (List.not_mem_nil v)
  have hcross : ∀ y z, y ∈ Isv → z ∈ adjFn g .out y →
      bfsOk g (some (nuvK g (keepOf g S) target u)) z = true → z ∉ Isv →
      Relation.ReflTransGen (fun a b =>
        bstep g .out (bfsOk g (some (nuvK g (keepOf g S) target u))) a b ∧
        ¬ b ∈ Isv) z u →
      u ∈ igraphBfs g (gammaVecOf g S2 source target)
        (some (nuvK g (keepOf g S2) target u)) .out := by
    intro y z hyI hadj hzok hzI hchain
    obtain ⟨hzn, hzNu⟩ := bfsOk_some_dest g _ z hzok
    have hzK : z ∈ keepOf g S := hNusub z hzNu
    have hzK2 : z ∈ keepOf g S2 := (hK2_iff z).2 ⟨hzK, hzI⟩
    have hyS2 : S2.iselement y = true :=
      (iselement_iff S2 y).2 ((hS2els y).2 (Or.inr hyI))
    have hzS2 : S2.iselement z = false :=
      (iselement_false_iff S2 z).2 (by
        rw [hS2els z]
        rintro (hh | hh)
        · exact (iselement_false_iff S z).1 ((hK z).1 hzK).2 hh
        · exact hzI hh)
    have hyn : y < g.n := hIsvn y hyI
    have hγ02 : gammaS g S2 (inducedSubgraphMap g (keepOf g S2)).2.1
        source z = true :=
      gammaS_complete g S2 _ source hS2sz y z hyn hyS2 hadj hzS2
    have hchainK2 : ReachVia g .out (bfsOk g (some (keepOf g S2))) z u := by
      refine Relation.ReflTransGen.mono (fun p q hpq => ?_) hchain
      obtain ⟨⟨hadjq, hokq⟩, hqI⟩ := hpq
      obtain ⟨hqn, hqNu⟩ := bfsOk_some_dest g _ q hokq
      exact ⟨hadjq, bfsOk_some_true g _ q hqn
        ((hK2_iff q).2 ⟨hNusub q hqNu, hqI⟩)⟩
    have hzreach2 : reachB g (keepOf g S2) z target :=
      hreach2 z hzK2 hchainK2
    have hzlo2 : z ∉ leftoutK g (keepOf g S2) target := fun hmem =>
      ((hloChar2 z (List.mem_range.2 hzn)).1 hmem).2 hzreach2
    have hzγ2 : z ∈ gammaVecOf g S2 source target :=
      (gammaVecOf_mem g S2 source target z).2
        ⟨hzn, gammaFn_intro g S2 source target z hγ02 hzlo2⟩
    have hzNu2 : z ∈ nuvK g (keepOf g S2) target u :=
      nuv_transfer g target (keepOf g S) (keepOf g S2) hnd2 hnuvChar
        hnuvChar2 hK2sub hKn u huK hru huK2 hru2 z hzNu hzK2 hzreach2
    exact igraphBfs_complete g _ _ .out z u hzγ2
      (bfsOk_some_true g _ z hzn hzNu2) (htail_trans z hchain)
  obtain ⟨γ, hγroots, hγok, hγpath⟩ := igraphBfs_sound g
    (gammaVecOf g S source target) (some (nuvK g (keepOf g S) target u))
    .out u huMin
  have hdirect : γ ∉ Isv →
      Relation.ReflTransGen (fun a b =>
        bstep g .out (bfsOk g (some (nuvK g (keepOf g S) target u))) a b ∧
        ¬ b ∈ Isv) γ u →
      u ∈ igraphBfs g (gammaVecOf g S2 source target)
        (some (nuvK g (keepOf g S2) target u)) .out := by
    intro hγI hchain
    obtain ⟨hγn, hγfn⟩ := (gammaVecOf_mem g S source target γ).1 hγroots
    obtain ⟨hγ0, hγlo⟩ := gammaFn_elim g S source target γ hγfn
    obtain ⟨hγn2, hγNu⟩ := bfsOk_some_dest g _ γ hγok
    have hγK : γ ∈ keepOf g S := hNusub γ hγNu
    have hγK2 : γ ∈ keepOf g S2 := (hK2_iff γ).2 ⟨hγK, hγI⟩
    by_cases hsz : S.size = 0
    · exfalso
      have hSe : S.els = [] := List.length_eq_zero.1 hsz
      have hγeq : γ = (inducedSubgraphMap g (keepOf g S)).2.1 source - 1 :=
        gammaS_empty_case g S _ source hsz γ hγ0
      have hkr : keepOf g S = List.range g.n := by
        unfold keepOf
        exact keep_filter_empty g S hSe
      have hmp_src : (inducedSubgraphMap g (keepOf g S)).2.1 source =
          source + 1 := by
        obtain ⟨ks, hks, hgets, hmaps⟩ := ism_map_mem g (keepOf g S) hnd
          source (by rw [hkr]; exact List.mem_range.2 hs)
        have hkslt : ks < g.n := by
          rw [hkr] at hks
          simpa using hks
        have hks_eq : ks = source := by
          rw [hkr] at hgets
          rw [List.get?_range hkslt] at hgets
          injection hgets
        rw [hmaps, hks_eq]
      rw [hmp_src] at hγeq
      simp only [Nat.add_sub_cancel] at hγeq
      have hveq : v = source := hsrcC hSe hs
      exact hγI (by rw [hγeq, ← hveq]; exact hspec1)
    · obtain ⟨i, hiS, hiadj⟩ := gammaS_inv g S _ source hsz γ hγ0
      have hiS2 : S2.iselement i = true :=
        (iselement_iff S2 i).2 ((hS2els i).2
          (Or.inl ((iselement_iff S i).1 hiS)))
      have hγS2 : S2.iselement γ = false :=
        (iselement_false_iff S2 γ).2 (by
          rw [hS2els γ]
          rintro (hh | hh)
          · exact (iselement_false_iff S γ).1 ((hK γ).1 hγK).2 hh
          · exact hγI hh)
      have hin2 : i < g.n := hSr i ((iselement_iff S i).1 hiS)
      have hγ02 : gammaS g S2 (inducedSubgraphMap g (keepOf g S2)).2.1
          source γ = true :=
        gammaS_complete g S2 _ source hS2sz i γ hin2 hiS2 hiadj hγS2
      have hchainK2 : ReachVia g .out (bfsOk g (some (keepOf g S2)))
          γ u := by
        refine Relation.ReflTransGen.mono (fun p q hpq => ?_) hchain
        obtain ⟨⟨hadjq, hokq⟩, hqI⟩ := hpq
        obtain ⟨hqn, hqNu⟩ := bfsOk_some_dest g _ q hokq
        exact ⟨hadjq, bfsOk_some_true g _ q hqn
          ((hK2_iff q).2 ⟨hNusub q hqNu, hqI⟩)⟩
      have hγreach2 : reachB g (keepOf g S2) γ target :=
        hreach2 γ hγK2 hchainK2
      have hγlo2 : γ ∉ leftoutK g (keepOf g S2) target := fun hmem =>
        ((hloChar2 γ (List.mem_range.2 hγn)).1 hmem).2 hγreach2
      have hγgv2 : γ ∈ gammaVecOf g S2 source target :=
        (gammaVecOf_mem g S2 source target γ).2
          ⟨hγn, gammaFn_intro g S2 source target γ hγ02 hγlo2⟩
      have hγNu2 : γ ∈ nuvK g (keepOf g S2) target u :=
        nuv_transfer g target (keepOf g S) (keepOf g S2) hnd2 hnuvChar
          hnuvChar2 hK2sub hKn u huK hru huK2 hru2 γ hγNu hγK2 hγreach2
      exact igraphBfs_complete g _ _ .out γ u hγgv2
        (bfsOk_some_true g _ γ hγn hγNu2) (htail_trans γ hchain)
  refine ⟨hunotIsv, hun, ?_, hulo2, ?_⟩
  · exact (iselement_false_iff S2 u).2 (by
      rw [hS2els u]
      rintro (hh | hh)
      · exact (iselement_false_iff S u).1 huS hh
      · exact hunotIsv hh)
  · rcases rtg_split (bstep g .out
        (bfsOk g (some (nuvK g (keepOf g S) target u)))) (fun z => z ∈ Isv)
        γ u hγpath hunotIsv with hsplit | ⟨y, z, hyI, hyz, hzI, hzt⟩
    · by_cases hγI : γ ∈ Isv
      · rcases Relation.ReflTransGen.cases_head hsplit with hcb |
          ⟨z, hz, hzb⟩
        · rw [hcb] at hγI
          exact absurd hγI hunotIsv
        · exact hcross γ z hγI hz.1.1 hz.1.2 hz.2 hzb
      · exact hdirect hγI hsplit
    · exact hcross y z hyI hyz.1 hyz.2 hzI hzt

/-- Duplicate-freeness of the emitted partition list of the Provan–Shier
enumeration with the all-cuts pivot, by induction over the recursion,
carrying the stack invariant for every `T` vertex: every emitted partition
extends `S` and avoids `T`, and — since the left partitions avoid the
accepted pivot vertex while the right partitions contain it — no two
emitted partitions have the same vertex set (modulo `DomSound`). -/
theorem psList_nodup_run (g : IGraph) (source target : ℕ)
    (hDS : DomSound g target) (hs : source < g.n) (ht : target < g.n) :
    ∀ (fuel : ℕ) (S : MarkedQueue) (T : EStack) (parts : List (List ℕ))
      (S1 : MarkedQueue) (T1 : EStack),
      psList g pivotAllCuts source target fuel S T = .ok (parts, S1, T1) →
      (∀ w ∈ S.els, w < g.n) → S.iselement target = false →
      (∀ u ∈ T.els, u ≠ target ∧ Ginv g S source target u) →
      (∀ p ∈ parts, (∀ w ∈ S.els, w ∈ p) ∧ (∀ u ∈ T.els, u ∉ p)) ∧
        (parts.map List.toFinset).Nodup := by
  intro fuel
  induction fuel with
  | zero =>
    intro S T parts S1 T1 hps hSr htS hT
    exact absurd hps (by simp [psList])
  | succ fuel ih =>
    intro S T parts S1 T1 hps hSr htS hT
    rw [psList] at hps
    split at hps
    next e hpiv => cases hps
    next v Isv hpiv =>
      split at hps
      next hemp =>
        split at hps
        next hsz =>
          cases hps
          refine ⟨?_, by simp⟩
          intro p hp
          rcases List.mem_singleton.1 hp with rfl
          refine ⟨fun w hw => hw, fun u hu => ?_⟩
          have hGu := (hT u hu).2
          unfold Ginv at hGu
          exact (iselement_false_iff S u).1 hGu.2.1
        next hsz =>
          cases hps
          exact ⟨fun p hp => absurd hp (List.not_mem_nil p), by simp⟩
      next hemp =>
        have hne : Isv ≠ [] := by
          intro hh
          rw [hh] at hemp
          exact hemp rfl
        split at hps
        next e hpush => cases hps
        next T2 hpush =>
          obtain ⟨hT2eq, hvnotT⟩ := estack_push_ok T T2 v hpush
          split at hps
          next e hleft => cases hps
          next parts1 S3 T4 hleft =>
            rcases hright : psList g pivotAllCuts source target fuel
                (Isv.foldl (fun S u => if S.iselement u then S else S.push u)
                  S3.startBatch) T4.pop with e | ⟨parts2, S5, T6⟩
            · rw [hright] at hps; cases hps
            · rw [hright] at hps
              cases hps
              obtain ⟨hS3eq, hT4eq⟩ := psList_restores_state g pivotAllCuts
                source target fuel S T2 parts1 S3 T4 hleft
              obtain ⟨hvt, hGv⟩ := pivotAllCuts_accept g S T source target
                v Isv hpiv hne
              obtain ⟨hvIsv, hIsvn, hvS, hvT, hsrc, htarg⟩ :=
                pivotAllCuts_spec g S T source target v Isv hpiv hne
              have hTinv2 : ∀ u ∈ T2.els, u ≠ target ∧
                  Ginv g S source target u := by
                intro u hu
                rw [hT2eq] at hu
                rcases List.mem_cons.1 hu with rfl | h3
                · exact ⟨hvt, hGv⟩
                · exact hT u h3
              obtain ⟨hprops1, hnd1⟩ := ih S T2 parts1 S3 T4 hleft hSr htS
                hTinv2
              rw [hS3eq, hT4eq, hT2eq, estack_pop_push] at hright
              have hpres : ∀ u ∈ T.els, u ∉ Isv ∧
                  Ginv g (Isv.foldl (fun S u =>
                    if S.iselement u then S else S.push u)
                    S.startBatch) source target u := fun u hu =>
                pivotAllCuts_preserves g S T source target v Isv hDS hs ht
                  htS hSr hpiv hne u ((estack_iselement_iff T u).2 hu)
                  (hT u hu).1 (hT u hu).2
              have hS2r : ∀ w ∈ (Isv.foldl (fun S u =>
                  if S.iselement u then S else S.push u)
                  S.startBatch).els, w < g.n := by
                intro w hw
                rcases (mq_pushLoop_mem Isv S.startBatch w).1 hw with h3 | h3
                · exact hSr w h3
                · exact hIsvn w h3
              have htS2 : (Isv.foldl (fun S u =>
                  if S.iselement u then S else S.push u)
                  S.startBatch).iselement target = false := by
                refine (iselement_false_iff _ target).2 ?_
                intro hh
                rcases (mq_pushLoop_mem Isv S.startBatch target).1 hh
                    with h3 | h3
                · exact (iselement_false_iff S target).1 htS h3
                · exact htarg ht htS h3
              have hTinvR : ∀ u ∈ T.els, u ≠ target ∧
                  Ginv g (Isv.foldl (fun S u =>
                    if S.iselement u then S else S.push u)
                    S.startBatch) source target u := fun u hu =>
                ⟨(hT u hu).1, (hpres u hu).2⟩
              obtain ⟨hprops2, hnd2⟩ := ih _ T parts2 S5 T1 hright hS2r
                htS2 hTinvR
              refine ⟨?_, ?_⟩
              · intro p hp
                rcases List.mem_append.1 hp with h3 | h3
                · obtain ⟨hpre, havoid⟩ := hprops1 p h3
                  refine ⟨hpre, fun u hu => ?_⟩
                  refine havoid u ?_
                  rw [hT2eq]
                  exact List.mem_cons_of_mem _ hu
                · obtain ⟨hpre, havoid⟩ := hprops2 p h3
                  exact ⟨fun w hw => hpre w
                    ((mq_pushLoop_mem Isv S.startBatch w).2 (Or.inl hw)),
                    fun u hu => havoid u hu⟩
              · rw [List.map_append, List.nodup_append]
                refine ⟨hnd1, hnd2, ?_⟩
                intro a ha hb
                obtain ⟨p1, hp1, hfp1⟩ := List.mem_map.1 ha
                obtain ⟨p2, hp2, hfp2⟩ := List.mem_map.1 hb
                have hv2 : v ∈ p2 := (hprops2 p2 hp2).1 v
                  ((mq_pushLoop_mem Isv S.startBatch v).2 (Or.inr hvIsv))
                have hv1 : v ∉ p1 := (hprops1 p1 hp1).2 v
                  (by rw [hT2eq]; exact List.mem_cons_self _ _)
                have hvfin : v ∈ p1.toFinset := by
                  rw [hfp1, ← hfp2]
                  exact List.mem_toFinset.2 hv2
                exact hv1 (List.mem_toFinset.1 hvfin)

/-- C2 (amended): for every directed graph with in-range source and target,
`igraph_all_st_cuts` succeeds, every emitted partition contains the source
and excludes the target, and each entry of the cut list is exactly the list
of edge ids whose tail lies in the corresponding partition and whose head
does not; moreover, under the dominator correctness property `DomSound`
(the semantic characterization of the Lengauer–Tarjan pass: `leftout` is
exactly the set of kept vertices that cannot reach the target, and the
subtree `Nu(x)` exactly the set of kept vertices all of whose target paths
pass through `x`), the emitted partitions are pairwise distinct as vertex
sets — no cut is enumerated twice.  (The claimed completeness of the
enumeration is refuted by `claimC2_counterexample`.) -/
theorem allStCuts_sound (g : IGraph) (s t : ℕ) (hdir : g.directed = true)
    (hs : s < g.n) (ht : t < g.n) :
    (∃ cuts parts, allStCuts g s t = .ok (cuts, parts) ∧
      cuts.length = parts.length ∧
      ∀ i, i < parts.length → s ∈ parts.getD i [] ∧ t ∉ parts.getD i [] ∧
        cuts.getD i [] = (List.range g.edges.length).filter (fun j =>
          decide ((g.edges.getD j (0, 0)).1 ∈ parts.getD i []) &&
          !decide ((g.edges.getD j (0, 0)).2 ∈ parts.getD i []))) ∧
    (DomSound g t → ∀ cuts parts, allStCuts g s t = .ok (cuts, parts) →
      (parts.map List.toFinset).Nodup) := by
  constructor
  · obtain ⟨parts, hok, hP⟩ := allStCuts_runs g s t hdir hs ht
    obtain ⟨hlen, hget⟩ := cutsFromPartitions_spec g parts
    refine ⟨cutsFromPartitions g parts, parts, hok, hlen, ?_⟩
    intro i hi
    have hpmem : parts.getD i [] ∈ parts := by
      rw [List.getD_eq_getElem _ _ hi]
      exact List.getElem_mem hi
    obtain ⟨h1, h2⟩ := hP _ hpmem
    exact ⟨h1, h2, hget i hi⟩
  · intro hDS cuts parts hok
    unfold allStCuts at hok
    rw [if_neg (by rw [hdir]; simp)] at hok
    rcases hps : psList g pivotAllCuts s t (g.n + 1) ⟨[], []⟩ ⟨[]⟩ with
      e | ⟨partitions, Sf, Tf⟩
    · rw [hps] at hok; cases hok
    · rw [hps] at hok
      injection hok with h2
      injection h2 with hc hp
      obtain ⟨hprops, hnd⟩ := psList_nodup_run g s t hDS hs ht (g.n + 1)
        ⟨[], []⟩ ⟨[]⟩ partitions Sf Tf hps
        (fun w hw => absurd hw (List.not_mem_nil w)) rfl
        (fun u hu => absurd hu (List.not_mem_nil u))
      rw [← hp]
      exact hnd

/-- Witness for the amended C2 on the single-edge graph `0 → 1`; the
dominator correctness hypothesis of the distinctness part holds there and
is discharged by evaluation, giving the concrete duplicate-free partition
list. -/
theorem allStCuts_sound_witness :
    ((⟨2, [(0, 1)], true⟩ : IGraph).directed = true ∧
      0 < (⟨2, [(0, 1)], true⟩ : IGraph).n ∧
      1 < (⟨2, [(0, 1)], true⟩ : IGraph).n ∧
      DomSound ⟨2, [(0, 1)], true⟩ 1) ∧
    ((∃ cuts parts, allStCuts ⟨2, [(0, 1)], true⟩ 0 1 = .ok (cuts, parts) ∧
      cuts.length = parts.length ∧
      ∀ i, i < parts.length → 0 ∈ parts.getD i [] ∧ 1 ∉ parts.getD i [] ∧
        cuts.getD i [] =
          (List.range (⟨2, [(0, 1)], true⟩ : IGraph).edges.length).filter
            (fun j =>
              decide (((⟨2, [(0, 1)], true⟩ : IGraph).edges.getD
                j (0, 0)).1 ∈ parts.getD i []) &&
              !decide (((⟨2, [(0, 1)], true⟩ : IGraph).edges.getD
                j (0, 0)).2 ∈ parts.getD i []))) ∧
     (DomSound ⟨2, [(0, 1)], true⟩ 1 →
      ∀ cuts parts, allStCuts ⟨2, [(0, 1)], true⟩ 0 1 = .ok (cuts, parts) →
        (parts.map List.toFinset).Nodup)) :=
  ⟨⟨rfl, by decide, by decide, by decide⟩,
   allStCuts_sound ⟨2, [(0, 1)], true⟩ 0 1 rfl (by decide) (by decide)⟩

end StCuts

